import Mathlib

/-! # Inventory component: slot allocation, stack merging and removal

A shallow embedding of `Unreal Engine/Inventory/InventoryComponent.{h,cpp}` and `Item.h`.

Modelling conventions.

* A `UItem*` is `Option UItem` (`none` is `nullptr`).  Item definitions are immutable while the
  inventory runs, so the record itself (with its `id`) stands for the address: two pointers are
  equal exactly when the records are equal.
* A `UItemInstance*` is `Option UItemInstance`; `NewObject<UItemInstance>()` draws the next unused
  `Guid` from the counter `NextGuid` kept next to the slot array, so every allocation is a new
  object.
* `int32` values are `Int`.  The arithmetic of the mutating calls subtracts or adds one stack
  size and one requested count at a time and is modelled without wrap-around.  The accumulator
  `count` of `HasItemWithAmount` adds up whole stacks, so it is reduced to the `int32` range
  after every addition (`wrapInt32`).
* `SlotIndex` is only ever written by `BeginPlay` with the loop variable `0 ≤ i`, and the
  `-1` of the default constructor lives only in out-parameters that are overwritten before they
  are read; here out-parameters are `Option` results and `SlotIndex` is a `Nat`.
* `SlotsRefreshed.Broadcast(list)` is recorded in the `Broadcast` field of the result of a call:
  one entry per invocation of the delegate, in order.
* The `while` loop of `AddItem` has no syntactic bound, so it is run with fuel and answers
  `none` when the fuel is used up.
* An array read outside `0 .. Num() - 1` and a read through a null pointer are undefined
  behaviour in the source; the queries that can perform one answer in `Except Fault`.
-/

namespace Inventory

/-! ## Data model (`Item.h`, `InventoryComponent.h`) -/

/-- Item definition `UItem`: only the fields read by the inventory. -/
structure UItem where
  id : Nat
  bIsStackable : Bool
  MaxStackSize : Int
deriving DecidableEq, Repr

/-- Runtime instance `UItemInstance`: identity `Guid` and the item it refers to. -/
structure UItemInstance where
  Guid : Nat
  Item : Option UItem
deriving DecidableEq, Repr

/-- One inventory cell `FInventorySlot`. -/
structure FInventorySlot where
  Instance : Option UItemInstance
  Stack : Int
  SlotIndex : Nat
deriving DecidableEq, Repr

namespace FInventorySlot

/-- Constructor `FInventorySlot(int32 Index)`. -/
def ofIndex (Index : Nat) : FInventorySlot := ⟨none, 0, Index⟩

/-- Source `GetStackSize`. -/
def GetStackSize (s : FInventorySlot) : Int := s.Stack

/-- Source `GetMaxStackSize`: 0 without instance, 1 without item or for a non-stackable item. -/
def GetMaxStackSize (s : FInventorySlot) : Int :=
  match s.Instance with
  | none => 0
  | some inst =>
    match inst.Item with
    | none => 1
    | some it => if it.bIsStackable = false then 1 else it.MaxStackSize

/-- Source `CalcAvailableSpace`. -/
def CalcAvailableSpace (s : FInventorySlot) : Int := s.GetMaxStackSize - s.GetStackSize

/-- Source `IsEmpty`: `Stack == 0 || Instance == nullptr`. -/
def IsEmpty (s : FInventorySlot) : Bool := s.Stack == 0 || s.Instance.isNone

/-- Source `IsFull`. -/
def IsFull (s : FInventorySlot) : Bool :=
  if s.IsEmpty then false else s.GetMaxStackSize == s.GetStackSize

/-- Source `GetInstance`: `nullptr` for an empty slot. -/
def GetInstance (s : FInventorySlot) : Option UItemInstance :=
  if s.IsEmpty then none else s.Instance

/-- Source `FreeCount`: the returned flag and the slot afterwards. -/
def FreeCount (s : FInventorySlot) (InCount : Int) : Bool × FInventorySlot :=
  if InCount ≤ 0 then (false, s)
  else
    let Stack := max 0 (s.Stack - InCount)
    (true, { s with Stack := Stack, Instance := if Stack = 0 then none else s.Instance })

/-- Source `Occupy`. -/
def Occupy (s : FInventorySlot) (InInstance : Option UItemInstance) : Bool × FInventorySlot :=
  match InInstance with
  | none => (false, s)
  | some inst =>
    if inst.Item.isNone then (false, s)
    else if s.IsFull then (false, s)
    else (true, { s with Instance := some inst, Stack := s.Stack + 1 })

/-- Source `IncreaseStack`. -/
def IncreaseStack (s : FInventorySlot) (InCount : Int) : Bool × FInventorySlot :=
  if InCount = 0 then (false, s)
  else
    let NewStackSize := s.GetStackSize + InCount
    if NewStackSize > s.GetMaxStackSize then (false, s)
    else (true, { s with Stack := NewStackSize })

/-- Source `Free`: `FreeCount(GetStackSize())`, result discarded. -/
def Free (s : FInventorySlot) : FInventorySlot := (s.FreeCount s.GetStackSize).2

end FInventorySlot

/-- The `int32` that an arithmetic result is stored as: two's complement wrap-around into
`-2147483648 .. 2147483647`. -/
def wrapInt32 (x : Int) : Int := (x + 2147483648) % 4294967296 - 2147483648

/-- Memory faults of an engine call: an array index outside the array, or a read through
a null pointer. -/
inductive Fault where
  | outOfRange
  | nullDeref
deriving DecidableEq, Repr

/-- The fields of `UInventoryComponent` together with the instance allocator. -/
structure UInventoryComponent where
  MaxSlots : Int
  Slots : List FInventorySlot
  NextGuid : Nat
deriving DecidableEq, Repr

/-- What a public call leaves behind: return value, component, delegate invocations. -/
structure Call (α : Type) where
  ret : α
  inv : UInventoryComponent
  Broadcast : List (List Nat)

/-- In-place update `Slots[Index] = f(Slots[Index])`; nothing happens outside the array. -/
def updateAt (l : List FInventorySlot) (Index : Nat) (f : FInventorySlot → FInventorySlot) :
    List FInventorySlot :=
  match l[Index]? with
  | some s => l.set Index (f s)
  | none => l

namespace UInventoryComponent

/-- Source `BeginPlay`: append `FInventorySlot(i)` for `i = 0 .. MaxSlots - 1`. -/
def BeginPlay (inv : UInventoryComponent) : UInventoryComponent :=
  { inv with Slots := inv.Slots ++ (List.range inv.MaxSlots.toNat).map FInventorySlot.ofIndex }

/-- A component constructed with the given capacity, after `BeginPlay`. -/
def Fresh (MaxSlots : Int) : UInventoryComponent := BeginPlay ⟨MaxSlots, [], 0⟩

/-- Source `IsFull`. -/
def IsFull (inv : UInventoryComponent) : Bool := inv.Slots.all (fun s => s.IsFull)

/-- Source `FindFirstFreeSlot`. -/
def FindFirstFreeSlot (inv : UInventoryComponent) : Option FInventorySlot :=
  inv.Slots.find? (fun s => s.IsEmpty)

/-- Source `FindSlotOfInstance`. -/
def FindSlotOfInstance (inv : UInventoryComponent) (Instance : Option UItemInstance) :
    Option FInventorySlot :=
  inv.Slots.find? (fun s => s.GetInstance == Instance)

/-- Loop body test of `FindFirstFreeSlotForStack`. -/
def stackTarget (InItem : Option UItem) (s : FInventorySlot) : Bool :=
  if s.IsEmpty || s.IsFull then false
  else
    match s.GetInstance with
    | none => false
    | some inst => inst.Item == InItem

/-- Source `FindFirstFreeSlotForStack`. -/
def FindFirstFreeSlotForStack (inv : UInventoryComponent) (InItem : Option UItem) :
    Option FInventorySlot :=
  inv.Slots.find? (stackTarget InItem)

/-- Loop body test of `FindSlotsWithItem`: non-empty and `GetInstance()->Item == Item`. -/
def holdsItem (Item : Option UItem) (s : FInventorySlot) : Bool :=
  if s.IsEmpty then false
  else
    match s.GetInstance with
    | none => false
    | some inst => inst.Item == Item

/-- Source `FindSlotsWithItem`: the flag and the copies collected in `OutList`. -/
def FindSlotsWithItem (inv : UInventoryComponent) (Item : Option UItem) :
    Bool × List FInventorySlot :=
  let OutList := inv.Slots.filter (holdsItem Item)
  (!OutList.isEmpty, OutList)

/-- Source `FindSlotForStackableItem`. -/
def FindSlotForStackableItem (inv : UInventoryComponent) (Item : Option UItem) :
    Option FInventorySlot :=
  match inv.FindFirstFreeSlotForStack Item with
  | some s => some s
  | none => inv.FindFirstFreeSlot

/-- Result of the private helpers that work on a slot copy `InSlot&`. -/
structure SlotCall (α : Type) where
  ret : α
  InSlot : FInventorySlot
  inv : UInventoryComponent

/-- Source `AddNewInstanceToSlot`. -/
def AddNewInstanceToSlot (inv : UInventoryComponent) (InSlot : FInventorySlot) (Item : UItem)
    (StackAmount : Int) : SlotCall Bool :=
  if Item.MaxStackSize < StackAmount then ⟨false, InSlot, inv⟩
  else
    match InSlot.Instance with
    | none =>
      let newInstance : UItemInstance := ⟨inv.NextGuid, some Item⟩
      let s1 := (InSlot.Occupy (some newInstance)).2
      let s2 := (s1.IncreaseStack (StackAmount - 1)).2
      ⟨true, s2, { inv with Slots := updateAt inv.Slots s2.SlotIndex (fun _ => s2),
                            NextGuid := inv.NextGuid + 1 }⟩
    | some _ => ⟨false, InSlot, inv⟩

/-- Source `AddStackedItemToSlot`: returns the overshoot. -/
def AddStackedItemToSlot (inv : UInventoryComponent) (InSlot : FInventorySlot) (Item : UItem)
    (StackAmount : Int) : SlotCall Int :=
  let bIsEmpty := InSlot.IsEmpty
  let availableSpace := if bIsEmpty then Item.MaxStackSize else InSlot.CalcAvailableSpace
  let overshoot := availableSpace - StackAmount
  let absOvershoot := if overshoot < 0 then |overshoot| else 0
  let amountToAdd := if overshoot < 0 then StackAmount - absOvershoot else StackAmount
  if bIsEmpty then
    let r := AddNewInstanceToSlot inv InSlot Item amountToAdd
    if r.ret = false then ⟨StackAmount, r.InSlot, r.inv⟩
    else ⟨absOvershoot, r.InSlot, r.inv⟩
  else
    let s := (InSlot.IncreaseStack amountToAdd).2
    ⟨absOvershoot, s, { inv with Slots := updateAt inv.Slots s.SlotIndex (fun _ => s) }⟩

/-- State of the `for` loop of `HandleNonStackableItem`. -/
structure NonStackLoop where
  leftovers : Int
  inv : UInventoryComponent
  changedSlots : List Nat

/-- The loop `for (i = 0; i < Count; i++)` of `HandleNonStackableItem`, by the number
`Count - i` of iterations still to run. -/
def HandleNonStackableItem.loop (Item : UItem) :
    Nat → UInventoryComponent → List Nat → NonStackLoop
  | 0, inv, changedSlots => ⟨0, inv, changedSlots⟩
  | n + 1, inv, changedSlots =>
    match inv.FindFirstFreeSlot with
    | none => ⟨((n + 1 : Nat) : Int), inv, changedSlots⟩
    | some outSlot =>
      let r := AddNewInstanceToSlot inv outSlot Item 1
      HandleNonStackableItem.loop Item n r.inv
        (if r.ret then changedSlots ++ [r.InSlot.SlotIndex] else changedSlots)

/-- Source `HandleNonStackableItem`: returns the leftovers and broadcasts once. -/
def HandleNonStackableItem (inv : UInventoryComponent) (Item : UItem) (Count : Int) : Call Int :=
  let r := HandleNonStackableItem.loop Item Count.toNat inv []
  ⟨r.leftovers, r.inv, [r.changedSlots]⟩

/-- The overflow loop of `AddItem`:
`while (overshootAmount > 0 && bHasSlot)` with `bHasSlot = FindFirstFreeSlot(Slot)`. -/
def AddItem.loop (Item : UItem) :
    Nat → UInventoryComponent → Int → List Nat → Option (UInventoryComponent × List Nat)
  | fuel, inv, overshootAmount, ChangedSlots =>
    if overshootAmount > 0 then
      match inv.FindFirstFreeSlot with
      | none => some (inv, ChangedSlots)
      | some Slot =>
        match fuel with
        | 0 => none
        | fuel + 1 =>
          let r := AddStackedItemToSlot inv Slot Item overshootAmount
          AddItem.loop Item fuel r.inv r.ret (ChangedSlots ++ [r.InSlot.SlotIndex])
    else some (inv, ChangedSlots)

/-- Source `AddItem`.  The local `slotAmount = FMath::DivideAndRoundUp(Count, MaxStackSize)` is
computed and never read, so it is left out. -/
def AddItem (fuel : Nat) (inv : UInventoryComponent) (Item : Option UItem) (Count : Int) :
    Option (Call Bool) :=
  match Item with
  | none => some ⟨false, inv, []⟩
  | some it =>
    if inv.IsFull then some ⟨false, inv, []⟩
    else if it.bIsStackable = false then
      let r := HandleNonStackableItem inv it Count
      some ⟨true, r.inv, r.Broadcast⟩
    else
      match inv.FindSlotForStackableItem (some it) with
      | none => some ⟨false, inv, []⟩
      | some Slot =>
        let r := AddStackedItemToSlot inv Slot it Count
        if r.ret = Count then some ⟨false, r.inv, []⟩
        else
          (AddItem.loop it fuel r.inv r.ret [r.InSlot.SlotIndex]).map
            (fun p => ⟨true, p.1, [p.2]⟩)

/-- State of the `while` loop of `RemoveItem`. -/
structure RemoveLoop where
  Slots : List FInventorySlot
  ChangedSlots : List Nat
  RemovedItems : Int
  Count : Int
  LeftCount : Int

/-- The loop `while (Count > 0)` of `RemoveItem` over the sorted copies `FoundSlots[i..]`;
running out of copies is the `break`. -/
def RemoveItem.loop : List FInventorySlot → RemoveLoop → RemoveLoop
  | [], st => st
  | f :: rest, st =>
    if st.Count > 0 then
      let LeftCount := st.Count - f.Stack
      RemoveItem.loop rest
        { Slots := updateAt st.Slots f.SlotIndex (fun s => (s.FreeCount st.Count).2)
          ChangedSlots := st.ChangedSlots ++ [f.SlotIndex]
          RemovedItems := st.RemovedItems + (st.Count - LeftCount)
          Count := LeftCount
          LeftCount := LeftCount }
    else st

/-- Source `FoundSlots.Sort` with the predicate `LHS.GetStackSize() < RHS.GetStackSize()`:
ascending stack size, here with ties kept in slot order.  The theorems below use only that
the result is a sorted permutation of its input. -/
def sortByStack (l : List FInventorySlot) : List FInventorySlot :=
  l.insertionSort (fun a b => a.GetStackSize ≤ b.GetStackSize)

/-- Source `RemoveItem(Item, Count, RemovedItems&)`: `ret` is the flag together with the
final value of `RemovedItems`. -/
def RemoveItem (inv : UInventoryComponent) (Item : Option UItem) (Count : Int)
    (RemovedItems : Int) : Call (Bool × Int) :=
  let found := inv.FindSlotsWithItem Item
  if found.1 = false then ⟨(false, RemovedItems), inv, []⟩
  else
    let FoundSlots := sortByStack found.2
    let st := RemoveItem.loop FoundSlots ⟨inv.Slots, [], RemovedItems, Count, 0⟩
    ⟨(if st.LeftCount > 0 then false else true, st.RemovedItems),
      { inv with Slots := st.Slots }, [st.ChangedSlots]⟩

/-- Source `RemoveInstance`. -/
def RemoveInstance (inv : UInventoryComponent) (Instance : Option UItemInstance) : Call Bool :=
  match inv.FindSlotOfInstance Instance with
  | none => ⟨false, inv, []⟩
  | some Slot =>
    ⟨true, { inv with Slots := updateAt inv.Slots Slot.SlotIndex (fun s => s.Free) },
      [[Slot.SlotIndex]]⟩

/-- Predicate of `FilterByPredicate` in `HasItemWithAmount`, as its effect on the captured
`int32 count`: an empty slot and a slot of another item leave it alone, a matching slot does
`count += InSlot.GetStackSize()`. -/
def HasItemWithAmount.visit (Item : Option UItem) (count : Int) (InSlot : FInventorySlot) :
    Int :=
  if InSlot.IsEmpty then count
  else
    match InSlot.Instance with
    | none => count
    | some inst =>
      if inst.Item == Item then wrapInt32 (count + InSlot.GetStackSize) else count

/-- Source `HasItemWithAmount`: run the predicate over the slots in array order, starting
from `count = 0`, and answer `count >= Amount`. -/
def HasItemWithAmount (inv : UInventoryComponent) (Item : Option UItem) (Amount : Int) : Bool :=
  let count := inv.Slots.foldl (HasItemWithAmount.visit Item) 0
  decide (count ≥ Amount)

/-- Array read `Slots[Index]` of the engine array: outside `0 .. Num - 1` it is a fault. -/
def arrayAt (l : List FInventorySlot) (Index : Int) : Except Fault FInventorySlot :=
  if Index < 0 then Except.error Fault.outOfRange
  else
    match l[Index.toNat]? with
    | some s => Except.ok s
    | none => Except.error Fault.outOfRange

/-- Source `GetItemInstanceAtIndex`: the returned pointer, or the fault of the array read. -/
def GetItemInstanceAtIndex (inv : UInventoryComponent) (Index : Int) :
    Except Fault (Option UItemInstance) :=
  if Index ≥ inv.MaxSlots then Except.ok none
  else if inv.Slots.length = 0 then Except.ok none
  else
    match arrayAt inv.Slots Index with
    | Except.error e => Except.error e
    | Except.ok slot => if slot.IsEmpty then Except.ok none else Except.ok slot.Instance

/-- Source `GetSlot`: `none` for the return value false (the out-parameter is not written),
`some` copy for true, or the fault of the array read. -/
def GetSlot (inv : UInventoryComponent) (Index : Int) : Except Fault (Option FInventorySlot) :=
  if Index ≥ inv.MaxSlots then Except.ok none
  else if inv.Slots.length = 0 then Except.ok none
  else
    match arrayAt inv.Slots Index with
    | Except.error e => Except.error e
    | Except.ok slot => Except.ok (some slot)

/-- The predicate walk of `Slots.FindByPredicate` in `HasItem`: each visited slot evaluates
`InSlot.Instance->Item == Item`, a null dereference when the slot has no instance. -/
def HasItem.scan (Item : Option UItem) : List FInventorySlot → Except Fault Bool
  | [] => Except.ok false
  | InSlot :: rest =>
    match InSlot.Instance with
    | none => Except.error Fault.nullDeref
    | some inst => if inst.Item == Item then Except.ok true else HasItem.scan Item rest

/-- Source `HasItem`. -/
def HasItem (inv : UInventoryComponent) (Item : Option UItem) : Except Fault Bool :=
  HasItem.scan Item inv.Slots

end UInventoryComponent


/-! ## Specification vocabulary -/

/-- Slot well-formedness as the data model states it: no occupant and stack 0, or an occupant
and `0 < Stack ≤ GetMaxStackSize`. -/
def WellFormedSlot (s : FInventorySlot) : Prop :=
  (s.Instance = none ∧ s.Stack = 0) ∨
    (s.Instance ≠ none ∧ 0 < s.Stack ∧ s.Stack ≤ s.GetMaxStackSize)

/-- Well-formed slot whose occupant, if any, refers to an item with `MaxStackSize ≥ 1`. -/
def SlotOK (s : FInventorySlot) : Prop :=
  (s.Instance = none ∧ s.Stack = 0) ∨
    (∃ g it, s.Instance = some ⟨g, some it⟩ ∧ 1 ≤ it.MaxStackSize ∧ 0 < s.Stack ∧
      s.Stack ≤ s.GetMaxStackSize)

/-- Invariant of the component: slot `i` carries index `i`, every slot is well-formed, and no
item has two non-full stacks. -/
structure Inv (inv : UInventoryComponent) : Prop where
  idx : ∀ (i : Nat) (s : FInventorySlot), inv.Slots[i]? = some s → s.SlotIndex = i
  ok : ∀ s ∈ inv.Slots, SlotOK s
  one : ∀ X : Option UItem, inv.Slots.countP (UInventoryComponent.stackTarget X) ≤ 1

/-- States reachable from a freshly initialised inventory by `AddItem` (non-null item with
`MaxStackSize ≥ 1`), `RemoveItem` and `RemoveInstance`, every count being at least 1. -/
inductive Reachable : UInventoryComponent → Prop
  | fresh (MaxSlots : Int) : Reachable (UInventoryComponent.Fresh MaxSlots)
  | addItem {inv : UInventoryComponent} (fuel : Nat) (it : UItem) (Count : Int)
      (out : Call Bool) : Reachable inv → 1 ≤ Count → 1 ≤ it.MaxStackSize →
      UInventoryComponent.AddItem fuel inv (some it) Count = some out → Reachable out.inv
  | removeItem {inv : UInventoryComponent} (Item : Option UItem) (Count RemovedItems : Int) :
      Reachable inv → 1 ≤ Count →
      Reachable (UInventoryComponent.RemoveItem inv Item Count RemovedItems).inv
  | removeInstance {inv : UInventoryComponent} (Instance : Option UItemInstance) :
      Reachable inv → Reachable (UInventoryComponent.RemoveInstance inv Instance).inv

/-- Total number of units of `Item` held: the stacks of the slots `FindSlotsWithItem` matches. -/
def unitsHeld (Item : Option UItem) (l : List FInventorySlot) : Int :=
  ((l.filter (UInventoryComponent.holdsItem Item)).map (fun s => s.Stack)).sum

/-- Number of empty slots. -/
def emptyCount (l : List FInventorySlot) : Nat := l.countP (fun s => s.IsEmpty)

/-- Room left for a stackable item with max stack `M`: `M - Stack` over the slots holding it
plus `M` for every empty slot. -/
def freeSpace (Item : UItem) (l : List FInventorySlot) : Int :=
  ((l.filter (UInventoryComponent.holdsItem (some Item))).map
      (fun s => Item.MaxStackSize - s.Stack)).sum + Item.MaxStackSize * (emptyCount l)

/-- List-recursive description of the overflow placement: walking the slots in index order,
each empty slot receives a new instance with `min c MaxStackSize` units while `c > 0`. -/
def fillStack (Item : UItem) : Nat → Int → List FInventorySlot → List FInventorySlot
  | _, _, [] => []
  | g, c, s :: rest =>
    if c > 0 then
      if s.IsEmpty then
        ⟨some ⟨g, some Item⟩, min c Item.MaxStackSize, s.SlotIndex⟩ ::
          fillStack Item (g + 1) (c - min c Item.MaxStackSize) rest
      else s :: fillStack Item g c rest
    else s :: rest

/-- Indices of the slots `fillStack` writes, in the order they are written. -/
def fillIdx (Item : UItem) : Int → List FInventorySlot → List Nat
  | _, [] => []
  | c, s :: rest =>
    if c > 0 then
      if s.IsEmpty then s.SlotIndex :: fillIdx Item (c - min c Item.MaxStackSize) rest
      else fillIdx Item c rest
    else []

/-- List-recursive description of the non-stackable placement: the first `n` empty slots, in
index order, each receive a new instance with one unit. -/
def fillSingles (Item : UItem) : Nat → Nat → List FInventorySlot → List FInventorySlot
  | _, _, [] => []
  | _, 0, s :: rest => s :: rest
  | g, n + 1, s :: rest =>
    if s.IsEmpty then
      ⟨some ⟨g, some Item⟩, 1, s.SlotIndex⟩ :: fillSingles Item (g + 1) n rest
    else s :: fillSingles Item g (n + 1) rest

/-- Indices of the slots `fillSingles` writes, in the order they are written. -/
def singlesIdx : Nat → List FInventorySlot → List Nat
  | _, [] => []
  | 0, _ :: _ => []
  | n + 1, s :: rest =>
    if s.IsEmpty then s.SlotIndex :: singlesIdx n rest else singlesIdx (n + 1) rest

/-- Engine helper `FMath::DivideAndRoundUp` on positive operands, as `AddItem` calls it for
the number of slots a request needs. -/
def DivideAndRoundUp (Dividend Divisor : Int) : Int := (Dividend + Divisor - 1) / Divisor

/-- Number of empty slots strictly before index `i`. -/
def emptyBefore (l : List FInventorySlot) (i : Nat) : Nat := emptyCount (l.take i)

/-- States reachable from a freshly initialised inventory by any `AddItem`, `RemoveItem` and
`RemoveInstance` calls: any item pointer, any integer count, any instance pointer. -/
inductive ReachableAny : UInventoryComponent → Prop
  | fresh (MaxSlots : Int) : ReachableAny (UInventoryComponent.Fresh MaxSlots)
  | addItem {inv : UInventoryComponent} (fuel : Nat) (Item : Option UItem) (Count : Int)
      (out : Call Bool) : ReachableAny inv →
      UInventoryComponent.AddItem fuel inv Item Count = some out → ReachableAny out.inv
  | removeItem {inv : UInventoryComponent} (Item : Option UItem) (Count RemovedItems : Int) :
      ReachableAny inv →
      ReachableAny (UInventoryComponent.RemoveItem inv Item Count RemovedItems).inv
  | removeInstance {inv : UInventoryComponent} (Instance : Option UItemInstance) :
      ReachableAny inv → ReachableAny (UInventoryComponent.RemoveInstance inv Instance).inv

/-- The slot's `Instance` pointer is non-null and its object has identity `k`. -/
def hasGuid (k : Nat) (s : FInventorySlot) : Bool :=
  match s.Instance with
  | none => false
  | some a => a.Guid == k

/-- Allocation discipline of the instances: every instance in a slot was drawn from the
counter, and no two slots share one. -/
structure GuidInv (inv : UInventoryComponent) : Prop where
  below : ∀ s ∈ inv.Slots, ∀ a, s.Instance = some a → a.Guid < inv.NextGuid
  uniq : ∀ k : Nat, inv.Slots.countP (hasGuid k) ≤ 1

/-- The occupant or the stack count of a slot differs between two states. -/
def slotDiffers (s u : FInventorySlot) : Prop := s.Instance ≠ u.Instance ∨ s.Stack ≠ u.Stack

/-- Slot indices, in array order, of the positions at which two slot arrays differ. -/
def changedIdx : List FInventorySlot → List FInventorySlot → List Nat
  | s :: pre, u :: post =>
    if s = u then changedIdx pre post else s.SlotIndex :: changedIdx pre post
  | _, _ => []

/-- The list `B` names, without repetition, exactly the indices at which the slot arrays
`pre` and `post` differ in occupant or stack count, and the arrays agree everywhere else. -/
def ListsChanged (pre post : List FInventorySlot) (B : List Nat) : Prop :=
  B.Nodup ∧
  (∀ i : Nat, i ∈ B ↔ ∃ s u, pre[i]? = some s ∧ post[i]? = some u ∧ slotDiffers s u) ∧
  (∀ i : Nat, i ∉ B → post[i]? = pre[i]?)

/-! ## Concrete items and states used to instantiate the theorems -/

/-- A stackable item with max stack 5. -/
def exItem : UItem := ⟨1, true, 5⟩

/-- A stackable item with max stack 3. -/
def exItem3 : UItem := ⟨2, true, 3⟩

/-- A non-stackable item. -/
def exSingle : UItem := ⟨3, false, 1⟩

/-- Capacity 2, the same item in both slots with stacks 5 and 2: the state after
`AddItem(exItem, 7)` on a fresh inventory. -/
def exInv : UInventoryComponent :=
  ⟨2, [⟨some ⟨0, some exItem⟩, 5, 0⟩, ⟨some ⟨1, some exItem⟩, 2, 1⟩], 2⟩

/-- Capacity 3 with one non-stackable occupant in slot 0: the state after
`AddItem(exSingle, 1)` on a fresh inventory. -/
def exInv3 : UInventoryComponent :=
  ⟨3, [⟨some ⟨0, some exSingle⟩, 1, 0⟩, ⟨none, 0, 1⟩, ⟨none, 0, 2⟩], 1⟩

/-- Capacity 2 after `AddItem(exItem3, 3)`, `AddItem(exItem3, 0)` and `RemoveItem(exItem3, 1)`
on a fresh inventory: slot 0 holds a stack of 2, slot 1 carries an instance with stack 0. -/
def exStuck : UInventoryComponent :=
  ⟨2, [⟨some ⟨0, some exItem3⟩, 2, 0⟩, ⟨some ⟨1, some exItem3⟩, 0, 1⟩], 2⟩

/-- A stackable item with max stack 800000000. -/
def exBigItem : UItem := ⟨4, true, 800000000⟩

/-- Capacity 3 after three calls `AddItem(exBigItem, 800000000)` on a fresh inventory: three
full stacks, 2400000000 units in all. -/
def exBig : UInventoryComponent :=
  ⟨3, [⟨some ⟨0, some exBigItem⟩, 800000000, 0⟩, ⟨some ⟨1, some exBigItem⟩, 800000000, 1⟩,
    ⟨some ⟨2, some exBigItem⟩, 800000000, 2⟩], 3⟩

open UInventoryComponent

theorem updateAt_eq_set (l : List FInventorySlot) (i : Nat) (f : FInventorySlot → FInventorySlot)
    (h : i < l.length) : updateAt l i f = l.set i (f l[i]) := by
  simp [updateAt, List.getElem?_eq_getElem h]

theorem SlotOK.empty_shape {s : FInventorySlot} (h : SlotOK s) (he : s.IsEmpty = true) :
    s = ⟨none, 0, s.SlotIndex⟩ := by
  rcases h with ⟨h1, h2⟩ | ⟨g, it, h1, _, h3, _⟩
  · cases s; simp_all
  · simp [FInventorySlot.IsEmpty, h1] at he; omega

theorem SlotOK.full_shape {s : FInventorySlot} (h : SlotOK s) (he : s.IsEmpty = false) :
    ∃ g it, s = ⟨some ⟨g, some it⟩, s.Stack, s.SlotIndex⟩ ∧ 1 ≤ it.MaxStackSize ∧
      0 < s.Stack ∧ s.Stack ≤ (if it.bIsStackable = false then 1 else it.MaxStackSize) := by
  rcases h with ⟨h1, h2⟩ | ⟨g, it, h1, h2, h3, h4⟩
  · simp [FInventorySlot.IsEmpty, h1] at he
  · refine ⟨g, it, ?_, h2, h3, ?_⟩
    · cases s; simp_all
    · simpa [FInventorySlot.GetMaxStackSize, h1] using h4

/-- Creating an instance in an empty slot: the effect of `AddNewInstanceToSlot`. -/
theorem addNew_empty (inv : UInventoryComponent) (i : Nat) (Item : UItem) (a : Int)
    (hi : i < inv.Slots.length) (ha : 1 ≤ a) (haM : a ≤ Item.MaxStackSize)
    (hS : Item.bIsStackable = true ∨ a = 1) :
    AddNewInstanceToSlot inv ⟨none, 0, i⟩ Item a =
      ⟨true, ⟨some ⟨inv.NextGuid, some Item⟩, a, i⟩,
        { inv with
          Slots := inv.Slots.set i ⟨some ⟨inv.NextGuid, some Item⟩, a, i⟩
          NextGuid := inv.NextGuid + 1 }⟩ := by
  have h0 : ¬ (Item.MaxStackSize < a) := by omega
  by_cases h1 : a = 1
  · subst h1
    simp [AddNewInstanceToSlot, FInventorySlot.Occupy, FInventorySlot.IncreaseStack,
      FInventorySlot.IsEmpty, FInventorySlot.IsFull, updateAt_eq_set, hi, h0]
  · have hS' : Item.bIsStackable = true := by
      rcases hS with h | h
      · exact h
      · exact absurd h h1
    have h2 : ¬ (a - 1 = 0) := by omega
    have h3 : ¬ (Item.MaxStackSize < 1 + (a - 1)) := by omega
    simp [AddNewInstanceToSlot, FInventorySlot.Occupy, FInventorySlot.IncreaseStack,
      FInventorySlot.IsEmpty, FInventorySlot.IsFull, FInventorySlot.GetMaxStackSize,
      FInventorySlot.GetStackSize, updateAt_eq_set, hi, h0, h2, h3, hS']

/-- Placing into an empty slot: the effect of `AddStackedItemToSlot`. -/
theorem addStacked_empty (inv : UInventoryComponent) (i : Nat) (Item : UItem) (c : Int)
    (hi : i < inv.Slots.length) (hS : Item.bIsStackable = true) (hM : 1 ≤ Item.MaxStackSize)
    (hc : 0 < c) :
    AddStackedItemToSlot inv ⟨none, 0, i⟩ Item c =
      ⟨c - min c Item.MaxStackSize,
        ⟨some ⟨inv.NextGuid, some Item⟩, min c Item.MaxStackSize, i⟩,
        { inv with
          Slots := inv.Slots.set i ⟨some ⟨inv.NextGuid, some Item⟩, min c Item.MaxStackSize, i⟩
          NextGuid := inv.NextGuid + 1 }⟩ := by
  have hnew := addNew_empty inv i Item (min c Item.MaxStackSize) hi (by omega) (by omega)
    (Or.inl hS)
  by_cases h1 : Item.MaxStackSize < c
  · have hmin : min c Item.MaxStackSize = Item.MaxStackSize := by omega
    have habs : |Item.MaxStackSize - c| = c - Item.MaxStackSize := by
      rw [abs_of_neg (by omega)]; omega
    rw [hmin] at hnew ⊢
    have e : c - (c - Item.MaxStackSize) = Item.MaxStackSize := by omega
    simp [AddStackedItemToSlot, FInventorySlot.IsEmpty, h1, habs, e, hnew]
  · have hmin : min c Item.MaxStackSize = c := by omega
    rw [hmin] at hnew ⊢
    simp [AddStackedItemToSlot, FInventorySlot.IsEmpty, h1, hnew]

/-- Topping up a partial stack: the effect of `AddStackedItemToSlot`. -/
theorem addStacked_topUp (inv : UInventoryComponent) (g i : Nat) (Item : UItem) (k c : Int)
    (hi : i < inv.Slots.length) (hS : Item.bIsStackable = true) (hk : 0 < k)
    (hkM : k < Item.MaxStackSize) (hc : 0 < c) :
    AddStackedItemToSlot inv ⟨some ⟨g, some Item⟩, k, i⟩ Item c =
      ⟨c - min c (Item.MaxStackSize - k),
        ⟨some ⟨g, some Item⟩, k + min c (Item.MaxStackSize - k), i⟩,
        { inv with
          Slots := inv.Slots.set i ⟨some ⟨g, some Item⟩, k + min c (Item.MaxStackSize - k), i⟩ }⟩ := by
  have hk0 : ¬ (k = 0) := by omega
  by_cases h1 : Item.MaxStackSize - k < c
  · have hmin : min c (Item.MaxStackSize - k) = Item.MaxStackSize - k := by omega
    have habs : |Item.MaxStackSize - k - c| = c - (Item.MaxStackSize - k) := by
      rw [abs_of_neg (by omega)]; omega
    have e : c - (c - (Item.MaxStackSize - k)) = Item.MaxStackSize - k := by omega
    have e2 : ¬ (Item.MaxStackSize - k = 0) := by omega
    rw [hmin]
    simp [AddStackedItemToSlot, FInventorySlot.IsEmpty, FInventorySlot.CalcAvailableSpace,
      FInventorySlot.GetMaxStackSize, FInventorySlot.GetStackSize, FInventorySlot.IncreaseStack,
      hS, hk0, h1, habs, e, e2, updateAt_eq_set, hi]
  · have hmin : min c (Item.MaxStackSize - k) = c := by omega
    have e2 : ¬ (c = 0) := by omega
    have e3 : ¬ (Item.MaxStackSize < k + c) := by omega
    rw [hmin]
    simp [AddStackedItemToSlot, FInventorySlot.IsEmpty, FInventorySlot.CalcAvailableSpace,
      FInventorySlot.GetMaxStackSize, FInventorySlot.GetStackSize, FInventorySlot.IncreaseStack,
      hS, hk0, h1, e2, e3, updateAt_eq_set, hi]

/-! ## The add loops as list recursions -/

theorem fillStack_nonpos (Item : UItem) (g : Nat) (c : Int) (l : List FInventorySlot)
    (hc : ¬ (c > 0)) : fillStack Item g c l = l := by
  cases l <;> simp [fillStack, hc]

theorem fillIdx_nonpos (Item : UItem) (c : Int) (l : List FInventorySlot)
    (hc : ¬ (c > 0)) : fillIdx Item c l = [] := by
  cases l <;> simp [fillIdx, hc]

theorem fillStack_skip (Item : UItem) (g : Nat) (c : Int) (as l : List FInventorySlot)
    (has : ∀ s ∈ as, s.IsEmpty = false) :
    fillStack Item g c (as ++ l) = as ++ fillStack Item g c l := by
  induction as with
  | nil => simp
  | cons a as ih =>
    have ha : a.IsEmpty = false := has a (by simp)
    have ih2 := ih (fun s hs => has s (by simp [hs]))
    by_cases hc : c > 0
    · simp [fillStack, hc, ha, ih2]
    · simp [fillStack_nonpos, hc]

theorem fillIdx_skip (Item : UItem) (c : Int) (as l : List FInventorySlot)
    (has : ∀ s ∈ as, s.IsEmpty = false) :
    fillIdx Item c (as ++ l) = fillIdx Item c l := by
  induction as with
  | nil => simp
  | cons a as ih =>
    have ha : a.IsEmpty = false := has a (by simp)
    have ih2 := ih (fun s hs => has s (by simp [hs]))
    by_cases hc : c > 0
    · simp [fillIdx, hc, ha, ih2]
    · simp [fillIdx_nonpos, hc]

/-- Decomposition of the slot array around the first slot a search returns. -/
theorem find_split {l : List FInventorySlot}
    (hidx : ∀ (i : Nat) (s : FInventorySlot), l[i]? = some s → s.SlotIndex = i)
    {p : FInventorySlot → Bool} {t : FInventorySlot} (h : l.find? p = some t) :
    p t = true ∧ ∃ as bs, l = as ++ t :: bs ∧ (∀ a ∈ as, p a = false) ∧
      t.SlotIndex = as.length := by
  rw [List.find?_eq_some] at h
  obtain ⟨hp, as, bs, hl, has⟩ := h
  refine ⟨hp, as, bs, hl, ?_, ?_⟩
  · intro a ha; simpa using has a ha
  · apply hidx
    rw [hl, List.getElem?_append_right (Nat.le_refl _)]
    simp

theorem set_split (as bs : List FInventorySlot) (t u : FInventorySlot) :
    (as ++ t :: bs).set as.length u = as ++ u :: bs := by
  simp

theorem sum_map_set (f : FInventorySlot → Int) (l : List FInventorySlot) (i : Nat)
    (h : i < l.length) (a : FInventorySlot) :
    ((l.set i a).map f).sum = (l.map f).sum - f l[i] + f a := by
  induction l generalizing i with
  | nil => simp at h
  | cons x xs ih =>
    cases i with
    | zero => simp; omega
    | succ n =>
      have h2 : n < xs.length := by simpa using h
      simp only [List.set_cons_succ, List.map_cons, List.sum_cons, List.getElem_cons_succ]
      rw [ih n h2]; omega

theorem sum_filter_map (p : FInventorySlot → Bool) (f : FInventorySlot → Int)
    (l : List FInventorySlot) :
    ((l.filter p).map f).sum = (l.map (fun s => if p s then f s else 0)).sum := by
  induction l with
  | nil => simp
  | cons x xs ih =>
    by_cases hx : p x <;> simp [List.filter_cons, hx, ih]

theorem countP_set (p : FInventorySlot → Bool) (l : List FInventorySlot) (i : Nat)
    (h : i < l.length) (a : FInventorySlot) :
    (l.set i a).countP p + (if p l[i] then 1 else 0) = l.countP p + (if p a then 1 else 0) := by
  induction l generalizing i with
  | nil => simp at h
  | cons x xs ih =>
    cases i with
    | zero => simp [List.countP_cons]; omega
    | succ n =>
      have h2 : n < xs.length := by simpa using h
      simp only [List.set_cons_succ, List.countP_cons, List.getElem_cons_succ]
      have := ih n h2
      omega

theorem idx_set {l : List FInventorySlot}
    (hidx : ∀ (i : Nat) (s : FInventorySlot), l[i]? = some s → s.SlotIndex = i)
    (j : Nat) (u : FInventorySlot) (hu : u.SlotIndex = j) :
    ∀ (i : Nat) (s : FInventorySlot), (l.set j u)[i]? = some s → s.SlotIndex = i := by
  intro i s h
  rw [List.getElem?_set] at h
  by_cases hji : j = i
  · subst hji
    by_cases hlt : j < l.length
    · simp [hlt] at h; rw [← h]; exact hu
    · simp [hlt] at h
  · simp [hji] at h
    exact hidx i s h

theorem ok_set {l : List FInventorySlot} (hok : ∀ s ∈ l, SlotOK s) (j : Nat)
    (u : FInventorySlot) (hu : SlotOK u) : ∀ s ∈ l.set j u, SlotOK s := by
  intro s hs
  rcases List.mem_or_eq_of_mem_set hs with h | h
  · exact hok s h
  · rw [h]; exact hu

theorem slotOK_filled (g i : Nat) (Item : UItem) (k : Int) (hM : 1 ≤ Item.MaxStackSize)
    (hk : 0 < k) (hkM : k ≤ (if Item.bIsStackable = false then 1 else Item.MaxStackSize)) :
    SlotOK ⟨some ⟨g, some Item⟩, k, i⟩ := by
  right
  exact ⟨g, Item, rfl, hM, hk, by simpa [FInventorySlot.GetMaxStackSize] using hkM⟩

/-- The overflow loop of `AddItem` computes `fillStack`, and returns as soon as the fuel covers
the number of empty slots. -/
theorem addLoop_eq (Item : UItem) (hS : Item.bIsStackable = true)
    (hM : 1 ≤ Item.MaxStackSize) :
    ∀ (fuel : Nat) (inv : UInventoryComponent) (c : Int) (ch : List Nat),
      (∀ (i : Nat) (s : FInventorySlot), inv.Slots[i]? = some s → s.SlotIndex = i) →
      (∀ s ∈ inv.Slots, SlotOK s) → emptyCount inv.Slots ≤ fuel →
      AddItem.loop Item fuel inv c ch =
        some ({ inv with
                Slots := fillStack Item inv.NextGuid c inv.Slots
                NextGuid := inv.NextGuid + (fillIdx Item c inv.Slots).length },
              ch ++ fillIdx Item c inv.Slots) := by
  intro fuel
  induction fuel with
  | zero =>
    intro inv c ch hidx hok hfuel
    unfold AddItem.loop
    by_cases hc : c > 0
    · have hnone : inv.FindFirstFreeSlot = none := by
        simp only [FindFirstFreeSlot, List.find?_eq_none]
        intro x hx
        have : emptyCount inv.Slots = 0 := by omega
        simp only [emptyCount, List.countP_eq_zero] at this
        exact this x hx
      have hall : ∀ s ∈ inv.Slots, s.IsEmpty = false := by
        simp only [FindFirstFreeSlot, List.find?_eq_none] at hnone
        intro s hs; simpa using hnone s hs
      have e1 := fillStack_skip Item inv.NextGuid c inv.Slots [] hall
      have e2 := fillIdx_skip Item c inv.Slots [] hall
      simp only [List.append_nil] at e1 e2
      simp [hc, hnone, e1, e2, fillStack, fillIdx]
    · simp [hc, fillStack_nonpos, fillIdx_nonpos]
  | succ n ih =>
    intro inv c ch hidx hok hfuel
    unfold AddItem.loop
    by_cases hc : c > 0
    · cases hf : inv.FindFirstFreeSlot with
      | none =>
        have hall : ∀ s ∈ inv.Slots, s.IsEmpty = false := by
          simp only [FindFirstFreeSlot, List.find?_eq_none] at hf
          intro s hs; simpa using hf s hs
        have e1 := fillStack_skip Item inv.NextGuid c inv.Slots [] hall
        have e2 := fillIdx_skip Item c inv.Slots [] hall
        simp only [List.append_nil] at e1 e2
        simp [hc, e1, e2, fillStack, fillIdx]
      | some t =>
        obtain ⟨hte, as, bs, hl, has, hti⟩ := find_split hidx hf
        have htok : SlotOK t := hok t (by rw [hl]; simp)
        have hshape := htok.empty_shape hte
        have hlt : t.SlotIndex < inv.Slots.length := by rw [hl, hti]; simp
        have hstep := addStacked_empty inv t.SlotIndex Item c hlt hS hM hc
        rw [← hshape] at hstep
        simp only [hc, if_true, hstep]
        have hset : inv.Slots.set t.SlotIndex
            ⟨some ⟨inv.NextGuid, some Item⟩, min c Item.MaxStackSize, t.SlotIndex⟩ =
            as ++ ⟨some ⟨inv.NextGuid, some Item⟩, min c Item.MaxStackSize, t.SlotIndex⟩ :: bs := by
          rw [hl, hti]; simp
        have hnew : SlotOK ⟨some ⟨inv.NextGuid, some Item⟩, min c Item.MaxStackSize, t.SlotIndex⟩ :=
          slotOK_filled _ _ _ _ hM (by omega) (by simp [hS])
        have hne : (⟨some ⟨inv.NextGuid, some Item⟩, min c Item.MaxStackSize, t.SlotIndex⟩ :
            FInventorySlot).IsEmpty = false := by
          simp [FInventorySlot.IsEmpty]; omega
        have hidx2 := idx_set hidx t.SlotIndex
          (⟨some ⟨inv.NextGuid, some Item⟩, min c Item.MaxStackSize, t.SlotIndex⟩) rfl
        have hok2 := ok_set hok t.SlotIndex _ hnew
        rw [ih _ _ _ hidx2 hok2]
        · have has' : ∀ s ∈ as ++ [(⟨some ⟨inv.NextGuid, some Item⟩, min c Item.MaxStackSize,
              t.SlotIndex⟩ : FInventorySlot)], s.IsEmpty = false := by
            intro s hs
            rcases List.mem_append.1 hs with h | h
            · exact has s h
            · simp at h; rw [h]; exact hne
          have e1 := fillStack_skip Item (inv.NextGuid + 1) (c - min c Item.MaxStackSize) _ bs has'
          have e2 := fillIdx_skip Item (c - min c Item.MaxStackSize) _ bs has'
          have e3 := fillStack_skip Item inv.NextGuid c as (t :: bs) has
          have e4 := fillIdx_skip Item c as (t :: bs) has
          simp only [List.append_assoc, List.singleton_append] at e1 e2
          simp only [hset, e1, e2]
          rw [hl, e3, e4]
          simp [fillStack, fillIdx, hc, hte]
          omega
        · simp only [hset]
          rw [hl] at hfuel
          simp only [emptyCount, List.countP_append, List.countP_cons, hte, hne] at hfuel ⊢
          simp at hfuel ⊢
          omega
    · simp [hc, fillStack_nonpos, fillIdx_nonpos]

theorem fillSingles_zero (Item : UItem) (g : Nat) (l : List FInventorySlot) :
    fillSingles Item g 0 l = l := by
  cases l <;> simp [fillSingles]

theorem singlesIdx_zero (l : List FInventorySlot) : singlesIdx 0 l = [] := by
  cases l <;> simp [singlesIdx]

theorem fillSingles_skip (Item : UItem) (g n : Nat) (as l : List FInventorySlot)
    (has : ∀ s ∈ as, s.IsEmpty = false) :
    fillSingles Item g n (as ++ l) = as ++ fillSingles Item g n l := by
  induction as with
  | nil => simp
  | cons a as ih =>
    have ha : a.IsEmpty = false := has a (by simp)
    have ih2 := ih (fun s hs => has s (by simp [hs]))
    cases n with
    | zero => simp [fillSingles_zero]
    | succ n => simp [fillSingles, ha, ih2]

theorem singlesIdx_skip (n : Nat) (as l : List FInventorySlot)
    (has : ∀ s ∈ as, s.IsEmpty = false) :
    singlesIdx n (as ++ l) = singlesIdx n l := by
  induction as with
  | nil => simp
  | cons a as ih =>
    have ha : a.IsEmpty = false := has a (by simp)
    have ih2 := ih (fun s hs => has s (by simp [hs]))
    cases n with
    | zero => simp [singlesIdx_zero]
    | succ n => simp [singlesIdx, ha, ih2]

theorem find_none_all {l : List FInventorySlot}
    (h : l.find? (fun s => s.IsEmpty) = none) : ∀ s ∈ l, s.IsEmpty = false := by
  simp only [List.find?_eq_none] at h
  intro s hs; simpa using h s hs

theorem emptyCount_of_all {l : List FInventorySlot} (h : ∀ s ∈ l, s.IsEmpty = false) :
    emptyCount l = 0 := by
  simp only [emptyCount, List.countP_eq_zero]
  intro s hs; simp [h s hs]

/-- The loop of `HandleNonStackableItem` computes `fillSingles`. -/
theorem singlesLoop_eq (Item : UItem) (hM : 1 ≤ Item.MaxStackSize) :
    ∀ (n : Nat) (inv : UInventoryComponent) (ch : List Nat),
      (∀ (i : Nat) (s : FInventorySlot), inv.Slots[i]? = some s → s.SlotIndex = i) →
      (∀ s ∈ inv.Slots, SlotOK s) →
      HandleNonStackableItem.loop Item n inv ch =
        ⟨((n - min n (emptyCount inv.Slots) : Nat) : Int),
          { inv with
            Slots := fillSingles Item inv.NextGuid n inv.Slots
            NextGuid := inv.NextGuid + min n (emptyCount inv.Slots) },
          ch ++ singlesIdx n inv.Slots⟩ := by
  intro n
  induction n with
  | zero =>
    intro inv ch _ _
    simp [HandleNonStackableItem.loop, fillSingles_zero, singlesIdx_zero]
  | succ n ih =>
    intro inv ch hidx hok
    unfold HandleNonStackableItem.loop
    cases hf : inv.FindFirstFreeSlot with
    | none =>
      have hall := find_none_all hf
      have e0 := emptyCount_of_all hall
      have e1 := fillSingles_skip Item inv.NextGuid (n + 1) inv.Slots [] hall
      have e2 := singlesIdx_skip (n + 1) inv.Slots [] hall
      simp only [List.append_nil] at e1 e2
      simp [e0, e1, e2, fillSingles, singlesIdx]
    | some t =>
      obtain ⟨hte, as, bs, hl, has, hti⟩ := find_split hidx hf
      have htok : SlotOK t := hok t (by rw [hl]; simp)
      have hshape := htok.empty_shape hte
      have hlt : t.SlotIndex < inv.Slots.length := by rw [hl, hti]; simp
      have hstep := addNew_empty inv t.SlotIndex Item 1 hlt (le_refl _) hM (Or.inr rfl)
      rw [← hshape] at hstep
      simp only [hstep, if_true]
      have hset : inv.Slots.set t.SlotIndex ⟨some ⟨inv.NextGuid, some Item⟩, 1, t.SlotIndex⟩ =
          as ++ ⟨some ⟨inv.NextGuid, some Item⟩, 1, t.SlotIndex⟩ :: bs := by
        rw [hl, hti]; simp
      have hnew : SlotOK ⟨some ⟨inv.NextGuid, some Item⟩, 1, t.SlotIndex⟩ :=
        slotOK_filled _ _ _ _ hM (by omega) (by split_ifs <;> omega)
      have hne : (⟨some ⟨inv.NextGuid, some Item⟩, 1, t.SlotIndex⟩ :
          FInventorySlot).IsEmpty = false := by
        simp [FInventorySlot.IsEmpty]
      have hidx2 := idx_set hidx t.SlotIndex
        (⟨some ⟨inv.NextGuid, some Item⟩, 1, t.SlotIndex⟩) rfl
      have hok2 := ok_set hok t.SlotIndex _ hnew
      rw [ih _ _ hidx2 hok2]
      have has' : ∀ s ∈ as ++ [(⟨some ⟨inv.NextGuid, some Item⟩, 1, t.SlotIndex⟩ :
          FInventorySlot)], s.IsEmpty = false := by
        intro s hs
        rcases List.mem_append.1 hs with h | h
        · exact has s h
        · simp at h; rw [h]; exact hne
      have e1 := fillSingles_skip Item (inv.NextGuid + 1) n _ bs has'
      have e2 := singlesIdx_skip n _ bs has'
      have e3 := fillSingles_skip Item inv.NextGuid (n + 1) as (t :: bs) has
      have e4 := singlesIdx_skip (n + 1) as (t :: bs) has
      have e5 : emptyCount (as ++ t :: bs) = emptyCount bs + 1 := by
        simp [emptyCount, List.countP_append, List.countP_cons, hte]
        simpa [emptyCount] using emptyCount_of_all has
      have e6 : emptyCount (as ++ (⟨some ⟨inv.NextGuid, some Item⟩, 1, t.SlotIndex⟩ :
          FInventorySlot) :: bs) = emptyCount bs := by
        simp [emptyCount, List.countP_append, List.countP_cons, hne]
        simpa [emptyCount] using emptyCount_of_all has
      simp only [List.append_assoc, List.singleton_append] at e1 e2
      simp only [hset, e1, e2, e6]
      rw [hl, e3, e4, e5]
      simp [fillSingles, singlesIdx, hte]
      omega

/-! ## The removal loop -/

theorem freeCount_all (f : FInventorySlot) (c : Int) (hc : 0 < c) (h : f.Stack ≤ c) :
    (f.FreeCount c).2 = ⟨none, 0, f.SlotIndex⟩ := by
  have h1 : ¬ (c ≤ 0) := by omega
  have h2 : max 0 (f.Stack - c) = 0 := by omega
  simp [FInventorySlot.FreeCount, h1, h2]

theorem freeCount_some (f : FInventorySlot) (c : Int) (hc : 0 < c) (h : c < f.Stack) :
    (f.FreeCount c).2 = ⟨f.Instance, f.Stack - c, f.SlotIndex⟩ := by
  have h1 : ¬ (c ≤ 0) := by omega
  have h2 : max 0 (f.Stack - c) = f.Stack - c := by omega
  have h3 : ¬ (f.Stack - c = 0) := by omega
  simp [FInventorySlot.FreeCount, h1, h2, h3]

theorem updateAt_length (l : List FInventorySlot) (i : Nat) (g : FInventorySlot → FInventorySlot) :
    (updateAt l i g).length = l.length := by
  unfold updateAt; split <;> simp

theorem updateAt_get_ne (l : List FInventorySlot) (i j : Nat)
    (g : FInventorySlot → FInventorySlot) (h : i ≠ j) : (updateAt l i g)[j]? = l[j]? := by
  unfold updateAt; split <;> simp [h]

theorem updateAt_get_self (l : List FInventorySlot) (i : Nat)
    (g : FInventorySlot → FInventorySlot) (s : FInventorySlot) (h : l[i]? = some s) :
    (updateAt l i g)[i]? = some (g s) := by
  have hlt : i < l.length := by
    by_contra hn
    rw [List.getElem?_eq_none (by omega)] at h
    cases h
  simp [updateAt, h, hlt]

theorem removeLoop_stop (L : List FInventorySlot) (st : RemoveLoop) (h : ¬ (st.Count > 0)) :
    RemoveItem.loop L st = st := by
  cases L <;> simp [RemoveItem.loop, h]

/-- The removal loop writes only the slots whose copies it walks. -/
theorem removeLoop_frame : ∀ (L : List FInventorySlot) (st : RemoveLoop) (j : Nat),
    j ∉ L.map (fun s => s.SlotIndex) →
    (RemoveItem.loop L st).Slots[j]? = st.Slots[j]? := by
  intro L
  induction L with
  | nil => intro st j _; simp [RemoveItem.loop]
  | cons f rest ih =>
    intro st j hj
    simp only [List.map_cons, List.mem_cons, not_or] at hj
    unfold RemoveItem.loop
    by_cases hc : st.Count > 0
    · simp only [hc, if_true]
      rw [ih _ j hj.2]
      exact updateAt_get_ne _ _ _ _ (fun h => hj.1 h.symm)
    · simp [hc]

theorem removeLoop_length : ∀ (L : List FInventorySlot) (st : RemoveLoop),
    (RemoveItem.loop L st).Slots.length = st.Slots.length := by
  intro L
  induction L with
  | nil => intro st; simp [RemoveItem.loop]
  | cons f rest ih =>
    intro st
    unfold RemoveItem.loop
    by_cases hc : st.Count > 0
    · simp only [hc, if_true]
      rw [ih]
      exact updateAt_length _ _ _
    · simp [hc]

/-- The flag computed by the removal loop: `LeftCount ≤ 0` exactly when the walked copies
hold at least the requested count. -/
theorem removeLoop_left : ∀ (L : List FInventorySlot) (st : RemoveLoop),
    L ≠ [] → st.Count > 0 → (∀ f ∈ L, 0 < f.Stack) →
    ((RemoveItem.loop L st).LeftCount ≤ 0 ↔ st.Count ≤ (L.map (fun s => s.Stack)).sum) := by
  intro L
  induction L with
  | nil => intro st h; exact absurd rfl h
  | cons f rest ih =>
    intro st _ hc hpos
    have hf : 0 < f.Stack := hpos f (by simp)
    have hrest : ∀ g ∈ rest, 0 < g.Stack := fun g hg => hpos g (by simp [hg])
    have hsum : 0 ≤ (rest.map (fun s => s.Stack)).sum := by
      apply List.sum_nonneg
      intro x hx
      simp only [List.mem_map] at hx
      obtain ⟨g, hg, rfl⟩ := hx
      exact le_of_lt (hrest g hg)
    unfold RemoveItem.loop
    simp only [hc, if_true, List.map_cons, List.sum_cons]
    by_cases hgo : st.Count - f.Stack > 0
    · by_cases hr : rest = []
      · subst hr
        simp [RemoveItem.loop]
      · rw [ih _ hr hgo hrest]
        simp only
        constructor <;> intro h <;> omega
    · rw [removeLoop_stop _ _ hgo]
      simp only
      constructor <;> intro h <;> omega

theorem holdsItem_iff (X : Option UItem) (s : FInventorySlot) :
    holdsItem X s = true ↔ s.Stack ≠ 0 ∧ ∃ inst, s.Instance = some inst ∧ inst.Item = X := by
  unfold holdsItem FInventorySlot.GetInstance FInventorySlot.IsEmpty
  rcases s with ⟨inst, k, i⟩
  cases inst with
  | none => simp
  | some a =>
    by_cases hk : k = 0
    · simp [hk]
    · simp [hk]

theorem unitsHeld_set (X : Option UItem) (l : List FInventorySlot) (i : Nat)
    (f u : FInventorySlot) (h : l[i]? = some f) :
    unitsHeld X (l.set i u) = unitsHeld X l - (if holdsItem X f then f.Stack else 0)
      + (if holdsItem X u then u.Stack else 0) := by
  have hlt : i < l.length := by
    by_contra hn
    rw [List.getElem?_eq_none (by omega)] at h
    cases h
  have hf : l[i] = f := by
    rw [List.getElem?_eq_getElem hlt] at h
    exact Option.some.inj h
  unfold unitsHeld
  rw [sum_filter_map, sum_filter_map, sum_map_set _ _ _ hlt, hf]

theorem snap_step (f : FInventorySlot) (rest l : List FInventorySlot)
    (g : FInventorySlot → FInventorySlot)
    (hsnap : ∀ x ∈ f :: rest, l[x.SlotIndex]? = some x)
    (hnd : ((f :: rest).map (fun s => s.SlotIndex)).Nodup) :
    (∀ x ∈ rest, (updateAt l f.SlotIndex g)[x.SlotIndex]? = some x) ∧
      (rest.map (fun s => s.SlotIndex)).Nodup ∧
      f.SlotIndex ∉ rest.map (fun s => s.SlotIndex) ∧
      (updateAt l f.SlotIndex g)[f.SlotIndex]? = some (g f) := by
  simp only [List.map_cons, List.nodup_cons] at hnd
  refine ⟨?_, hnd.2, hnd.1, updateAt_get_self _ _ _ _ (hsnap f (by simp))⟩
  intro x hx
  have hne : f.SlotIndex ≠ x.SlotIndex := by
    intro h
    apply hnd.1
    simp only [List.mem_map]
    exact ⟨x, hx, h.symm⟩
  rw [updateAt_get_ne _ _ _ _ hne]
  exact hsnap x (by simp [hx])

theorem stackSum_nonneg (L : List FInventorySlot) (hpos : ∀ f ∈ L, 0 < f.Stack) :
    0 ≤ (L.map (fun s => s.Stack)).sum := by
  apply List.sum_nonneg
  intro x hx
  simp only [List.mem_map] at hx
  obtain ⟨g, hg, rfl⟩ := hx
  exact le_of_lt (hpos g hg)

theorem removeLoop_lc : ∀ (L : List FInventorySlot) (st : RemoveLoop),
    st.LeftCount = st.Count → (RemoveItem.loop L st).LeftCount = (RemoveItem.loop L st).Count := by
  intro L
  induction L with
  | nil => intro st h; simpa [RemoveItem.loop] using h
  | cons f rest ih =>
    intro st h
    unfold RemoveItem.loop
    by_cases hc : st.Count > 0
    · simp only [hc, if_true]
      exact ih _ rfl
    · simpa [hc] using h

/-- Requesting more than the walked copies hold drains every one of them. -/
theorem removeLoop_all : ∀ (L : List FInventorySlot) (st : RemoveLoop),
    (∀ x ∈ L, st.Slots[x.SlotIndex]? = some x) →
    (L.map (fun s => s.SlotIndex)).Nodup → (∀ f ∈ L, 0 < f.Stack) →
    st.Count > (L.map (fun s => s.Stack)).sum →
    (RemoveItem.loop L st).Count = st.Count - (L.map (fun s => s.Stack)).sum ∧
    (RemoveItem.loop L st).RemovedItems = st.RemovedItems + (L.map (fun s => s.Stack)).sum ∧
    ∀ f ∈ L, (RemoveItem.loop L st).Slots[f.SlotIndex]? = some ⟨none, 0, f.SlotIndex⟩ := by
  intro L
  induction L with
  | nil => intro st _ _ _ _; simp [RemoveItem.loop]
  | cons f rest ih =>
    intro st hsnap hnd hpos hgt
    have hf : 0 < f.Stack := hpos f (by simp)
    have hrest : ∀ g ∈ rest, 0 < g.Stack := fun g hg => hpos g (by simp [hg])
    have hsum := stackSum_nonneg rest hrest
    simp only [List.map_cons, List.sum_cons] at hgt ⊢
    have hc : st.Count > 0 := by omega
    obtain ⟨hs1, hn1, hnot, hself⟩ :=
      snap_step f rest st.Slots (fun s => (s.FreeCount st.Count).2) hsnap hnd
    unfold RemoveItem.loop
    simp only [hc, if_true]
    obtain ⟨h1, h2, h3⟩ := ih (⟨updateAt st.Slots f.SlotIndex (fun s => (s.FreeCount st.Count).2),
        st.ChangedSlots ++ [f.SlotIndex], st.RemovedItems + (st.Count - (st.Count - f.Stack)),
        st.Count - f.Stack, st.Count - f.Stack⟩ : RemoveLoop)
      hs1 hn1 hrest (by simp only; omega)
    refine ⟨by rw [h1]; simp only; omega, by rw [h2]; simp only; omega, ?_⟩
    intro x hx
    rcases List.mem_cons.1 hx with rfl | hx
    · rw [removeLoop_frame _ _ _ hnot]
      simp only
      rw [hself, freeCount_all _ _ hc (by omega)]
    · exact h3 x hx

/-- The removal loop takes exactly `min Count total` units of the item out of the slots. -/
theorem removeLoop_units (X : Option UItem) : ∀ (L : List FInventorySlot) (st : RemoveLoop),
    (∀ x ∈ L, st.Slots[x.SlotIndex]? = some x) →
    (L.map (fun s => s.SlotIndex)).Nodup → (∀ f ∈ L, holdsItem X f = true ∧ 0 < f.Stack) →
    0 ≤ st.Count →
    unitsHeld X (RemoveItem.loop L st).Slots =
      unitsHeld X st.Slots - min st.Count (L.map (fun s => s.Stack)).sum := by
  intro L
  induction L with
  | nil => intro st _ _ _ h0; simp [RemoveItem.loop]; omega
  | cons f rest ih =>
    intro st hsnap hnd hpos h0
    have hf := hpos f (by simp)
    have hrest : ∀ g ∈ rest, holdsItem X g = true ∧ 0 < g.Stack :=
      fun g hg => hpos g (by simp [hg])
    have hsum := stackSum_nonneg rest (fun g hg => (hrest g hg).2)
    simp only [List.map_cons, List.sum_cons]
    by_cases hc : st.Count > 0
    · obtain ⟨hs1, hn1, hnot, hself⟩ :=
        snap_step f rest st.Slots (fun s => (s.FreeCount st.Count).2) hsnap hnd
      have hfi : st.Slots[f.SlotIndex]? = some f := hsnap f (by simp)
      have hlt : f.SlotIndex < st.Slots.length := by
        by_contra hn
        rw [List.getElem?_eq_none (by omega)] at hfi
        cases hfi
      have hfe : st.Slots[f.SlotIndex] = f := by
        rw [List.getElem?_eq_getElem hlt] at hfi
        exact Option.some.inj hfi
      have hstep : unitsHeld X (updateAt st.Slots f.SlotIndex
          (fun s => (s.FreeCount st.Count).2)) = unitsHeld X st.Slots - min st.Count f.Stack := by
        rw [updateAt_eq_set _ _ _ hlt, unitsHeld_set X _ _ f _ hfi, hfe]
        simp only [hf.1, if_true]
        by_cases hle : f.Stack ≤ st.Count
        · rw [freeCount_all _ _ hc hle]
          have : holdsItem X ⟨none, 0, f.SlotIndex⟩ = false := by
            simp [holdsItem, FInventorySlot.IsEmpty]
          simp [this]; omega
        · rw [freeCount_some _ _ hc (by omega)]
          have : holdsItem X ⟨f.Instance, f.Stack - st.Count, f.SlotIndex⟩ = true := by
            rw [holdsItem_iff]
            refine ⟨by simp only; omega, ?_⟩
            exact ((holdsItem_iff X f).1 hf.1).2
          simp [this]; omega
      unfold RemoveItem.loop
      simp only [hc, if_true]
      by_cases hgo : st.Count - f.Stack > 0
      · rw [ih (⟨updateAt st.Slots f.SlotIndex (fun s => (s.FreeCount st.Count).2),
          st.ChangedSlots ++ [f.SlotIndex], st.RemovedItems + (st.Count - (st.Count - f.Stack)),
          st.Count - f.Stack, st.Count - f.Stack⟩ : RemoveLoop)
          hs1 hn1 hrest (by simp only; omega)]
        simp only
        rw [hstep]; omega
      · rw [removeLoop_stop _ _ hgo]
        simp only
        rw [hstep]; omega
    · rw [removeLoop_stop _ _ hc]
      omega

/-- Ascending order of the walk: a slot that lost units has every copy with a strictly
smaller stack completely drained. -/
theorem removeLoop_sorted : ∀ (L : List FInventorySlot) (st : RemoveLoop),
    (∀ x ∈ L, st.Slots[x.SlotIndex]? = some x) →
    (L.map (fun s => s.SlotIndex)).Nodup → (∀ f ∈ L, 0 < f.Stack) →
    L.Sorted (fun a b => a.GetStackSize ≤ b.GetStackSize) →
    ∀ f ∈ L, ∀ g ∈ L,
      (∃ s, (RemoveItem.loop L st).Slots[f.SlotIndex]? = some s ∧ s.Stack < f.Stack) →
      g.Stack < f.Stack →
      (RemoveItem.loop L st).Slots[g.SlotIndex]? = some ⟨none, 0, g.SlotIndex⟩ := by
  intro L
  induction L with
  | nil => intro st _ _ _ _ f hf; cases hf
  | cons h rest ih =>
    intro st hsnap hnd hpos hsorted f hf g hg hred hlt
    have hrest : ∀ g ∈ rest, 0 < g.Stack := fun g hg => hpos g (by simp [hg])
    have hc : st.Count > 0 := by
      by_contra hc
      rw [removeLoop_stop _ _ hc, hsnap f hf] at hred
      obtain ⟨s, hs, hlt2⟩ := hred
      cases hs
      omega
    obtain ⟨hs1, hn1, hnot, hself⟩ :=
      snap_step h rest st.Slots (fun s => (s.FreeCount st.Count).2) hsnap hnd
    have hmin : ∀ b ∈ rest, h.Stack ≤ b.Stack := by
      intro b hb
      have := List.rel_of_sorted_cons hsorted b hb
      simpa [FInventorySlot.GetStackSize] using this
    unfold RemoveItem.loop at hred ⊢
    simp only [hc, if_true] at hred ⊢
    rcases List.mem_cons.1 hf with rfl | hf
    · rcases List.mem_cons.1 hg with rfl | hg
      · omega
      · have := hmin g hg
        omega
    · have hgo : st.Count - h.Stack > 0 := by
        by_contra hgo
        rw [removeLoop_stop _ _ hgo] at hred
        simp only at hred
        rw [hs1 f hf] at hred
        obtain ⟨s, hs, hlt2⟩ := hred
        cases hs
        omega
      rcases List.mem_cons.1 hg with rfl | hg
      · rw [removeLoop_frame _ _ _ hnot]
        simp only
        rw [hself, freeCount_all _ _ hc (by omega)]
      · exact ih _ hs1 hn1 hrest hsorted.of_cons f hf g hg hred hlt

/-- At most one walked slot is left partly drained: of two slots that both lost units, one
is empty. -/
theorem removeLoop_two : ∀ (L : List FInventorySlot) (st : RemoveLoop),
    (∀ x ∈ L, st.Slots[x.SlotIndex]? = some x) →
    (L.map (fun s => s.SlotIndex)).Nodup → (∀ f ∈ L, 0 < f.Stack) →
    ∀ f ∈ L, ∀ g ∈ L, f.SlotIndex ≠ g.SlotIndex →
      (∃ s, (RemoveItem.loop L st).Slots[f.SlotIndex]? = some s ∧ s.Stack < f.Stack) →
      (∃ s, (RemoveItem.loop L st).Slots[g.SlotIndex]? = some s ∧ s.Stack < g.Stack) →
      (RemoveItem.loop L st).Slots[f.SlotIndex]? = some ⟨none, 0, f.SlotIndex⟩ ∨
      (RemoveItem.loop L st).Slots[g.SlotIndex]? = some ⟨none, 0, g.SlotIndex⟩ := by
  intro L
  induction L with
  | nil => intro st _ _ _ f hf; cases hf
  | cons h rest ih =>
    intro st hsnap hnd hpos f hf g hg hne hredf hredg
    have hrest : ∀ g ∈ rest, 0 < g.Stack := fun g hg => hpos g (by simp [hg])
    have hc : st.Count > 0 := by
      by_contra hc
      rw [removeLoop_stop _ _ hc, hsnap f hf] at hredf
      obtain ⟨s, hs, hlt2⟩ := hredf
      cases hs
      omega
    obtain ⟨hs1, hn1, hnot, hself⟩ :=
      snap_step h rest st.Slots (fun s => (s.FreeCount st.Count).2) hsnap hnd
    unfold RemoveItem.loop at hredf hredg ⊢
    simp only [hc, if_true] at hredf hredg ⊢
    have key : ∀ x ∈ rest,
        (∃ s, (RemoveItem.loop rest
          ⟨updateAt st.Slots h.SlotIndex (fun s => (s.FreeCount st.Count).2),
            st.ChangedSlots ++ [h.SlotIndex], st.RemovedItems + (st.Count - (st.Count - h.Stack)),
            st.Count - h.Stack, st.Count - h.Stack⟩).Slots[x.SlotIndex]? = some s ∧
            s.Stack < x.Stack) →
        (RemoveItem.loop rest
          ⟨updateAt st.Slots h.SlotIndex (fun s => (s.FreeCount st.Count).2),
            st.ChangedSlots ++ [h.SlotIndex], st.RemovedItems + (st.Count - (st.Count - h.Stack)),
            st.Count - h.Stack, st.Count - h.Stack⟩).Slots[h.SlotIndex]? =
          some ⟨none, 0, h.SlotIndex⟩ := by
      intro x hx hred
      have hgo : st.Count - h.Stack > 0 := by
        by_contra hgo
        rw [removeLoop_stop _ _ hgo] at hred
        simp only at hred
        rw [hs1 x hx] at hred
        obtain ⟨s, hs, hlt2⟩ := hred
        cases hs
        omega
      rw [removeLoop_frame _ _ _ hnot]
      simp only
      rw [hself, freeCount_all _ _ hc (by omega)]
    rcases List.mem_cons.1 hf with hfh | hfr
    · rcases List.mem_cons.1 hg with hgh | hgr
      · exact absurd (by rw [hfh, hgh]) hne
      · rw [hfh]; exact Or.inl (key g hgr hredg)
    · rcases List.mem_cons.1 hg with hgh | hgr
      · rw [hgh]; exact Or.inr (key f hfr hredf)
      · exact ih _ hs1 hn1 hrest f hfr g hgr hne hredf hredg

theorem idx_map_range {l : List FInventorySlot}
    (hidx : ∀ (i : Nat) (s : FInventorySlot), l[i]? = some s → s.SlotIndex = i) :
    l.map (fun s => s.SlotIndex) = List.range l.length := by
  apply List.ext_getElem?
  intro i
  by_cases hi : i < l.length
  · have h1 : l[i]? = some l[i] := List.getElem?_eq_getElem hi
    simp [List.getElem?_map, h1, List.getElem?_range hi, hidx i _ h1]
  · simp [List.getElem?_eq_none (Nat.le_of_not_lt hi)]
    omega

theorem idx_mem {l : List FInventorySlot}
    (hidx : ∀ (i : Nat) (s : FInventorySlot), l[i]? = some s → s.SlotIndex = i)
    {x : FInventorySlot} (hx : x ∈ l) : l[x.SlotIndex]? = some x := by
  obtain ⟨n, hn⟩ := List.mem_iff_getElem?.1 hx
  rw [hidx n x hn]; exact hn

theorem holdsItem_pos {X : Option UItem} {s : FInventorySlot} (hok : SlotOK s)
    (h : holdsItem X s = true) : 0 < s.Stack := by
  rcases hok with ⟨_, h2⟩ | ⟨g, it, _, _, h3, _⟩
  · have := ((holdsItem_iff X s).1 h).1
    exact absurd h2 this
  · exact h3

/-- The sorted copies `RemoveItem` walks: the slots holding the item, each at its own index,
in ascending stack order, their stacks summing to the units held. -/
theorem found_facts {l : List FInventorySlot}
    (hidx : ∀ (i : Nat) (s : FInventorySlot), l[i]? = some s → s.SlotIndex = i)
    (hok : ∀ s ∈ l, SlotOK s) (X : Option UItem) :
    (∀ x, x ∈ sortByStack (l.filter (holdsItem X)) ↔ x ∈ l ∧ holdsItem X x = true) ∧
    (∀ x ∈ sortByStack (l.filter (holdsItem X)), l[x.SlotIndex]? = some x) ∧
    ((sortByStack (l.filter (holdsItem X))).map (fun s => s.SlotIndex)).Nodup ∧
    (∀ f ∈ sortByStack (l.filter (holdsItem X)), holdsItem X f = true ∧ 0 < f.Stack) ∧
    (sortByStack (l.filter (holdsItem X))).Sorted (fun a b => a.GetStackSize ≤ b.GetStackSize) ∧
    ((sortByStack (l.filter (holdsItem X))).map (fun s => s.Stack)).sum = unitsHeld X l := by
  have hmem : ∀ x, x ∈ sortByStack (l.filter (holdsItem X)) ↔ x ∈ l ∧ holdsItem X x = true := by
    intro x
    unfold sortByStack
    rw [List.mem_insertionSort, List.mem_filter]
  have hperm : List.Perm (sortByStack (l.filter (holdsItem X))) (l.filter (holdsItem X)) :=
    List.perm_insertionSort _ _
  refine ⟨hmem, ?_, ?_, ?_, ?_, ?_⟩
  · intro x hx
    exact idx_mem hidx ((hmem x).1 hx).1
  · rw [(hperm.map _).nodup_iff]
    have hsub : List.Sublist ((l.filter (holdsItem X)).map (fun s => s.SlotIndex))
        (l.map (fun s => s.SlotIndex)) := (List.filter_sublist l).map _
    apply hsub.nodup
    rw [idx_map_range hidx]
    exact List.nodup_range _
  · intro f hf
    have := (hmem f).1 hf
    exact ⟨this.2, holdsItem_pos (hok f this.1) this.2⟩
  · unfold sortByStack
    haveI : IsTotal FInventorySlot (fun a b => a.GetStackSize ≤ b.GetStackSize) :=
      ⟨fun a b => le_total _ _⟩
    haveI : IsTrans FInventorySlot (fun a b => a.GetStackSize ≤ b.GetStackSize) :=
      ⟨fun a b c hab hbc => le_trans hab hbc⟩
    exact List.sorted_insertionSort _ _
  · unfold unitsHeld
    exact (hperm.map _).sum_eq

/-! ## Invariant preservation -/

theorem idx_of_map {l : List FInventorySlot}
    (h : l.map (fun s => s.SlotIndex) = List.range l.length) :
    ∀ (i : Nat) (s : FInventorySlot), l[i]? = some s → s.SlotIndex = i := by
  intro i s hs
  have hlt : i < l.length := by
    by_contra hn
    rw [List.getElem?_eq_none (by omega)] at hs
    cases hs
  have h1 : (l.map (fun s => s.SlotIndex))[i]? = some s.SlotIndex := by
    simp [List.getElem?_map, hs]
  rw [h, List.getElem?_range hlt] at h1
  exact (Option.some.inj h1).symm

theorem idx_congr {l l2 : List FInventorySlot}
    (hidx : ∀ (i : Nat) (s : FInventorySlot), l[i]? = some s → s.SlotIndex = i)
    (hmap : l2.map (fun s => s.SlotIndex) = l.map (fun s => s.SlotIndex)) :
    ∀ (i : Nat) (s : FInventorySlot), l2[i]? = some s → s.SlotIndex = i := by
  apply idx_of_map
  have hlen : l2.length = l.length := by
    have := congrArg List.length hmap
    simpa using this
  rw [hmap, hlen]
  exact idx_map_range hidx

theorem fillStack_idx (Item : UItem) : ∀ (l : List FInventorySlot) (g : Nat) (c : Int),
    (fillStack Item g c l).map (fun s => s.SlotIndex) = l.map (fun s => s.SlotIndex) := by
  intro l
  induction l with
  | nil => intro g c; simp [fillStack]
  | cons s rest ih =>
    intro g c
    unfold fillStack
    by_cases hc : c > 0
    · by_cases he : s.IsEmpty = true
      · simp [hc, he, ih]
      · simp [hc, he, ih]
    · simp [hc]

theorem fillSingles_idx (Item : UItem) : ∀ (l : List FInventorySlot) (g n : Nat),
    (fillSingles Item g n l).map (fun s => s.SlotIndex) = l.map (fun s => s.SlotIndex) := by
  intro l
  induction l with
  | nil => intro g n; simp [fillSingles]
  | cons s rest ih =>
    intro g n
    cases n with
    | zero => simp [fillSingles]
    | succ n =>
      unfold fillSingles
      by_cases he : s.IsEmpty = true
      · simp [he, ih]
      · simp [he, ih]

theorem fillStack_ok (Item : UItem) (hS : Item.bIsStackable = true)
    (hM : 1 ≤ Item.MaxStackSize) : ∀ (l : List FInventorySlot) (g : Nat) (c : Int),
    (∀ s ∈ l, SlotOK s) → ∀ s ∈ fillStack Item g c l, SlotOK s := by
  intro l
  induction l with
  | nil => intro g c _ s hs; simp [fillStack] at hs
  | cons a rest ih =>
    intro g c hok s hs
    have hrest : ∀ s ∈ rest, SlotOK s := fun s h => hok s (by simp [h])
    unfold fillStack at hs
    by_cases hc : c > 0
    · by_cases he : a.IsEmpty = true
      · simp only [hc, he, if_true, List.mem_cons] at hs
        rcases hs with h | h
        · rw [h]
          exact slotOK_filled _ _ _ _ hM (by omega) (by simp [hS])
        · exact ih _ _ hrest s h
      · simp only [hc, he, Bool.false_eq_true, if_true, if_false, List.mem_cons] at hs
        rcases hs with h | h
        · rw [h]; exact hok a (by simp)
        · exact ih _ _ hrest s h
    · simp only [hc, if_false] at hs
      exact hok s hs

theorem fillSingles_ok (Item : UItem) (hM : 1 ≤ Item.MaxStackSize) :
    ∀ (l : List FInventorySlot) (g n : Nat),
    (∀ s ∈ l, SlotOK s) → ∀ s ∈ fillSingles Item g n l, SlotOK s := by
  intro l
  induction l with
  | nil => intro g n _ s hs; simp [fillSingles] at hs
  | cons a rest ih =>
    intro g n hok s hs
    have hrest : ∀ s ∈ rest, SlotOK s := fun s h => hok s (by simp [h])
    cases n with
    | zero =>
      simp only [fillSingles] at hs
      exact hok s hs
    | succ n =>
      unfold fillSingles at hs
      by_cases he : a.IsEmpty = true
      · simp only [he, if_true, List.mem_cons] at hs
        rcases hs with h | h
        · rw [h]
          exact slotOK_filled _ _ _ _ hM (by omega) (by split_ifs <;> omega)
        · exact ih _ _ hrest s h
      · simp only [he, Bool.false_eq_true, if_false, List.mem_cons] at hs
        rcases hs with h | h
        · rw [h]; exact hok a (by simp)
        · exact ih _ _ hrest s h

theorem stackTarget_empty (Y : Option UItem) (s : FInventorySlot) (h : s.IsEmpty = true) :
    stackTarget Y s = false := by
  simp [stackTarget, h]

theorem stackTarget_filled (Y : Option UItem) (g i : Nat) (Item : UItem) (k : Int) :
    stackTarget Y ⟨some ⟨g, some Item⟩, k, i⟩ = true ↔
      k ≠ 0 ∧ (if Item.bIsStackable = false then 1 else Item.MaxStackSize) ≠ k ∧
        some Item = Y := by
  by_cases hk : k = 0
  · simp [stackTarget, FInventorySlot.IsEmpty, hk]
  · simp [stackTarget, FInventorySlot.IsEmpty, FInventorySlot.IsFull,
      FInventorySlot.GetInstance, FInventorySlot.GetMaxStackSize, FInventorySlot.GetStackSize, hk]

/-- Filling empty slots adds at most one non-full stack of the item. -/
theorem fillStack_targets (Item : UItem) (hS : Item.bIsStackable = true) :
    ∀ (l : List FInventorySlot) (g : Nat) (c : Int),
    (fillStack Item g c l).countP (stackTarget (some Item)) ≤
      l.countP (stackTarget (some Item)) + 1 := by
  intro l
  induction l with
  | nil => intro g c; simp [fillStack]
  | cons a rest ih =>
    intro g c
    unfold fillStack
    by_cases hc : c > 0
    · by_cases he : a.IsEmpty = true
      · simp only [hc, he, if_true, List.countP_cons, stackTarget_empty _ a he]
        by_cases hcm : c ≤ Item.MaxStackSize
        · have hmin : min c Item.MaxStackSize = c := by omega
          rw [hmin, fillStack_nonpos _ _ _ _ (by omega)]
          split_ifs <;> omega
        · have hmin : min c Item.MaxStackSize = Item.MaxStackSize := by omega
          have hfull : stackTarget (some Item)
              ⟨some ⟨g, some Item⟩, Item.MaxStackSize, a.SlotIndex⟩ = false := by
            rw [Bool.eq_false_iff]
            intro h
            rw [stackTarget_filled] at h
            simp [hS] at h
          rw [hmin, hfull]
          have := ih (g + 1) (c - Item.MaxStackSize)
          simp only [Bool.false_eq_true, if_false] at this ⊢
          omega
      · simp only [hc, he, Bool.false_eq_true, if_true, if_false]
        rw [List.countP_cons, List.countP_cons]
        have := ih g c
        omega
    · simp [hc]

theorem fillStack_other (Item : UItem) (Y : Option UItem) (hY : some Item ≠ Y) :
    ∀ (l : List FInventorySlot) (g : Nat) (c : Int),
    (fillStack Item g c l).countP (stackTarget Y) = l.countP (stackTarget Y) := by
  intro l
  induction l with
  | nil => intro g c; simp [fillStack]
  | cons a rest ih =>
    intro g c
    unfold fillStack
    by_cases hc : c > 0
    · by_cases he : a.IsEmpty = true
      · have hnew : stackTarget Y
            ⟨some ⟨g, some Item⟩, min c Item.MaxStackSize, a.SlotIndex⟩ = false := by
          rw [Bool.eq_false_iff]
          intro h
          rw [stackTarget_filled] at h
          exact hY h.2.2
        simp only [hc, he, if_true, List.countP_cons, stackTarget_empty _ a he, hnew, ih]
      · simp only [hc, he, Bool.false_eq_true, if_true, if_false]
        rw [List.countP_cons, List.countP_cons, ih]
    · simp [hc]

theorem fillSingles_targets (Item : UItem) (hS : Item.bIsStackable = false)
    (Y : Option UItem) : ∀ (l : List FInventorySlot) (g n : Nat),
    (fillSingles Item g n l).countP (stackTarget Y) = l.countP (stackTarget Y) := by
  intro l
  induction l with
  | nil => intro g n; simp [fillSingles]
  | cons a rest ih =>
    intro g n
    cases n with
    | zero => simp [fillSingles]
    | succ n =>
      unfold fillSingles
      by_cases he : a.IsEmpty = true
      · have hnew : stackTarget Y ⟨some ⟨g, some Item⟩, 1, a.SlotIndex⟩ = false := by
          rw [Bool.eq_false_iff]
          intro h
          rw [stackTarget_filled] at h
          simp [hS] at h
        simp only [he, if_true, List.countP_cons, stackTarget_empty _ a he, hnew, ih]
      · simp only [he, Bool.false_eq_true, if_false]
        rw [List.countP_cons, List.countP_cons, ih]

theorem stackTarget_shape {X : UItem} {t : FInventorySlot} (hok : SlotOK t)
    (h : stackTarget (some X) t = true) :
    ∃ g, t = ⟨some ⟨g, some X⟩, t.Stack, t.SlotIndex⟩ ∧ X.bIsStackable = true ∧
      0 < t.Stack ∧ t.Stack < X.MaxStackSize := by
  have hne : t.IsEmpty = false := by
    by_contra hn
    have he : t.IsEmpty = true := by simpa using hn
    rw [stackTarget_empty _ _ he] at h
    cases h
  obtain ⟨g, it, hshape, _, hpos, hle⟩ := hok.full_shape hne
  rw [hshape, stackTarget_filled] at h
  obtain ⟨_, h2, h3⟩ := h
  have hit : it = X := Option.some.inj h3
  subst hit
  by_cases hS : it.bIsStackable = false
  · simp only [hS, if_true] at h2 hle
    omega
  · simp only [hS, if_false] at h2 hle
    refine ⟨g, hshape, by simpa using hS, hpos, ?_⟩
    omega

theorem emptyCount_set_full (l : List FInventorySlot) (i : Nat) (t u : FInventorySlot)
    (h : l[i]? = some t) (ht : t.IsEmpty = false) (hu : u.IsEmpty = false) :
    emptyCount (l.set i u) = emptyCount l := by
  have hlt : i < l.length := by
    by_contra hn
    rw [List.getElem?_eq_none (by omega)] at h
    cases h
  have hf : l[i] = t := by
    rw [List.getElem?_eq_getElem hlt] at h
    exact Option.some.inj h
  have := countP_set (fun s => s.IsEmpty) l i hlt u
  simp only [hf, ht, hu, Bool.false_eq_true, if_false] at this
  simpa [emptyCount] using this

/-- Stackable add onto a partial stack: top it up, then fill empty slots in index order. -/
theorem addItem_topUp (fuel : Nat) (inv : UInventoryComponent) (X : UItem) (c : Int)
    (t : FInventorySlot)
    (hidx : ∀ (i : Nat) (s : FInventorySlot), inv.Slots[i]? = some s → s.SlotIndex = i)
    (hok : ∀ s ∈ inv.Slots, SlotOK s) (hM : 1 ≤ X.MaxStackSize) (hc : 1 ≤ c)
    (hfull : inv.IsFull = false)
    (hf : inv.FindFirstFreeSlotForStack (some X) = some t)
    (hfuel : emptyCount inv.Slots ≤ fuel) :
    AddItem fuel inv (some X) c =
      some ⟨true,
        { inv with
          Slots := fillStack X inv.NextGuid (c - min c (X.MaxStackSize - t.Stack))
            (inv.Slots.set t.SlotIndex
              ⟨t.Instance, t.Stack + min c (X.MaxStackSize - t.Stack), t.SlotIndex⟩)
          NextGuid := inv.NextGuid + (fillIdx X (c - min c (X.MaxStackSize - t.Stack))
            (inv.Slots.set t.SlotIndex
              ⟨t.Instance, t.Stack + min c (X.MaxStackSize - t.Stack), t.SlotIndex⟩)).length },
        [t.SlotIndex :: fillIdx X (c - min c (X.MaxStackSize - t.Stack))
            (inv.Slots.set t.SlotIndex
              ⟨t.Instance, t.Stack + min c (X.MaxStackSize - t.Stack), t.SlotIndex⟩)]⟩ := by
  have htm : t ∈ inv.Slots := List.mem_of_find?_eq_some hf
  have htt : stackTarget (some X) t = true := List.find?_some hf
  obtain ⟨g, hshape, hS, hpos, hlt⟩ := stackTarget_shape (hok t htm) htt
  have hti := idx_mem hidx htm
  have hilt : t.SlotIndex < inv.Slots.length := by
    by_contra hn
    rw [List.getElem?_eq_none (by omega)] at hti
    cases hti
  have hstep := addStacked_topUp inv g t.SlotIndex X t.Stack c hilt hS hpos hlt (by omega)
  rw [← hshape] at hstep
  have hinst : t.Instance = some ⟨g, some X⟩ := by rw [hshape]
  have hne : (c - min c (X.MaxStackSize - t.Stack) = c) ↔ False := by
    constructor
    · intro h; omega
    · intro h; exact h.elim
  have hnew : SlotOK ⟨some ⟨g, some X⟩, t.Stack + min c (X.MaxStackSize - t.Stack),
      t.SlotIndex⟩ := slotOK_filled _ _ _ _ hM (by omega) (by simp [hS]; omega)
  have hidx2 := idx_set hidx t.SlotIndex
    (⟨some ⟨g, some X⟩, t.Stack + min c (X.MaxStackSize - t.Stack), t.SlotIndex⟩) rfl
  have hok2 := ok_set hok t.SlotIndex _ hnew
  have hte : t.IsEmpty = false := by
    rw [hshape]; simp [FInventorySlot.IsEmpty]; omega
  have hue : (⟨some ⟨g, some X⟩, t.Stack + min c (X.MaxStackSize - t.Stack),
      t.SlotIndex⟩ : FInventorySlot).IsEmpty = false := by
    simp [FInventorySlot.IsEmpty]; omega
  have hcount := emptyCount_set_full inv.Slots t.SlotIndex t _ hti hte hue
  have hloop := addLoop_eq X hS hM fuel
    { inv with Slots := (inv.Slots.set t.SlotIndex
        (⟨some ⟨g, some X⟩, t.Stack + min c (X.MaxStackSize - t.Stack), t.SlotIndex⟩)) }
    (c - min c (X.MaxStackSize - t.Stack)) [t.SlotIndex] hidx2 hok2 (by simp only; omega)
  unfold AddItem
  simp only [hfull, hS, FindSlotForStackableItem, hf, hstep, hne, hloop, hinst]
  simp

/-- Stackable add without a partial stack: fill empty slots in index order. -/
theorem addItem_empty (fuel : Nat) (inv : UInventoryComponent) (X : UItem) (c : Int)
    (t : FInventorySlot)
    (hidx : ∀ (i : Nat) (s : FInventorySlot), inv.Slots[i]? = some s → s.SlotIndex = i)
    (hok : ∀ s ∈ inv.Slots, SlotOK s) (hS : X.bIsStackable = true)
    (hM : 1 ≤ X.MaxStackSize) (hc : 1 ≤ c)
    (hfull : inv.IsFull = false)
    (hf : inv.FindFirstFreeSlotForStack (some X) = none)
    (hfree : inv.FindFirstFreeSlot = some t)
    (hfuel : emptyCount inv.Slots ≤ fuel + 1) :
    AddItem fuel inv (some X) c =
      some ⟨true,
        { inv with
          Slots := fillStack X inv.NextGuid c inv.Slots
          NextGuid := inv.NextGuid + (fillIdx X c inv.Slots).length },
        [fillIdx X c inv.Slots]⟩ := by
  obtain ⟨hte, as, bs, hl, has, hti⟩ := find_split hidx hfree
  have htok : SlotOK t := hok t (by rw [hl]; simp)
  have hshape := htok.empty_shape hte
  have hlt : t.SlotIndex < inv.Slots.length := by rw [hl, hti]; simp
  have hstep := addStacked_empty inv t.SlotIndex X c hlt hS hM (by omega)
  rw [← hshape] at hstep
  have hne : (c - min c X.MaxStackSize = c) ↔ False := by
    constructor
    · intro h; omega
    · intro h; exact h.elim
  have hloop := addLoop_eq X hS hM (fuel + 1) inv c [] hidx hok hfuel
  unfold AddItem.loop at hloop
  have hc0 : c > 0 := by omega
  simp only [hc0, if_true, hfree, hstep, List.nil_append] at hloop
  unfold AddItem
  simp only [hfull, hS, FindSlotForStackableItem, hf, hfree, hstep, hne, hloop]
  simp

/-- Stackable add with neither a partial stack nor an empty slot fails without effect. -/
theorem addItem_noTarget (fuel : Nat) (inv : UInventoryComponent) (X : UItem) (c : Int)
    (hS : X.bIsStackable = true) (hfull : inv.IsFull = false)
    (hf : inv.FindFirstFreeSlotForStack (some X) = none)
    (hfree : inv.FindFirstFreeSlot = none) :
    AddItem fuel inv (some X) c = some ⟨false, inv, []⟩ := by
  unfold AddItem
  simp [hfull, hS, FindSlotForStackableItem, hf, hfree]

theorem addItem_full (fuel : Nat) (inv : UInventoryComponent) (X : UItem) (c : Int)
    (hfull : inv.IsFull = true) :
    AddItem fuel inv (some X) c = some ⟨false, inv, []⟩ := by
  unfold AddItem
  simp [hfull]

/-- Non-stackable add: one new instance per empty slot, in index order. -/
theorem addItem_single (fuel : Nat) (inv : UInventoryComponent) (X : UItem) (c : Int)
    (hidx : ∀ (i : Nat) (s : FInventorySlot), inv.Slots[i]? = some s → s.SlotIndex = i)
    (hok : ∀ s ∈ inv.Slots, SlotOK s) (hS : X.bIsStackable = false)
    (hM : 1 ≤ X.MaxStackSize) (hfull : inv.IsFull = false) :
    AddItem fuel inv (some X) c =
      some ⟨true,
        { inv with
          Slots := fillSingles X inv.NextGuid c.toNat inv.Slots
          NextGuid := inv.NextGuid + min c.toNat (emptyCount inv.Slots) },
        [singlesIdx c.toNat inv.Slots]⟩ := by
  unfold AddItem HandleNonStackableItem
  simp [hfull, hS, singlesLoop_eq X hM c.toNat inv [] hidx hok]

theorem addLoop_mono (Item : UItem) :
    ∀ (fuel : Nat) (inv : UInventoryComponent) (c : Int) (ch : List Nat)
      (r : UInventoryComponent × List Nat),
      AddItem.loop Item fuel inv c ch = some r → AddItem.loop Item (fuel + 1) inv c ch = some r := by
  intro fuel
  induction fuel with
  | zero =>
    intro inv c ch r h
    unfold AddItem.loop at h ⊢
    by_cases hc : c > 0
    · cases hf : inv.FindFirstFreeSlot with
      | none => simpa [hc, hf] using h
      | some t => simp [hc, hf] at h
    · simpa [hc] using h
  | succ n ih =>
    intro inv c ch r h
    unfold AddItem.loop at h ⊢
    by_cases hc : c > 0
    · cases hf : inv.FindFirstFreeSlot with
      | none => simpa [hc, hf] using h
      | some t =>
        simp only [hc, if_true, hf] at h ⊢
        exact ih _ _ _ _ h
    · simpa [hc] using h

theorem addItem_mono (fuel : Nat) (inv : UInventoryComponent) (Item : Option UItem) (c : Int)
    (out : Call Bool) (h : AddItem fuel inv Item c = some out) :
    ∀ k, AddItem (fuel + k) inv Item c = some out := by
  have step : ∀ fuel, AddItem fuel inv Item c = some out →
      AddItem (fuel + 1) inv Item c = some out := by
    intro fuel h
    unfold AddItem at h ⊢
    cases Item with
    | none => simpa using h
    | some it =>
      simp only at h ⊢
      split_ifs at h ⊢ with h1 h2
      · exact h
      · exact h
      · cases hs : inv.FindSlotForStackableItem (some it) with
        | none => simpa [hs] using h
        | some Slot =>
          simp only [hs] at h ⊢
          split_ifs at h ⊢ with h3
          · exact h
          · cases hl : AddItem.loop it fuel (AddStackedItemToSlot inv Slot it c).inv
                (AddStackedItemToSlot inv Slot it c).ret
                [(AddStackedItemToSlot inv Slot it c).InSlot.SlotIndex] with
            | none => simp [hl] at h
            | some r =>
              rw [addLoop_mono _ _ _ _ _ _ hl]
              simpa [hl] using h
  intro k
  induction k with
  | zero => exact h
  | succ k ih => exact step _ ih

theorem countP_le_one_of_unique (p : FInventorySlot → Bool) :
    ∀ (l : List FInventorySlot),
    (∀ (i j : Nat) (s u : FInventorySlot), l[i]? = some s → l[j]? = some u →
      p s = true → p u = true → i = j) → l.countP p ≤ 1 := by
  intro l
  induction l with
  | nil => intro _; simp
  | cons a rest ih =>
    intro h
    have hrest : rest.countP p ≤ 1 := by
      apply ih
      intro i j s u hi hj hs hu
      have := h (i + 1) (j + 1) s u (by simpa using hi) (by simpa using hj) hs hu
      omega
    rw [List.countP_cons]
    by_cases hpa : p a = true
    · have hzero : rest.countP p = 0 := by
        rw [List.countP_eq_zero]
        intro x hx hpx
        obtain ⟨n, hn⟩ := List.mem_iff_getElem?.1 hx
        have := h 0 (n + 1) a x (by simp) (by simpa using hn) hpa hpx
        omega
      simp [hpa, hzero]
    · simp [hpa]; exact hrest

theorem unique_of_countP_le_one (p : FInventorySlot → Bool) :
    ∀ (l : List FInventorySlot), l.countP p ≤ 1 →
    ∀ (i j : Nat) (s u : FInventorySlot), l[i]? = some s → l[j]? = some u →
      p s = true → p u = true → i = j := by
  intro l
  induction l with
  | nil => intro _ i j s u hi; simp at hi
  | cons a rest ih =>
    intro h i j s u hi hj hs hu
    rw [List.countP_cons] at h
    have hpos : ∀ (n : Nat) (x : FInventorySlot), rest[n]? = some x → p x = true →
        0 < rest.countP p := by
      intro n x hn hx
      rw [List.countP_pos_iff]
      exact ⟨x, List.mem_iff_getElem?.2 ⟨n, hn⟩, hx⟩
    cases i with
    | zero =>
      cases j with
      | zero => rfl
      | succ j =>
        simp at hi hj
        subst hi
        have := hpos j u hj hu
        rw [if_pos hs] at h
        omega
    | succ i =>
      cases j with
      | zero =>
        simp at hi hj
        subst hj
        have := hpos i s hi hs
        rw [if_pos hu] at h
        omega
      | succ j =>
        simp at hi hj
        have hle : rest.countP p ≤ 1 := by omega
        have := ih hle i j s u hi hj hs hu
        omega

theorem idx_updateAt {l : List FInventorySlot}
    (hidx : ∀ (i : Nat) (s : FInventorySlot), l[i]? = some s → s.SlotIndex = i)
    (j : Nat) (g : FInventorySlot → FInventorySlot)
    (hg : ∀ s, (g s).SlotIndex = s.SlotIndex) :
    ∀ (i : Nat) (s : FInventorySlot), (updateAt l j g)[i]? = some s → s.SlotIndex = i := by
  unfold updateAt
  cases h : l[j]? with
  | none => exact hidx
  | some t =>
    simp only
    exact idx_set hidx j (g t) (by rw [hg]; exact hidx j t h)

theorem ok_updateAt {l : List FInventorySlot} (hok : ∀ s ∈ l, SlotOK s) (j : Nat)
    (g : FInventorySlot → FInventorySlot) (hg : ∀ s, SlotOK s → SlotOK (g s)) :
    ∀ s ∈ updateAt l j g, SlotOK s := by
  unfold updateAt
  cases h : l[j]? with
  | none => exact hok
  | some t =>
    simp only
    exact ok_set hok j (g t) (hg t (hok t (List.mem_iff_getElem?.2 ⟨j, h⟩)))

theorem freeCount_idx (s : FInventorySlot) (c : Int) :
    (s.FreeCount c).2.SlotIndex = s.SlotIndex := by
  unfold FInventorySlot.FreeCount
  split_ifs <;> rfl

theorem freeCount_ok (s : FInventorySlot) (c : Int) (h : SlotOK s) :
    SlotOK (s.FreeCount c).2 := by
  by_cases hc : c ≤ 0
  · simp [FInventorySlot.FreeCount, hc]; exact h
  · by_cases hle : s.Stack ≤ c
    · rw [freeCount_all _ _ (by omega) hle]
      exact Or.inl ⟨rfl, rfl⟩
    · rw [freeCount_some _ _ (by omega) (by omega)]
      rcases h with ⟨_, h2⟩ | ⟨g, it, h1, h2, h3, h4⟩
      · omega
      · right
        refine ⟨g, it, h1, h2, by simp only; omega, ?_⟩
        simp only [FInventorySlot.GetMaxStackSize, h1] at h4 ⊢
        omega

theorem removeLoop_idx : ∀ (L : List FInventorySlot) (st : RemoveLoop),
    (∀ (i : Nat) (s : FInventorySlot), st.Slots[i]? = some s → s.SlotIndex = i) →
    ∀ (i : Nat) (s : FInventorySlot), (RemoveItem.loop L st).Slots[i]? = some s →
      s.SlotIndex = i := by
  intro L
  induction L with
  | nil => intro st h; simpa [RemoveItem.loop] using h
  | cons f rest ih =>
    intro st h
    unfold RemoveItem.loop
    by_cases hc : st.Count > 0
    · simp only [hc, if_true]
      apply ih
      exact idx_updateAt h _ _ (fun s => freeCount_idx s _)
    · simpa [hc] using h

theorem removeLoop_ok : ∀ (L : List FInventorySlot) (st : RemoveLoop),
    (∀ s ∈ st.Slots, SlotOK s) → ∀ s ∈ (RemoveItem.loop L st).Slots, SlotOK s := by
  intro L
  induction L with
  | nil => intro st h; simpa [RemoveItem.loop] using h
  | cons f rest ih =>
    intro st h
    unfold RemoveItem.loop
    by_cases hc : st.Count > 0
    · simp only [hc, if_true]
      apply ih
      exact ok_updateAt h _ _ (fun s hs => freeCount_ok s _ hs)
    · simpa [hc] using h

/-- Every walked slot is afterwards unchanged, empty, or the same occupant with a smaller
stack. -/
theorem removeLoop_cases : ∀ (L : List FInventorySlot) (st : RemoveLoop),
    (∀ x ∈ L, st.Slots[x.SlotIndex]? = some x) →
    (L.map (fun s => s.SlotIndex)).Nodup → (∀ f ∈ L, 0 < f.Stack) →
    ∀ f ∈ L, ∃ s, (RemoveItem.loop L st).Slots[f.SlotIndex]? = some s ∧
      (s = f ∨ (s.Stack < f.Stack ∧ (s = ⟨none, 0, f.SlotIndex⟩ ∨ s.Instance = f.Instance))) := by
  intro L
  induction L with
  | nil => intro st _ _ _ f hf; cases hf
  | cons h rest ih =>
    intro st hsnap hnd hpos f hf
    have hrest : ∀ g ∈ rest, 0 < g.Stack := fun g hg => hpos g (by simp [hg])
    by_cases hc : st.Count > 0
    · obtain ⟨hs1, hn1, hnot, hself⟩ :=
        snap_step h rest st.Slots (fun s => (s.FreeCount st.Count).2) hsnap hnd
      unfold RemoveItem.loop
      simp only [hc, if_true]
      rcases List.mem_cons.1 hf with hfh | hfr
      · rw [hfh, removeLoop_frame _ _ _ hnot]
        simp only
        rw [hself]
        have hh : 0 < h.Stack := hpos h (by simp)
        by_cases hle : h.Stack ≤ st.Count
        · rw [freeCount_all _ _ hc hle]
          exact ⟨_, rfl, Or.inr ⟨by simp only; omega, Or.inl rfl⟩⟩
        · rw [freeCount_some _ _ hc (by omega)]
          exact ⟨_, rfl, Or.inr ⟨by simp only; omega, Or.inr rfl⟩⟩
      · exact ih _ hs1 hn1 hrest f hfr
    · rw [removeLoop_stop _ _ hc]
      exact ⟨f, hsnap f hf, Or.inl rfl⟩

theorem stackTarget_iff (Y : Option UItem) (s : FInventorySlot) :
    stackTarget Y s = true ↔ s.Stack ≠ 0 ∧ s.GetMaxStackSize ≠ s.Stack ∧
      ∃ inst, s.Instance = some inst ∧ inst.Item = Y := by
  unfold stackTarget FInventorySlot.GetInstance FInventorySlot.IsFull FInventorySlot.IsEmpty
    FInventorySlot.GetStackSize
  rcases s with ⟨inst, k, i⟩
  cases inst with
  | none => simp
  | some a =>
    by_cases hk : k = 0
    · simp [hk]
    · simp [hk]

theorem getMax_congr (s u : FInventorySlot) (a b : UItemInstance)
    (hs : s.Instance = some a) (hu : u.Instance = some b) (h : a.Item = b.Item) :
    s.GetMaxStackSize = u.GetMaxStackSize := by
  simp [FInventorySlot.GetMaxStackSize, hs, hu, h]

theorem getElem?_some_of_length {l l2 : List FInventorySlot} (hlen : l2.length = l.length)
    {i : Nat} {s : FInventorySlot} (h : l2[i]? = some s) : ∃ t, l[i]? = some t := by
  have hlt : i < l2.length := by
    by_contra hn
    rw [List.getElem?_eq_none (by omega)] at h
    cases h
  have hlt2 : i < l.length := by omega
  exact ⟨l[i], List.getElem?_eq_getElem hlt2⟩

/-- Relation between a slot before and after the removal loop over the slots holding `X`. -/
theorem removeItem_rel (inv : UInventoryComponent) (hInv : Inv inv) (X : Option UItem)
    (st : RemoveLoop) (hst : st.Slots = inv.Slots) (k : Nat) (x y : FInventorySlot)
    (hx : inv.Slots[k]? = some x)
    (hy : (RemoveItem.loop (sortByStack (inv.Slots.filter (holdsItem X))) st).Slots[k]? = some y) :
    y = x ∨ (x ∈ sortByStack (inv.Slots.filter (holdsItem X)) ∧ y.Stack < x.Stack ∧
      (y = ⟨none, 0, x.SlotIndex⟩ ∨ y.Instance = x.Instance)) := by
  obtain ⟨hmem, hsnap, hnd, hpos, _, _⟩ := found_facts hInv.idx hInv.ok X
  have hxk : x.SlotIndex = k := hInv.idx k x hx
  by_cases hh : holdsItem X x = true
  · have hxL : x ∈ sortByStack (inv.Slots.filter (holdsItem X)) :=
      (hmem x).2 ⟨List.mem_iff_getElem?.2 ⟨k, hx⟩, hh⟩
    obtain ⟨s, hs, hcase⟩ := removeLoop_cases _ st (by rw [hst]; exact hsnap) hnd
      (fun f hf => (hpos f hf).2) x hxL
    rw [hxk, hy] at hs
    cases hs
    rcases hcase with h | h
    · exact Or.inl h
    · exact Or.inr ⟨hxL, h⟩
  · left
    have hnot : k ∉ (sortByStack (inv.Slots.filter (holdsItem X))).map (fun s => s.SlotIndex) := by
      intro hk
      simp only [List.mem_map] at hk
      obtain ⟨f, hf, hfk⟩ := hk
      have h1 := hsnap f hf
      rw [hfk, hx] at h1
      cases h1
      exact hh (hpos x hf).1
    rw [removeLoop_frame _ _ _ hnot, hst, hx] at hy
    exact (Option.some.inj hy).symm

theorem removeItem_aux (inv : UInventoryComponent) (hInv : Inv inv) (X Y : Option UItem)
    (st : RemoveLoop) (hst : st.Slots = inv.Slots) (i j : Nat) (hij : i ≠ j)
    (s u s2 u2 : FInventorySlot)
    (hs : inv.Slots[i]? = some s) (hu : inv.Slots[j]? = some u)
    (hs2 : (RemoveItem.loop (sortByStack (inv.Slots.filter (holdsItem X))) st).Slots[i]?
      = some s2)
    (hu2 : (RemoveItem.loop (sortByStack (inv.Slots.filter (holdsItem X))) st).Slots[j]?
      = some u2)
    (hts : stackTarget Y s2 = true) (htu : stackTarget Y u2 = true)
    (hsL : s ∈ sortByStack (inv.Slots.filter (holdsItem X)))
    (hred : s2.Stack < s.Stack) (hinst : s2.Instance = s.Instance) : False := by
  obtain ⟨hmem, hsnap, hnd, hpos, hsorted, _⟩ := found_facts hInv.idx hInv.ok X
  have hsnap2 : ∀ x ∈ sortByStack (inv.Slots.filter (holdsItem X)),
      st.Slots[x.SlotIndex]? = some x := by rw [hst]; exact hsnap
  have hpos2 := fun f hf => (hpos f hf).2
  have hsi : s.SlotIndex = i := hInv.idx i s hs
  have hui : u.SlotIndex = j := hInv.idx j u hu
  obtain ⟨hs2ne, hs2max, a, hs2a, haY⟩ := (stackTarget_iff Y s2).1 hts
  obtain ⟨hu2ne, hu2max, b, hu2b, hbY⟩ := (stackTarget_iff Y u2).1 htu
  obtain ⟨_, a2, hsa2, ha2X⟩ := (holdsItem_iff X s).1 (hpos s hsL).1
  have haa : a = a2 := by
    rw [hinst, hsa2] at hs2a
    exact (Option.some.inj hs2a).symm
  have hYX : Y = X := by rw [← haY, haa, ha2X]
  have hnotempty : ∀ (k : Nat) (z : FInventorySlot), stackTarget Y z = true →
      z ≠ ⟨none, 0, k⟩ := by
    intro k z hz he
    rw [he] at hz
    simp [stackTarget, FInventorySlot.IsEmpty] at hz
  rcases removeItem_rel inv hInv X st hst j u u2 hu hu2 with h | ⟨huL, hured, _⟩
  · -- the second slot is untouched, so it was a partial stack of `X` before
    subst h
    have huX : holdsItem X u2 = true := by
      rw [holdsItem_iff]
      exact ⟨hu2ne, b, hu2b, by rw [hbY, hYX]⟩
    have huL : u2 ∈ sortByStack (inv.Slots.filter (holdsItem X)) :=
      (hmem u2).2 ⟨List.mem_iff_getElem?.2 ⟨j, hu⟩, huX⟩
    by_cases hsfull : s.GetMaxStackSize = s.Stack
    · have hmaxeq : s.GetMaxStackSize = u2.GetMaxStackSize :=
        getMax_congr s u2 a2 b hsa2 hu2b (by rw [ha2X, hbY, hYX])
      have hule : u2.Stack ≤ u2.GetMaxStackSize := by
        rcases hInv.ok u2 (List.mem_iff_getElem?.2 ⟨j, hu⟩) with ⟨h1, _⟩ | ⟨_, _, _, _, _, h4⟩
        · rw [h1] at hu2b; cases hu2b
        · exact h4
      have hlt : u2.Stack < s.Stack := by omega
      have := removeLoop_sorted _ st hsnap2 hnd hpos2 hsorted s hsL u2 huL
        ⟨s2, by rw [hsi]; exact hs2, hred⟩ hlt
      rw [hui, hu2] at this
      exact hnotempty _ _ htu (Option.some.inj this)
    · have htsX : stackTarget Y s = true := by
        rw [stackTarget_iff]
        exact ⟨ne_of_gt (hpos2 s hsL), hsfull, a2, hsa2, by rw [ha2X, hYX]⟩
      exact hij (unique_of_countP_le_one _ _ (hInv.one Y) i j s u2 hs hu htsX htu)
  · have := removeLoop_two _ st hsnap2 hnd hpos2 s hsL u huL (by rw [hsi, hui]; exact hij)
      ⟨s2, by rw [hsi]; exact hs2, hred⟩ ⟨u2, by rw [hui]; exact hu2, hured⟩
    rw [hsi, hui, hs2, hu2] at this
    rcases this with h | h
    · exact hnotempty _ _ hts (Option.some.inj h)
    · exact hnotempty _ _ htu (Option.some.inj h)

/-- The removal loop keeps at most one non-full stack per item. -/
theorem removeItem_one (inv : UInventoryComponent) (hInv : Inv inv) (X Y : Option UItem)
    (st : RemoveLoop) (hst : st.Slots = inv.Slots) :
    (RemoveItem.loop (sortByStack (inv.Slots.filter (holdsItem X))) st).Slots.countP
      (stackTarget Y) ≤ 1 := by
  apply countP_le_one_of_unique
  intro i j s2 u2 hs2 hu2 hts htu
  by_contra hij
  have hlen := removeLoop_length (sortByStack (inv.Slots.filter (holdsItem X))) st
  rw [hst] at hlen
  obtain ⟨s, hs⟩ := getElem?_some_of_length hlen hs2
  obtain ⟨u, hu⟩ := getElem?_some_of_length hlen hu2
  have hnotempty : ∀ (k : Nat) (z : FInventorySlot), stackTarget Y z = true →
      z ≠ ⟨none, 0, k⟩ := by
    intro k z hz he
    rw [he] at hz
    simp [stackTarget, FInventorySlot.IsEmpty] at hz
  rcases removeItem_rel inv hInv X st hst i s s2 hs hs2 with h | ⟨hsL, hred, h | h⟩
  · rcases removeItem_rel inv hInv X st hst j u u2 hu hu2 with h2 | ⟨huL, hred, h2 | h2⟩
    · subst h; subst h2
      exact hij (unique_of_countP_le_one _ _ (hInv.one Y) i j s2 u2 hs hu hts htu)
    · exact hnotempty _ _ htu h2
    · exact removeItem_aux inv hInv X Y st hst j i (fun e => hij e.symm) u s u2 s2 hu hs hu2 hs2
        htu hts huL hred h2
  · exact hnotempty _ _ hts h
  · exact removeItem_aux inv hInv X Y st hst i j hij s u s2 u2 hs hu hs2 hu2 hts htu hsL hred h

theorem fresh_slots (MaxSlots : Int) :
    (Fresh MaxSlots).Slots = (List.range MaxSlots.toNat).map FInventorySlot.ofIndex := by
  simp [Fresh, BeginPlay]

theorem fresh_inv (MaxSlots : Int) : Inv (Fresh MaxSlots) := by
  refine ⟨?_, ?_, ?_⟩
  · intro i s h
    rw [fresh_slots, List.getElem?_map] at h
    by_cases hi : i < MaxSlots.toNat
    · rw [List.getElem?_range hi] at h
      simp at h
      rw [← h]; rfl
    · rw [List.getElem?_eq_none (by simpa using hi)] at h
      simp at h
  · intro s hs
    rw [fresh_slots, List.mem_map] at hs
    obtain ⟨i, _, rfl⟩ := hs
    exact Or.inl ⟨rfl, rfl⟩
  · intro Y
    have : (Fresh MaxSlots).Slots.countP (stackTarget Y) = 0 := by
      rw [List.countP_eq_zero]
      intro s hs
      rw [fresh_slots, List.mem_map] at hs
      obtain ⟨i, _, rfl⟩ := hs
      simp [stackTarget, FInventorySlot.ofIndex, FInventorySlot.IsEmpty]
    omega

theorem removeItem_inv (inv : UInventoryComponent) (hInv : Inv inv) (X : Option UItem)
    (c r0 : Int) : Inv (RemoveItem inv X c r0).inv := by
  unfold RemoveItem
  by_cases hfound : (inv.FindSlotsWithItem X).1 = false
  · simp only [hfound, if_true]
    exact hInv
  · simp only [hfound, if_false]
    simp only [FindSlotsWithItem]
    refine ⟨?_, ?_, ?_⟩
    · exact removeLoop_idx _ _ hInv.idx
    · exact removeLoop_ok _ _ hInv.ok
    · intro Y
      exact removeItem_one inv hInv X Y _ rfl

theorem free_cases (t : FInventorySlot) : t.Free = t ∨ t.Free = ⟨none, 0, t.SlotIndex⟩ := by
  unfold FInventorySlot.Free FInventorySlot.GetStackSize
  by_cases h : t.Stack ≤ 0
  · left; simp [FInventorySlot.FreeCount, h]
  · right; exact freeCount_all _ _ (by omega) (le_refl _)

theorem removeInstance_inv (inv : UInventoryComponent) (hInv : Inv inv)
    (Instance : Option UItemInstance) : Inv (RemoveInstance inv Instance).inv := by
  unfold RemoveInstance
  cases hf : inv.FindSlotOfInstance Instance with
  | none => exact hInv
  | some t =>
    simp only
    have htm : t ∈ inv.Slots := List.mem_of_find?_eq_some hf
    have hti := idx_mem hInv.idx htm
    have hlt : t.SlotIndex < inv.Slots.length := by
      by_contra hn
      rw [List.getElem?_eq_none (by omega)] at hti
      cases hti
    have hget : inv.Slots[t.SlotIndex] = t := by
      rw [List.getElem?_eq_getElem hlt] at hti
      exact Option.some.inj hti
    refine ⟨?_, ?_, ?_⟩
    · apply idx_updateAt hInv.idx
      intro s
      rcases free_cases s with h | h <;> rw [h]
    · apply ok_updateAt hInv.ok
      intro s hs
      rcases free_cases s with h | h <;> rw [h]
      · exact hs
      · exact Or.inl ⟨rfl, rfl⟩
    · intro Y
      simp only
      rw [updateAt_eq_set _ _ _ hlt, hget]
      have hc := countP_set (stackTarget Y) inv.Slots t.SlotIndex hlt t.Free
      rw [hget] at hc
      have hone := hInv.one Y
      rcases free_cases t with h | h
      · rw [h] at hc ⊢
        omega
      · rw [h] at hc ⊢
        have : stackTarget Y ⟨none, 0, t.SlotIndex⟩ = false := by
          simp [stackTarget, FInventorySlot.IsEmpty]
        rw [this] at hc
        simp only [Bool.false_eq_true, if_false] at hc
        omega

theorem addItem_inv (fuel : Nat) (inv : UInventoryComponent) (hInv : Inv inv) (X : UItem)
    (c : Int) (out : Call Bool) (hM : 1 ≤ X.MaxStackSize) (hc : 1 ≤ c)
    (h : AddItem fuel inv (some X) c = some out) : Inv out.inv := by
  have h2 := addItem_mono fuel inv (some X) c out h (emptyCount inv.Slots)
  by_cases hfull : inv.IsFull = true
  · rw [addItem_full _ _ _ _ hfull] at h2
    cases h2; exact hInv
  · have hfull2 : inv.IsFull = false := by simpa using hfull
    by_cases hS : X.bIsStackable = false
    · rw [addItem_single _ _ _ _ hInv.idx hInv.ok hS hM hfull2] at h2
      cases h2
      refine ⟨?_, ?_, ?_⟩
      · exact idx_congr hInv.idx (fillSingles_idx _ _ _ _)
      · exact fillSingles_ok X hM _ _ _ hInv.ok
      · intro Y
        simp only
        rw [fillSingles_targets X hS Y]
        exact hInv.one Y
    · have hS2 : X.bIsStackable = true := by simpa using hS
      cases hf : inv.FindFirstFreeSlotForStack (some X) with
      | some t =>
        rw [addItem_topUp _ _ _ _ t hInv.idx hInv.ok hM hc hfull2 hf (by omega)] at h2
        cases h2
        have htm : t ∈ inv.Slots := List.mem_of_find?_eq_some hf
        have htt : stackTarget (some X) t = true := List.find?_some hf
        obtain ⟨g, hshape, _, hpos, hlt⟩ := stackTarget_shape (hInv.ok t htm) htt
        have hti := idx_mem hInv.idx htm
        have hilt : t.SlotIndex < inv.Slots.length := by
          by_contra hn
          rw [List.getElem?_eq_none (by omega)] at hti
          cases hti
        have hget : inv.Slots[t.SlotIndex] = t := by
          rw [List.getElem?_eq_getElem hilt] at hti
          exact Option.some.inj hti
        have hinst : t.Instance = some ⟨g, some X⟩ := by rw [hshape]
        have hnew : SlotOK ⟨t.Instance, t.Stack + min c (X.MaxStackSize - t.Stack),
            t.SlotIndex⟩ := by
          rw [hinst]
          exact slotOK_filled _ _ _ _ hM (by omega) (by simp [hS2]; omega)
        have hidx2 := idx_set hInv.idx t.SlotIndex
          (⟨t.Instance, t.Stack + min c (X.MaxStackSize - t.Stack), t.SlotIndex⟩) rfl
        have hok2 := ok_set hInv.ok t.SlotIndex _ hnew
        refine ⟨?_, ?_, ?_⟩
        · exact idx_congr hidx2 (fillStack_idx _ _ _ _)
        · exact fillStack_ok X hS2 hM _ _ _ hok2
        · intro Y
          simp only
          have hcs := countP_set (stackTarget Y) inv.Slots t.SlotIndex hilt
            ⟨t.Instance, t.Stack + min c (X.MaxStackSize - t.Stack), t.SlotIndex⟩
          rw [hget] at hcs
          have hone := hInv.one Y
          by_cases hY : some X = Y
          · subst hY
            rw [htt] at hcs
            simp only [if_true] at hcs
            by_cases hover : c - min c (X.MaxStackSize - t.Stack) > 0
            · have hfullnew : stackTarget (some X)
                  ⟨t.Instance, t.Stack + min c (X.MaxStackSize - t.Stack), t.SlotIndex⟩
                  = false := by
                rw [hinst, Bool.eq_false_iff]
                intro hh
                rw [stackTarget_filled] at hh
                simp only [hS2, Bool.true_eq_false, if_false] at hh
                omega
              rw [hfullnew] at hcs
              simp only [Bool.false_eq_true, if_false] at hcs
              have := fillStack_targets X hS2
                (inv.Slots.set t.SlotIndex
                  ⟨t.Instance, t.Stack + min c (X.MaxStackSize - t.Stack), t.SlotIndex⟩)
                inv.NextGuid (c - min c (X.MaxStackSize - t.Stack))
              omega
            · rw [fillStack_nonpos _ _ _ _ hover]
              split_ifs at hcs <;> omega
          · rw [fillStack_other X Y hY]
            have h1 : stackTarget Y t = false := by
              rw [Bool.eq_false_iff]
              intro hh
              rw [hshape, stackTarget_filled] at hh
              exact hY hh.2.2
            have h3 : stackTarget Y
                ⟨t.Instance, t.Stack + min c (X.MaxStackSize - t.Stack), t.SlotIndex⟩
                = false := by
              rw [hinst, Bool.eq_false_iff]
              intro hh
              rw [stackTarget_filled] at hh
              exact hY hh.2.2
            rw [h1, h3] at hcs
            simp only [Bool.false_eq_true, if_false] at hcs
            omega
      | none =>
        cases hfree : inv.FindFirstFreeSlot with
        | none =>
          rw [addItem_noTarget _ _ _ _ hS2 hfull2 hf hfree] at h2
          cases h2; exact hInv
        | some t =>
          rw [addItem_empty _ _ _ _ t hInv.idx hInv.ok hS2 hM hc hfull2 hf hfree (by omega)]
            at h2
          cases h2
          refine ⟨?_, ?_, ?_⟩
          · exact idx_congr hInv.idx (fillStack_idx _ _ _ _)
          · exact fillStack_ok X hS2 hM _ _ _ hInv.ok
          · intro Y
            simp only
            by_cases hY : some X = Y
            · subst hY
              have hzero : inv.Slots.countP (stackTarget (some X)) = 0 := by
                rw [List.countP_eq_zero]
                simp only [FindFirstFreeSlotForStack, List.find?_eq_none] at hf
                exact hf
              have := fillStack_targets X hS2 inv.Slots inv.NextGuid c
              omega
            · rw [fillStack_other X Y hY]
              exact hInv.one Y

/-- Every reachable state satisfies the component invariant. -/
theorem reachable_inv {inv : UInventoryComponent} (h : Reachable inv) : Inv inv := by
  induction h with
  | fresh MaxSlots => exact fresh_inv MaxSlots
  | addItem fuel it Count out _ hc hM hout ih => exact addItem_inv fuel _ ih it Count out hM hc hout
  | removeItem Item Count RemovedItems _ _ ih => exact removeItem_inv _ ih Item Count RemovedItems
  | removeInstance Instance _ ih => exact removeInstance_inv _ ih Instance

/-! ## RemoveItem: claims C1 to C4 -/

theorem exInv_reachable : Reachable exInv :=
  @Reachable.addItem (Fresh 2) 2 exItem 7 ⟨true, exInv, [[0, 1]]⟩ (Reachable.fresh 2)
    (by decide) (by decide) (by rfl)

theorem found_iff (inv : UInventoryComponent) (X : Option UItem) :
    (inv.FindSlotsWithItem X).1 = true ↔ ∃ s ∈ inv.Slots, holdsItem X s = true := by
  simp only [FindSlotsWithItem, Bool.not_eq_true', List.isEmpty_eq_false]
  constructor
  · intro h
    obtain ⟨x, hx⟩ := List.exists_mem_of_ne_nil _ h
    exact ⟨x, (List.mem_filter.1 hx).1, (List.mem_filter.1 hx).2⟩
  · rintro ⟨s, hs, hh⟩ he
    have : s ∈ inv.Slots.filter (holdsItem X) := List.mem_filter.2 ⟨hs, hh⟩
    rw [he] at this
    cases this

theorem sortByStack_ne_nil {l : List FInventorySlot} (h : l ≠ []) : sortByStack l ≠ [] := by
  intro he
  have := List.length_insertionSort (fun a b : FInventorySlot => a.GetStackSize ≤ b.GetStackSize) l
  unfold sortByStack at he
  rw [he] at this
  exact h (List.length_eq_zero.1 this.symm)

theorem removeLoop_lc_of_pos (L : List FInventorySlot) (st : RemoveLoop) (hL : L ≠ [])
    (hc : st.Count > 0) :
    (RemoveItem.loop L st).LeftCount = (RemoveItem.loop L st).Count := by
  cases L with
  | nil => exact absurd rfl hL
  | cons f rest =>
    unfold RemoveItem.loop
    simp only [hc, if_true]
    exact removeLoop_lc _ _ rfl

/-- The result of `RemoveItem` when some slot holds the item. -/
theorem removeItem_held (inv : UInventoryComponent) (X : Option UItem) (c r : Int)
    (h : ∃ s ∈ inv.Slots, holdsItem X s = true) :
    RemoveItem inv X c r =
      ⟨(if (RemoveItem.loop (sortByStack (inv.Slots.filter (holdsItem X)))
            ⟨inv.Slots, [], r, c, 0⟩).LeftCount > 0 then false else true,
        (RemoveItem.loop (sortByStack (inv.Slots.filter (holdsItem X)))
            ⟨inv.Slots, [], r, c, 0⟩).RemovedItems),
        { inv with Slots := (RemoveItem.loop (sortByStack (inv.Slots.filter (holdsItem X)))
            ⟨inv.Slots, [], r, c, 0⟩).Slots },
        [(RemoveItem.loop (sortByStack (inv.Slots.filter (holdsItem X)))
            ⟨inv.Slots, [], r, c, 0⟩).ChangedSlots]⟩ := by
  have hf := (found_iff inv X).2 h
  unfold RemoveItem
  simp only [hf, Bool.true_eq_false, if_false]
  simp [FindSlotsWithItem]

/-- The result of `RemoveItem` when no slot holds the item. -/
theorem removeItem_absent (inv : UInventoryComponent) (X : Option UItem) (c r : Int)
    (h : ∀ s ∈ inv.Slots, holdsItem X s = false) :
    RemoveItem inv X c r = ⟨(false, r), inv, []⟩ := by
  have hf : (inv.FindSlotsWithItem X).1 = false := by
    rw [Bool.eq_false_iff]
    intro hf
    obtain ⟨s, hs, hh⟩ := (found_iff inv X).1 hf
    rw [h s hs] at hh
    cases hh
  unfold RemoveItem
  simp [hf]

theorem filter_ne_nil_of_held {inv : UInventoryComponent} {X : Option UItem}
    (h : ∃ s ∈ inv.Slots, holdsItem X s = true) : inv.Slots.filter (holdsItem X) ≠ [] := by
  obtain ⟨s, hs, hh⟩ := h
  intro he
  have : s ∈ inv.Slots.filter (holdsItem X) := List.mem_filter.2 ⟨hs, hh⟩
  rw [he] at this
  cases this

/-- C1 (fails on the code): with stacks 5 and 2 of one item, `RemoveItem(item, 4)` succeeds,
takes 4 units out of the slots (7 held before, 3 after), but reports `RemovedItems = 7`. -/
theorem C1_removedCount_overreports :
    Reachable exInv ∧
    (RemoveItem exInv (some exItem) 4 0).ret = (true, 7) ∧
    unitsHeld (some exItem) exInv.Slots = 7 ∧
    unitsHeld (some exItem) (RemoveItem exInv (some exItem) 4 0).inv.Slots = 3 ∧
    (RemoveItem exInv (some exItem) 4 0).ret.2 ≠ min 4 (unitsHeld (some exItem) exInv.Slots) :=
  ⟨exInv_reachable, by decide, by decide, by decide, by decide⟩

/-- C2: in a reachable state and for `Count ≥ 1`, `RemoveItem` returns true exactly when some
slot holds the item and the units held are at least `Count`; when no slot holds the item it
returns false and leaves the component as it was. -/
theorem C2_removeItem_true_iff (inv : UInventoryComponent) (hr : Reachable inv)
    (Item : Option UItem) (Count RemovedItems : Int) (hc : 1 ≤ Count) :
    ((RemoveItem inv Item Count RemovedItems).ret.1 = true ↔
      (∃ s ∈ inv.Slots, holdsItem Item s = true) ∧ Count ≤ unitsHeld Item inv.Slots) ∧
    ((∀ s ∈ inv.Slots, holdsItem Item s = false) →
      (RemoveItem inv Item Count RemovedItems).ret.1 = false ∧
      (RemoveItem inv Item Count RemovedItems).inv = inv ∧
      (RemoveItem inv Item Count RemovedItems).Broadcast = []) := by
  have hInv := reachable_inv hr
  constructor
  · by_cases h : ∃ s ∈ inv.Slots, holdsItem Item s = true
    · obtain ⟨_, _, _, hpos, _, hsum⟩ := found_facts hInv.idx hInv.ok Item
      have hne := sortByStack_ne_nil (filter_ne_nil_of_held h)
      have hleft := removeLoop_left _ ⟨inv.Slots, [], RemovedItems, Count, 0⟩ hne
        (by simp only; omega) (fun f hf => (hpos f hf).2)
      rw [hsum] at hleft
      simp only at hleft
      rw [removeItem_held inv Item Count RemovedItems h]
      simp only [h, true_and]
      rw [← hleft]
      split_ifs with h1
      · simp; omega
      · simp; omega
    · have h2 : ∀ s ∈ inv.Slots, holdsItem Item s = false := by
        intro s hs
        by_contra hh
        exact h ⟨s, hs, by simpa using hh⟩
      rw [removeItem_absent inv Item Count RemovedItems h2]
      simp [h]
  · intro h
    rw [removeItem_absent inv Item Count RemovedItems h]
    exact ⟨rfl, rfl, rfl⟩

/-- C2 at `exInv`, item `exItem`, count 4. -/
theorem C2_removeItem_true_iff_witness :
    Reachable exInv ∧ (1 : Int) ≤ 4 ∧
    ((RemoveItem exInv (some exItem) 4 0).ret.1 = true ↔
      (∃ s ∈ exInv.Slots, holdsItem (some exItem) s = true) ∧
        4 ≤ unitsHeld (some exItem) exInv.Slots) :=
  ⟨exInv_reachable, by decide,
    (C2_removeItem_true_iff exInv exInv_reachable (some exItem) 4 0 (by decide)).1⟩

/-- C3: in a reachable state, for an item held somewhere and `Count ≥ 1`, `RemoveItem` drains
the slots holding the item in ascending stack order: the units held drop by exactly
`min Count total`; whenever a slot lost units, every slot that held the item with a strictly
smaller stack is empty afterwards; and every slot not holding the item is unchanged. -/
theorem C3_removeItem_ascending (inv : UInventoryComponent) (hr : Reachable inv)
    (Item : Option UItem) (Count RemovedItems : Int) (hc : 1 ≤ Count)
    (hheld : ∃ s ∈ inv.Slots, holdsItem Item s = true) :
    unitsHeld Item (RemoveItem inv Item Count RemovedItems).inv.Slots =
      unitsHeld Item inv.Slots - min Count (unitsHeld Item inv.Slots) ∧
    (∀ (i j : Nat) (s u s2 : FInventorySlot),
      inv.Slots[i]? = some s → inv.Slots[j]? = some u →
      (RemoveItem inv Item Count RemovedItems).inv.Slots[i]? = some s2 →
      holdsItem Item s = true → holdsItem Item u = true →
      s2.Stack < s.Stack → u.Stack < s.Stack →
      (RemoveItem inv Item Count RemovedItems).inv.Slots[j]? = some ⟨none, 0, j⟩) ∧
    (∀ (i : Nat) (s : FInventorySlot), inv.Slots[i]? = some s → holdsItem Item s = false →
      (RemoveItem inv Item Count RemovedItems).inv.Slots[i]? = some s) := by
  have hInv := reachable_inv hr
  obtain ⟨hmem, hsnap, hnd, hpos, hsorted, hsum⟩ := found_facts hInv.idx hInv.ok Item
  rw [removeItem_held inv Item Count RemovedItems hheld]
  simp only
  refine ⟨?_, ?_, ?_⟩
  · have := removeLoop_units Item _ ⟨inv.Slots, [], RemovedItems, Count, 0⟩ hsnap hnd hpos
      (by simp only; omega)
    rw [hsum] at this
    exact this
  · intro i j s u s2 hs hu hs2 hhs hhu hred hlt
    have hsi : s.SlotIndex = i := hInv.idx i s hs
    have hui : u.SlotIndex = j := hInv.idx j u hu
    have hsL := (hmem s).2 ⟨List.mem_iff_getElem?.2 ⟨i, hs⟩, hhs⟩
    have huL := (hmem u).2 ⟨List.mem_iff_getElem?.2 ⟨j, hu⟩, hhu⟩
    have := removeLoop_sorted _ ⟨inv.Slots, [], RemovedItems, Count, 0⟩ hsnap hnd
      (fun f hf => (hpos f hf).2) hsorted s hsL u huL ⟨s2, by rw [hsi]; exact hs2, hred⟩ hlt
    rw [hui] at this
    exact this
  · intro i s hs hh
    have hnot : i ∉ (sortByStack (inv.Slots.filter (holdsItem Item))).map
        (fun s => s.SlotIndex) := by
      intro hk
      simp only [List.mem_map] at hk
      obtain ⟨f, hf, hfk⟩ := hk
      have h1 := hsnap f hf
      rw [hfk, hs] at h1
      cases h1
      rw [(hpos s hf).1] at hh
      cases hh
    rw [removeLoop_frame _ _ _ hnot]
    exact hs

/-- C3 at `exInv`, item `exItem`, count 4: the size-2 slot is emptied, the size-5 slot
keeps 3. -/
theorem C3_removeItem_ascending_witness :
    Reachable exInv ∧ (1 : Int) ≤ 4 ∧ (∃ s ∈ exInv.Slots, holdsItem (some exItem) s = true) ∧
    unitsHeld (some exItem) (RemoveItem exInv (some exItem) 4 0).inv.Slots =
      unitsHeld (some exItem) exInv.Slots - min 4 (unitsHeld (some exItem) exInv.Slots) ∧
    (RemoveItem exInv (some exItem) 4 0).inv.Slots =
      [⟨some ⟨0, some exItem⟩, 3, 0⟩, ⟨none, 0, 1⟩] :=
  ⟨exInv_reachable, by decide, by decide,
    (C3_removeItem_ascending exInv exInv_reachable (some exItem) 4 0 (by decide)
      (by decide)).1, by decide⟩

/-- C4: in a reachable state, for an item held somewhere and a count strictly greater than
the units held, `RemoveItem` returns false, every slot that held the item is empty afterwards
(no occupant, stack 0), and `RemovedItems`, started at 0, is the total held before. -/
theorem C4_removeItem_drains_all (inv : UInventoryComponent) (hr : Reachable inv)
    (Item : Option UItem) (Count : Int)
    (hheld : ∃ s ∈ inv.Slots, holdsItem Item s = true)
    (hgt : unitsHeld Item inv.Slots < Count) :
    (RemoveItem inv Item Count 0).ret.1 = false ∧
    (∀ (i : Nat) (s : FInventorySlot), inv.Slots[i]? = some s → holdsItem Item s = true →
      (RemoveItem inv Item Count 0).inv.Slots[i]? = some ⟨none, 0, i⟩) ∧
    (RemoveItem inv Item Count 0).ret.2 = unitsHeld Item inv.Slots := by
  have hInv := reachable_inv hr
  obtain ⟨hmem, hsnap, hnd, hpos, hsorted, hsum⟩ := found_facts hInv.idx hInv.ok Item
  have hne := sortByStack_ne_nil (filter_ne_nil_of_held hheld)
  have hnonneg := stackSum_nonneg _ (fun f hf => (hpos f hf).2)
  rw [hsum] at hnonneg
  obtain ⟨h1, h2, h3⟩ := removeLoop_all _ ⟨inv.Slots, [], 0, Count, 0⟩ hsnap hnd
    (fun f hf => (hpos f hf).2) (by simp only; rw [hsum]; omega)
  have hlc := removeLoop_lc_of_pos _ ⟨inv.Slots, [], 0, Count, 0⟩ hne (by simp only; omega)
  rw [hsum] at h1 h2
  simp only at h1 h2
  rw [removeItem_held inv Item Count 0 hheld]
  simp only
  refine ⟨?_, ?_, ?_⟩
  · rw [hlc, h1]
    have : Count - unitsHeld Item inv.Slots > 0 := by omega
    simp [this]
  · intro i s hs hh
    have hsi : s.SlotIndex = i := hInv.idx i s hs
    have hsL := (hmem s).2 ⟨List.mem_iff_getElem?.2 ⟨i, hs⟩, hh⟩
    have := h3 s hsL
    rw [hsi] at this
    exact this
  · rw [h2]; omega

/-- C4 at `exInv`, item `exItem`, count 9 against 7 units held. -/
theorem C4_removeItem_drains_all_witness :
    Reachable exInv ∧ (∃ s ∈ exInv.Slots, holdsItem (some exItem) s = true) ∧
    unitsHeld (some exItem) exInv.Slots < 9 ∧
    (RemoveItem exInv (some exItem) 9 0).ret.1 = false ∧
    (RemoveItem exInv (some exItem) 9 0).ret.2 = unitsHeld (some exItem) exInv.Slots :=
  ⟨exInv_reachable, by decide, by decide,
    (C4_removeItem_drains_all exInv exInv_reachable (some exItem) 9 (by decide) (by decide)).1,
    (C4_removeItem_drains_all exInv exInv_reachable (some exItem) 9 (by decide) (by decide)).2.2⟩

/-! ## AddItem on a fresh inventory: claims C5 and C6 -/

theorem fresh_cons (MaxSlots : Int) (hcap : 1 ≤ MaxSlots) :
    (Fresh MaxSlots).Slots =
      FInventorySlot.ofIndex 0 :: (List.range' 1 (MaxSlots.toNat - 1)).map FInventorySlot.ofIndex := by
  have h : MaxSlots.toNat = (MaxSlots.toNat - 1) + 1 := by omega
  rw [fresh_slots, List.range_eq_range', h, List.range'_succ]
  simp

theorem ofIndex_empty (i : Nat) : (FInventorySlot.ofIndex i).IsEmpty = true := by
  simp [FInventorySlot.ofIndex, FInventorySlot.IsEmpty]

theorem fresh_all_empty (MaxSlots : Int) : ∀ s ∈ (Fresh MaxSlots).Slots, s.IsEmpty = true := by
  intro s hs
  rw [fresh_slots, List.mem_map] at hs
  obtain ⟨i, _, rfl⟩ := hs
  exact ofIndex_empty i

theorem fresh_emptyCount (MaxSlots : Int) : emptyCount (Fresh MaxSlots).Slots = MaxSlots.toNat := by
  unfold emptyCount
  rw [List.countP_eq_length.2 (fun s hs => fresh_all_empty MaxSlots s hs), fresh_slots]
  simp

theorem isFull_false_of_empty (inv : UInventoryComponent) (t : FInventorySlot)
    (ht : t ∈ inv.Slots) (he : t.IsEmpty = true) : inv.IsFull = false := by
  rw [Bool.eq_false_iff]
  intro h
  simp only [UInventoryComponent.IsFull, List.all_eq_true] at h
  have := h t ht
  simp [FInventorySlot.IsFull, he] at this

theorem fresh_find (MaxSlots : Int) (hcap : 1 ≤ MaxSlots) (X : Option UItem) :
    (Fresh MaxSlots).IsFull = false ∧
    (Fresh MaxSlots).FindFirstFreeSlotForStack X = none ∧
    (Fresh MaxSlots).FindFirstFreeSlot = some (FInventorySlot.ofIndex 0) := by
  refine ⟨?_, ?_, ?_⟩
  · apply isFull_false_of_empty _ (FInventorySlot.ofIndex 0)
    · rw [fresh_cons _ hcap]; simp
    · exact ofIndex_empty 0
  · simp only [FindFirstFreeSlotForStack, List.find?_eq_none]
    intro s hs
    rw [stackTarget_empty _ _ (fresh_all_empty _ s hs)]
    simp
  · simp only [FindFirstFreeSlot]
    rw [fresh_cons _ hcap]
    simp [List.find?_cons, ofIndex_empty]

/-- Stackable add that fits into the first empty slot: one slot written, for every fuel. -/
theorem addItem_empty_fit (fuel : Nat) (inv : UInventoryComponent) (X : UItem) (c : Int)
    (t : FInventorySlot)
    (hidx : ∀ (i : Nat) (s : FInventorySlot), inv.Slots[i]? = some s → s.SlotIndex = i)
    (hok : ∀ s ∈ inv.Slots, SlotOK s) (hS : X.bIsStackable = true)
    (hc : 1 ≤ c) (hcM : c ≤ X.MaxStackSize)
    (hfull : inv.IsFull = false)
    (hf : inv.FindFirstFreeSlotForStack (some X) = none)
    (hfree : inv.FindFirstFreeSlot = some t) :
    AddItem fuel inv (some X) c =
      some ⟨true,
        { inv with
          Slots := inv.Slots.set t.SlotIndex ⟨some ⟨inv.NextGuid, some X⟩, c, t.SlotIndex⟩
          NextGuid := inv.NextGuid + 1 },
        [[t.SlotIndex]]⟩ := by
  obtain ⟨hte, as, bs, hl, has, hti⟩ := find_split hidx hfree
  have htok : SlotOK t := hok t (by rw [hl]; simp)
  have hshape := htok.empty_shape hte
  have hlt : t.SlotIndex < inv.Slots.length := by rw [hl, hti]; simp
  have hstep := addStacked_empty inv t.SlotIndex X c hlt hS (by omega) (by omega)
  rw [← hshape] at hstep
  have hmin : min c X.MaxStackSize = c := by omega
  rw [hmin] at hstep
  have hne : ¬ (c - c = c) := by omega
  have hloop : ∀ (i : UInventoryComponent) (ch : List Nat),
      AddItem.loop X fuel i (c - c) ch = some (i, ch) := by
    intro i ch
    unfold AddItem.loop
    simp
  unfold AddItem
  simp only [hfull, hS, FindSlotForStackableItem, hf, hfree, hstep, hne, hloop]
  simp

/-- C5: on a fresh inventory of capacity at least 1, adding `N ≤ MaxStackSize` units of a
stackable item returns true and leaves slot 0 holding the item with stack `N` and every other
slot empty; removing `N` units afterwards returns true and every slot is empty again. -/
theorem C5_add_remove_roundtrip (MaxSlots : Int) (X : UItem) (N : Int) (fuel : Nat)
    (hcap : 1 ≤ MaxSlots) (hS : X.bIsStackable = true) (hN : 1 ≤ N)
    (hNM : N ≤ X.MaxStackSize) :
    ∃ out : Call Bool, AddItem fuel (Fresh MaxSlots) (some X) N = some out ∧ out.ret = true ∧
      out.inv.Slots[0]? = some ⟨some ⟨0, some X⟩, N, 0⟩ ∧
      (∀ (i : Nat) (s : FInventorySlot), 0 < i → out.inv.Slots[i]? = some s →
        s.Instance = none ∧ s.Stack = 0) ∧
      (RemoveItem out.inv (some X) N 0).ret.1 = true ∧
      (∀ s ∈ (RemoveItem out.inv (some X) N 0).inv.Slots, s.Instance = none ∧ s.Stack = 0) ∧
      (RemoveItem out.inv (some X) N 0).inv.Slots = (Fresh MaxSlots).Slots := by
  have hInv := fresh_inv MaxSlots
  obtain ⟨hfull, hf, hfree⟩ := fresh_find MaxSlots hcap (some X)
  have hadd := addItem_empty_fit fuel (Fresh MaxSlots) X N _ hInv.idx hInv.ok hS hN hNM hfull
    hf hfree
  have hcons := fresh_cons MaxSlots hcap
  have hguid : (Fresh MaxSlots).NextGuid = 0 := rfl
  have htl : ∀ s ∈ (List.range' 1 (MaxSlots.toNat - 1)).map FInventorySlot.ofIndex,
      s.Instance = none ∧ s.Stack = 0 := by
    intro s hs
    rw [List.mem_map] at hs
    obtain ⟨i, _, rfl⟩ := hs
    exact ⟨rfl, rfl⟩
  have hfilter : ((⟨some ⟨0, some X⟩, N, 0⟩ : FInventorySlot) ::
      (List.range' 1 (MaxSlots.toNat - 1)).map FInventorySlot.ofIndex).filter
        (holdsItem (some X)) = [⟨some ⟨0, some X⟩, N, 0⟩] := by
    have h1 : holdsItem (some X) ⟨some ⟨0, some X⟩, N, 0⟩ = true := by
      rw [holdsItem_iff]
      exact ⟨by simp only; omega, _, rfl, rfl⟩
    rw [List.filter_cons, if_pos h1]
    congr 1
    rw [List.filter_eq_nil_iff]
    intro s hs hh
    have := ((holdsItem_iff _ _).1 hh).1
    exact this (htl s hs).2
  refine ⟨_, hadd, rfl, ?_, ?_, ?_⟩
  · simp only [hcons, hguid, FInventorySlot.ofIndex]
    simp
  · intro i s hi hs
    simp only [hcons, hguid, FInventorySlot.ofIndex] at hs
    cases i with
    | zero => omega
    | succ n =>
      simp only [List.set_cons_zero, List.getElem?_cons_succ] at hs
      exact htl s (List.mem_iff_getElem?.2 ⟨n, hs⟩)
  · have hN0 : N > 0 := by omega
    have hfc : ((⟨some ⟨0, some X⟩, N, 0⟩ : FInventorySlot).FreeCount N).2 = ⟨none, 0, 0⟩ :=
      freeCount_all _ _ hN0 (le_refl _)
    have hrem : RemoveItem
        (⟨(Fresh MaxSlots).MaxSlots, (⟨some ⟨0, some X⟩, N, 0⟩ : FInventorySlot) ::
            (List.range' 1 (MaxSlots.toNat - 1)).map FInventorySlot.ofIndex, 1⟩ :
          UInventoryComponent) (some X) N 0 =
        ⟨(true, N), ⟨(Fresh MaxSlots).MaxSlots, (Fresh MaxSlots).Slots, 1⟩, [[0]]⟩ := by
      unfold RemoveItem
      simp only [FindSlotsWithItem, hfilter]
      simp [sortByStack, RemoveItem.loop, hN0, updateAt, hfc, hcons, FInventorySlot.ofIndex]
    simp only [hcons, hguid, FInventorySlot.ofIndex, List.set_cons_zero] at hrem ⊢
    rw [hrem]
    refine ⟨rfl, ?_, rfl⟩
    intro s hs
    simp only [List.mem_cons] at hs
    rcases hs with h | h
    · rw [h]; exact ⟨rfl, rfl⟩
    · exact htl s h

/-- C5 at capacity 2, max stack 5, N = 4, with no fuel at all. -/
theorem C5_add_remove_roundtrip_witness :
    (1 : Int) ≤ 2 ∧ exItem.bIsStackable = true ∧ (1 : Int) ≤ 4 ∧ (4 : Int) ≤ exItem.MaxStackSize ∧
    ∃ out : Call Bool, AddItem 0 (Fresh 2) (some exItem) 4 = some out ∧ out.ret = true ∧
      out.inv.Slots[0]? = some ⟨some ⟨0, some exItem⟩, 4, 0⟩ ∧
      (∀ (i : Nat) (s : FInventorySlot), 0 < i → out.inv.Slots[i]? = some s →
        s.Instance = none ∧ s.Stack = 0) ∧
      (RemoveItem out.inv (some exItem) 4 0).ret.1 = true ∧
      (∀ s ∈ (RemoveItem out.inv (some exItem) 4 0).inv.Slots, s.Instance = none ∧ s.Stack = 0) ∧
      (RemoveItem out.inv (some exItem) 4 0).inv.Slots = (Fresh 2).Slots :=
  ⟨by decide, by decide, by decide, by decide,
    C5_add_remove_roundtrip 2 exItem 4 0 (by decide) (by decide) (by decide) (by decide)⟩

theorem divideAndRoundUp_zero (M : Int) (hM : 1 ≤ M) : DivideAndRoundUp 0 M = 0 := by
  unfold DivideAndRoundUp
  exact Int.ediv_eq_zero_of_lt (by omega) (by omega)

theorem divideAndRoundUp_step (c M : Int) (hM : 1 ≤ M) (hc : 0 < c) :
    DivideAndRoundUp c M = DivideAndRoundUp (c - min c M) M + 1 := by
  unfold DivideAndRoundUp
  have hM0 : M ≠ 0 := by omega
  have e : c + M - 1 = (c - 1) + 1 * M := by ring
  rw [e, Int.add_mul_ediv_right _ _ hM0]
  by_cases hcm : c ≤ M
  · have hmin : min c M = c := by omega
    rw [hmin]
    have e2 : c - c + M - 1 = M - 1 := by ring
    rw [e2, Int.ediv_eq_zero_of_lt (by omega : (0 : Int) ≤ c - 1) (by omega),
      Int.ediv_eq_zero_of_lt (by omega : (0 : Int) ≤ M - 1) (by omega)]
  · have hmin : min c M = M := by omega
    rw [hmin]
    have e2 : c - M + M - 1 = c - 1 := by ring
    rw [e2]

theorem divideAndRoundUp_nonneg (c M : Int) (hM : 1 ≤ M) (hc : 0 ≤ c) :
    0 ≤ DivideAndRoundUp c M := by
  unfold DivideAndRoundUp
  exact Int.ediv_nonneg (by omega) (by omega)

/-- Filling an all-empty run of slots: slot `i` of the run receives
`min M (max 0 (c - i * M))` units. -/
theorem fillStack_fresh_get (X : UItem) (hM : 1 ≤ X.MaxStackSize) :
    ∀ (m j g : Nat) (c : Int) (i : Nat), i < m → 0 ≤ c →
    (fillStack X g c ((List.range' j m).map FInventorySlot.ofIndex))[i]? =
      some (if min X.MaxStackSize (max 0 (c - i * X.MaxStackSize)) = 0 then
          FInventorySlot.ofIndex (j + i)
        else ⟨some ⟨g + i, some X⟩, min X.MaxStackSize (max 0 (c - i * X.MaxStackSize)),
          j + i⟩) := by
  intro m
  induction m with
  | zero => intro j g c i hi; omega
  | succ m ih =>
    intro j g c i hi hc
    rw [List.range'_succ, List.map_cons]
    by_cases hc0 : c > 0
    · unfold fillStack
      simp only [hc0, if_true, ofIndex_empty]
      cases i with
      | zero =>
        have hne : ¬ (min X.MaxStackSize (max 0 (c - ((0 : Nat) : Int) * X.MaxStackSize)) = 0) := by
          simp only [Nat.cast_zero, zero_mul, sub_zero]; omega
        have e : min X.MaxStackSize (max 0 (c - ((0 : Nat) : Int) * X.MaxStackSize)) =
            min c X.MaxStackSize := by
          simp only [Nat.cast_zero, zero_mul, sub_zero]; omega
        rw [if_neg hne, e]
        simp [FInventorySlot.ofIndex]
      | succ n =>
        rw [List.getElem?_cons_succ, ih (j + 1) (g + 1) (c - min c X.MaxStackSize) n
          (by omega) (by omega)]
        have hK : (0 : Int) ≤ (n : Int) * X.MaxStackSize :=
          mul_nonneg (by omega) (by omega)
        have e : ((n + 1 : Nat) : Int) * X.MaxStackSize =
            (n : Int) * X.MaxStackSize + X.MaxStackSize := by push_cast; ring
        have hu : min X.MaxStackSize (max 0 (c - min c X.MaxStackSize - n * X.MaxStackSize)) =
            min X.MaxStackSize (max 0 (c - ((n + 1 : Nat) : Int) * X.MaxStackSize)) := by
          rw [e]
          generalize (n : Int) * X.MaxStackSize = K at hK
          omega
        rw [hu]
        have e1 : j + 1 + n = j + (n + 1) := by omega
        have e2 : g + 1 + n = g + (n + 1) := by omega
        rw [e1, e2]
    · have hc1 : c = 0 := by omega
      subst hc1
      rw [fillStack_nonpos _ _ _ _ hc0, ← List.map_cons, ← List.range'_succ, List.getElem?_map,
        List.getElem?_range' _ _ hi]
      have hK : (0 : Int) ≤ (i : Int) * X.MaxStackSize :=
        mul_nonneg (by omega) (by omega)
      have hz : min X.MaxStackSize (max 0 (0 - (i : Int) * X.MaxStackSize)) = 0 := by
        generalize (i : Int) * X.MaxStackSize = K at hK
        omega
      rw [if_pos hz]
      simp

/-- Filling an all-empty run of slots writes the first `min m ⌈c / M⌉` indices in order. -/
theorem fillIdx_fresh (X : UItem) (hM : 1 ≤ X.MaxStackSize) :
    ∀ (m j : Nat) (c : Int), 0 ≤ c →
    fillIdx X c ((List.range' j m).map FInventorySlot.ofIndex) =
      List.range' j (min m (DivideAndRoundUp c X.MaxStackSize).toNat) := by
  intro m
  induction m with
  | zero => intro j c _; simp [fillIdx]
  | succ m ih =>
    intro j c hc
    rw [List.range'_succ, List.map_cons]
    by_cases hc0 : c > 0
    · unfold fillIdx
      simp only [hc0, if_true, ofIndex_empty]
      rw [ih (j + 1) (c - min c X.MaxStackSize) (by omega)]
      have hstep := divideAndRoundUp_step c X.MaxStackSize hM hc0
      have hnn := divideAndRoundUp_nonneg (c - min c X.MaxStackSize) X.MaxStackSize hM (by omega)
      have e : min (m + 1) (DivideAndRoundUp c X.MaxStackSize).toNat =
          min m (DivideAndRoundUp (c - min c X.MaxStackSize) X.MaxStackSize).toNat + 1 := by
        rw [hstep]; omega
      rw [e, List.range'_succ]
      simp [FInventorySlot.ofIndex]
    · have hc1 : c = 0 := by omega
      subst hc1
      rw [fillIdx_nonpos _ _ _ hc0, divideAndRoundUp_zero _ hM]
      simp

/-- C6: on a fresh inventory of capacity `C ≥ 1`, adding `N ≥ 1` units of a stackable item with
max stack `M ≥ 1` returns true (the fuel covering the capacity), slot `i` ends with
`min M (max 0 (N - i * M))` units of the item, empty when that is 0, and the single
notification lists `0 .. k - 1` in order, `k = min C ⌈N / M⌉`. -/
theorem C6_addItem_fills_in_order (MaxSlots : Int) (X : UItem) (N : Int) (fuel : Nat)
    (hcap : 1 ≤ MaxSlots) (hS : X.bIsStackable = true) (hM : 1 ≤ X.MaxStackSize)
    (hN : 1 ≤ N) (hfuel : MaxSlots ≤ fuel) :
    ∃ out : Call Bool, AddItem fuel (Fresh MaxSlots) (some X) N = some out ∧ out.ret = true ∧
      (∀ i : Nat, (i : Int) < MaxSlots →
        out.inv.Slots[i]? =
          some (if min X.MaxStackSize (max 0 (N - i * X.MaxStackSize)) = 0 then ⟨none, 0, i⟩
            else ⟨some ⟨i, some X⟩, min X.MaxStackSize (max 0 (N - i * X.MaxStackSize)), i⟩)) ∧
      out.Broadcast =
        [List.range (min MaxSlots.toNat (DivideAndRoundUp N X.MaxStackSize).toNat)] := by
  have hInv := fresh_inv MaxSlots
  obtain ⟨hfull, hf, hfree⟩ := fresh_find MaxSlots hcap (some X)
  have hadd := addItem_empty fuel (Fresh MaxSlots) X N _ hInv.idx hInv.ok hS hM hN hfull
    hf hfree (by rw [fresh_emptyCount]; omega)
  have hsl : (Fresh MaxSlots).Slots =
      (List.range' 0 MaxSlots.toNat).map FInventorySlot.ofIndex := by
    rw [fresh_slots, List.range_eq_range']
  have hguid : (Fresh MaxSlots).NextGuid = 0 := rfl
  refine ⟨_, hadd, rfl, ?_, ?_⟩
  · intro i hi
    simp only [hsl, hguid]
    rw [fillStack_fresh_get X hM MaxSlots.toNat 0 0 N i (by omega) (by omega)]
    simp [FInventorySlot.ofIndex]
  · simp only [hsl]
    rw [fillIdx_fresh X hM MaxSlots.toNat 0 N (by omega), List.range_eq_range']

/-- C6 at capacity 2, max stack 3, N = 5: slot 0 gets 3, slot 1 gets 2, notification
`[0, 1]`. -/
theorem C6_addItem_fills_in_order_witness :
    (1 : Int) ≤ 2 ∧ exItem3.bIsStackable = true ∧ (1 : Int) ≤ exItem3.MaxStackSize ∧
    (1 : Int) ≤ 5 ∧ (2 : Int) ≤ ((2 : Nat) : Int) ∧
    (∃ out : Call Bool, AddItem 2 (Fresh 2) (some exItem3) 5 = some out ∧ out.ret = true ∧
      (∀ i : Nat, (i : Int) < 2 →
        out.inv.Slots[i]? =
          some (if min exItem3.MaxStackSize (max 0 (5 - i * exItem3.MaxStackSize)) = 0 then
              ⟨none, 0, i⟩
            else ⟨some ⟨i, some exItem3⟩,
              min exItem3.MaxStackSize (max 0 (5 - i * exItem3.MaxStackSize)), i⟩)) ∧
      out.Broadcast =
        [List.range (min (2 : Int).toNat (DivideAndRoundUp 5 exItem3.MaxStackSize).toNat)]) ∧
    (AddItem 2 (Fresh 2) (some exItem3) 5).map (fun o => (o.ret, o.inv.Slots, o.Broadcast)) =
      some (true, [⟨some ⟨0, some exItem3⟩, 3, 0⟩, ⟨some ⟨1, some exItem3⟩, 2, 1⟩], [[0, 1]]) :=
  ⟨by decide, by decide, by decide, by decide, by decide,
    C6_addItem_fills_in_order 2 exItem3 5 2 (by decide) (by decide) (by decide) (by decide)
      (by decide), by decide⟩

/-! ## AddItem in reachable states: claims C7 to C10 -/

theorem unitsHeld_cons (Y : Option UItem) (s : FInventorySlot) (l : List FInventorySlot) :
    unitsHeld Y (s :: l) = (if holdsItem Y s = true then s.Stack else 0) + unitsHeld Y l := by
  unfold unitsHeld
  by_cases h : holdsItem Y s = true <;> simp [List.filter_cons, h]

theorem emptyCount_cons (s : FInventorySlot) (l : List FInventorySlot) :
    emptyCount (s :: l) = emptyCount l + (if s.IsEmpty = true then 1 else 0) := by
  unfold emptyCount
  rw [List.countP_cons]

theorem holdsItem_empty (Y : Option UItem) (s : FInventorySlot) (h : s.IsEmpty = true) :
    holdsItem Y s = false := by
  simp [holdsItem, h]

/-- Units gained by filling empty slots: `min c (M * number of empty slots)`. -/
theorem unitsHeld_fillStack (X : UItem) (hM : 1 ≤ X.MaxStackSize) :
    ∀ (l : List FInventorySlot) (g : Nat) (c : Int), 0 ≤ c →
    unitsHeld (some X) (fillStack X g c l) =
      unitsHeld (some X) l + min c (X.MaxStackSize * (emptyCount l : Int)) := by
  intro l
  induction l with
  | nil => intro g c hc; simp [fillStack, emptyCount]; omega
  | cons a rest ih =>
    intro g c hc
    have hK : (0 : Int) ≤ X.MaxStackSize * (emptyCount rest : Int) :=
      mul_nonneg (by omega) (by omega)
    by_cases hc0 : c > 0
    · unfold fillStack
      by_cases he : a.IsEmpty = true
      · have hnew : holdsItem (some X)
            ⟨some ⟨g, some X⟩, min c X.MaxStackSize, a.SlotIndex⟩ = true := by
          rw [holdsItem_iff]
          exact ⟨by simp only; omega, _, rfl, rfl⟩
        simp only [hc0, he, if_true]
        rw [unitsHeld_cons, unitsHeld_cons, emptyCount_cons, hnew, holdsItem_empty _ _ he,
          ih _ _ (by omega)]
        simp only [he, if_true, Bool.false_eq_true, if_false]
        have e : X.MaxStackSize * ((emptyCount rest + 1 : Nat) : Int) =
            X.MaxStackSize * (emptyCount rest : Int) + X.MaxStackSize := by push_cast; ring
        rw [e]
        generalize X.MaxStackSize * (emptyCount rest : Int) = K at hK
        omega
      · simp only [hc0, he, if_true, Bool.false_eq_true, if_false]
        rw [unitsHeld_cons, unitsHeld_cons, emptyCount_cons, ih _ _ hc]
        simp only [he, Bool.false_eq_true, if_false, Nat.add_zero]
        omega
    · have hc1 : c = 0 := by omega
      subst hc1
      rw [fillStack_nonpos _ _ _ _ hc0]
      have hK2 : (0 : Int) ≤ X.MaxStackSize * (emptyCount (a :: rest) : Int) :=
        mul_nonneg (by omega) (by omega)
      omega

theorem heldSum_set (X : Option UItem) (f : FInventorySlot → Int) (l : List FInventorySlot)
    (i : Nat) (t u : FInventorySlot) (h : l[i]? = some t) :
    (((l.set i u).filter (holdsItem X)).map f).sum =
      ((l.filter (holdsItem X)).map f).sum - (if holdsItem X t then f t else 0)
        + (if holdsItem X u then f u else 0) := by
  have hlt : i < l.length := by
    by_contra hn
    rw [List.getElem?_eq_none (by omega)] at h
    cases h
  have hf : l[i] = t := by
    rw [List.getElem?_eq_getElem hlt] at h
    exact Option.some.inj h
  rw [sum_filter_map, sum_filter_map, sum_map_set _ _ _ hlt, hf]

theorem heldSum_zero (X : Option UItem) (f : FInventorySlot → Int) (l : List FInventorySlot)
    (h : ∀ s ∈ l, holdsItem X s = true → f s = 0) :
    ((l.filter (holdsItem X)).map f).sum = 0 := by
  apply List.sum_eq_zero
  intro x hx
  rw [List.mem_map] at hx
  obtain ⟨s, hs, rfl⟩ := hx
  exact h s (List.mem_filter.1 hs).1 (List.mem_filter.1 hs).2

/-- A well-formed slot holding a stackable item that is not a stacking target is full. -/
theorem full_of_not_target {X : UItem} {s : FInventorySlot} (hS : X.bIsStackable = true)
    (hh : holdsItem (some X) s = true)
    (hnt : stackTarget (some X) s = false) : X.MaxStackSize - s.Stack = 0 := by
  obtain ⟨hne, a, ha, haX⟩ := (holdsItem_iff _ _).1 hh
  have hmax : s.GetMaxStackSize = X.MaxStackSize := by
    simp [FInventorySlot.GetMaxStackSize, ha, haX, hS]
  by_contra hcon
  have : stackTarget (some X) s = true := by
    rw [stackTarget_iff]
    exact ⟨hne, by rw [hmax]; omega, a, ha, haX⟩
  rw [hnt] at this
  cases this

/-- Room in a state without a non-full stack of the item: only the empty slots count. -/
theorem freeSpace_noTarget (X : UItem) (hS : X.bIsStackable = true) (l : List FInventorySlot)
    (hnone : ∀ s ∈ l, stackTarget (some X) s = false) :
    freeSpace X l = X.MaxStackSize * (emptyCount l : Int) := by
  unfold freeSpace
  rw [heldSum_zero _ _ _ (fun s hs hh => full_of_not_target hS hh (hnone s hs))]
  omega

/-- Room in a state whose only non-full stack of the item is `t`. -/
theorem freeSpace_target (X : UItem) (hS : X.bIsStackable = true) (l : List FInventorySlot)
    (hone : l.countP (stackTarget (some X)) ≤ 1)
    (i : Nat) (t : FInventorySlot) (hi : l[i]? = some t)
    (ht : stackTarget (some X) t = true) :
    freeSpace X l = (X.MaxStackSize - t.Stack) + X.MaxStackSize * (emptyCount l : Int) := by
  obtain ⟨hne, _, a, ha, haX⟩ := (stackTarget_iff _ _).1 ht
  have hht : holdsItem (some X) t = true := (holdsItem_iff _ _).2 ⟨hne, a, ha, haX⟩
  have hu : holdsItem (some X) ⟨none, 0, t.SlotIndex⟩ = false :=
    holdsItem_empty _ _ (by simp [FInventorySlot.IsEmpty])
  have hset := heldSum_set (some X) (fun s => X.MaxStackSize - s.Stack) l i t
    ⟨none, 0, t.SlotIndex⟩ hi
  rw [hht, hu] at hset
  simp only [if_true, Bool.false_eq_true, if_false] at hset
  have hzero : (((l.set i ⟨none, 0, t.SlotIndex⟩).filter (holdsItem (some X))).map
      (fun s => X.MaxStackSize - s.Stack)).sum = 0 := by
    apply heldSum_zero
    intro s hs hh
    obtain ⟨j, hj⟩ := List.mem_iff_getElem?.1 hs
    have hlt : i < l.length := by
      by_contra hn
      rw [List.getElem?_eq_none (by omega)] at hi
      cases hi
    by_cases hij : i = j
    · subst hij
      rw [List.getElem?_set_self hlt] at hj
      rw [← Option.some.inj hj, hu] at hh
      cases hh
    · rw [List.getElem?_set_ne hij] at hj
      apply full_of_not_target hS hh
      rw [Bool.eq_false_iff]
      intro hts
      exact hij (unique_of_countP_le_one _ _ hone i j t s hi hj ht hts)
  unfold freeSpace
  omega

theorem emptyCount_le_length (l : List FInventorySlot) : emptyCount l ≤ l.length :=
  List.countP_le_length _

/-- C7: in a reachable state, adding `n ≥ 1` units of a stackable item `X` with max stack
`M ≥ 1` (the fuel covering the number of slots) returns, raises the units of `X` held by
exactly `min n F`, where `F` is the sum of `M - Stack` over the slots holding `X` plus `M` per
empty slot, and returns true exactly when `F > 0`. -/
theorem C7_addItem_units (inv : UInventoryComponent) (hr : Reachable inv) (X : UItem)
    (n : Int) (fuel : Nat) (hS : X.bIsStackable = true) (hM : 1 ≤ X.MaxStackSize)
    (hn : 1 ≤ n) (hfuel : inv.Slots.length ≤ fuel) :
    ∃ out : Call Bool, AddItem fuel inv (some X) n = some out ∧
      unitsHeld (some X) out.inv.Slots =
        unitsHeld (some X) inv.Slots + min n (freeSpace X inv.Slots) ∧
      (out.ret = true ↔ 0 < freeSpace X inv.Slots) := by
  have hInv := reachable_inv hr
  have hE := emptyCount_le_length inv.Slots
  have hK : (0 : Int) ≤ X.MaxStackSize * (emptyCount inv.Slots : Int) :=
    mul_nonneg (by omega) (by omega)
  by_cases hfull : inv.IsFull = true
  · -- every slot is full
    have hall : ∀ s ∈ inv.Slots, s.IsFull = true := by
      simpa [UInventoryComponent.IsFull] using hfull
    have hne : ∀ s ∈ inv.Slots, s.IsEmpty = false := by
      intro s hs
      have := hall s hs
      by_contra hcon
      simp [FInventorySlot.IsFull, hcon] at this
    have hnt : ∀ s ∈ inv.Slots, stackTarget (some X) s = false := by
      intro s hs
      simp [stackTarget, hall s hs]
    have hfree : freeSpace X inv.Slots = 0 := by
      rw [freeSpace_noTarget X hS _ hnt, emptyCount_of_all hne]
      simp
    refine ⟨_, addItem_full fuel inv X n hfull, ?_, ?_⟩
    · rw [hfree]; simp only; omega
    · rw [hfree]; simp
  · have hfull2 : inv.IsFull = false := by simpa using hfull
    cases hf : inv.FindFirstFreeSlotForStack (some X) with
    | some t =>
      have htm : t ∈ inv.Slots := List.mem_of_find?_eq_some hf
      have htt : stackTarget (some X) t = true := List.find?_some hf
      obtain ⟨g, hshape, _, hpos, hlt⟩ := stackTarget_shape (hInv.ok t htm) htt
      have hti := idx_mem hInv.idx htm
      have hinst : t.Instance = some ⟨g, some X⟩ := by rw [hshape]
      have hte : t.IsEmpty = false := by
        rw [hshape]; simp [FInventorySlot.IsEmpty]; omega
      have hue : (⟨t.Instance, t.Stack + min n (X.MaxStackSize - t.Stack), t.SlotIndex⟩ :
          FInventorySlot).IsEmpty = false := by
        rw [hinst]; simp [FInventorySlot.IsEmpty]; omega
      have hht : holdsItem (some X) t = true := by
        rw [holdsItem_iff]; exact ⟨by omega, _, hinst, rfl⟩
      have hhu : holdsItem (some X)
          ⟨t.Instance, t.Stack + min n (X.MaxStackSize - t.Stack), t.SlotIndex⟩ = true := by
        rw [holdsItem_iff]; exact ⟨by simp only; omega, _, hinst, rfl⟩
      have hunits := unitsHeld_set (some X) inv.Slots t.SlotIndex t
        ⟨t.Instance, t.Stack + min n (X.MaxStackSize - t.Stack), t.SlotIndex⟩ hti
      rw [hht, hhu] at hunits
      simp only [if_true] at hunits
      have hcount := emptyCount_set_full inv.Slots t.SlotIndex t _ hti hte hue
      have hfree := freeSpace_target X hS inv.Slots (hInv.one (some X)) t.SlotIndex t hti htt
      refine ⟨_, addItem_topUp fuel inv X n t hInv.idx hInv.ok hM hn hfull2 hf (by omega),
        ?_, ?_⟩
      · simp only
        rw [unitsHeld_fillStack X hM _ _ _ (by omega), hunits, hcount, hfree]
        generalize X.MaxStackSize * (emptyCount inv.Slots : Int) = K at hK
        omega
      · rw [hfree]
        simp only [true_iff]
        omega
    | none =>
      have hnt : ∀ s ∈ inv.Slots, stackTarget (some X) s = false := by
        simp only [FindFirstFreeSlotForStack, List.find?_eq_none] at hf
        intro s hs; simpa using hf s hs
      have hfree := freeSpace_noTarget X hS inv.Slots hnt
      cases hfs : inv.FindFirstFreeSlot with
      | none =>
        have hE0 := emptyCount_of_all (find_none_all hfs)
        rw [hE0] at hfree
        simp only [Nat.cast_zero, mul_zero] at hfree
        refine ⟨_, addItem_noTarget fuel inv X n hS hfull2 hf hfs, ?_, ?_⟩
        · rw [hfree]; simp only; omega
        · rw [hfree]; simp
      | some t =>
        have hte : t.IsEmpty = true := List.find?_some hfs
        have htm : t ∈ inv.Slots := List.mem_of_find?_eq_some hfs
        have hEpos : 0 < emptyCount inv.Slots := by
          unfold emptyCount
          rw [List.countP_pos_iff]
          exact ⟨t, htm, hte⟩
        have hKpos : (0 : Int) < X.MaxStackSize * (emptyCount inv.Slots : Int) :=
          mul_pos (by omega) (by omega)
        refine ⟨_, addItem_empty fuel inv X n t hInv.idx hInv.ok hS hM hn hfull2 hf hfs
          (by omega), ?_, ?_⟩
        · simp only
          rw [unitsHeld_fillStack X hM _ _ _ (by omega), hfree]
        · rw [hfree]
          simp only [true_iff]
          exact hKpos

/-- C7 at `exInv` (stacks 5 and 2 of `exItem`, max stack 5, no empty slot), adding 6:
`F = 3`, so 3 units are placed and the call returns true. -/
theorem C7_addItem_units_witness :
    Reachable exInv ∧ exItem.bIsStackable = true ∧ (1 : Int) ≤ exItem.MaxStackSize ∧
    (1 : Int) ≤ 6 ∧ exInv.Slots.length ≤ 2 ∧ freeSpace exItem exInv.Slots = 3 ∧
    ∃ out : Call Bool, AddItem 2 exInv (some exItem) 6 = some out ∧
      unitsHeld (some exItem) out.inv.Slots =
        unitsHeld (some exItem) exInv.Slots + min 6 (freeSpace exItem exInv.Slots) ∧
      (out.ret = true ↔ 0 < freeSpace exItem exInv.Slots) :=
  ⟨exInv_reachable, by decide, by decide, by decide, by decide, by decide,
    C7_addItem_units exInv exInv_reachable exItem 6 2 (by decide) (by decide) (by decide)
      (by decide)⟩

/-- C8 (fails on the code): on a fresh inventory of capacity 2, `AddItem(item, 0)` for a
stackable item returns false and broadcasts nothing, yet slot 0 now carries a new instance
(with stack 0); after that, `AddItem(item, 1)` fails although both slots count as empty. -/
theorem C8_addItem_false_mutates :
    (Fresh 2).Slots = [⟨none, 0, 0⟩, ⟨none, 0, 1⟩] ∧
    (AddItem 2 (Fresh 2) (some exItem3) 0).map (fun o => (o.ret, o.inv, o.Broadcast)) =
      some (false, ⟨2, [⟨some ⟨0, some exItem3⟩, 0, 0⟩, ⟨none, 0, 1⟩], 1⟩, []) ∧
    (AddItem 2 ⟨2, [⟨some ⟨0, some exItem3⟩, 0, 0⟩, ⟨none, 0, 1⟩], 1⟩ (some exItem3) 1).map
        (fun o => (o.ret, o.inv, o.Broadcast)) =
      some (false, ⟨2, [⟨some ⟨0, some exItem3⟩, 0, 0⟩, ⟨none, 0, 1⟩], 1⟩, []) :=
  ⟨by decide, by decide, by decide⟩

theorem emptyBefore_cons_succ (a : FInventorySlot) (l : List FInventorySlot) (i : Nat) :
    emptyBefore (a :: l) (i + 1) = emptyBefore l i + (if a.IsEmpty = true then 1 else 0) := by
  unfold emptyBefore
  rw [List.take_succ_cons, emptyCount_cons]

theorem emptyBefore_zero (l : List FInventorySlot) : emptyBefore l 0 = 0 := by
  simp [emptyBefore, emptyCount]

/-- Pointwise description of `fillSingles`: an empty slot is written exactly when fewer than
`n` empty slots precede it, and then receives the instance numbered by that count. -/
theorem fillSingles_get (X : UItem) : ∀ (l : List FInventorySlot) (g n i : Nat)
    (s : FInventorySlot), l[i]? = some s →
    (fillSingles X g n l)[i]? =
      some (if s.IsEmpty = true ∧ emptyBefore l i < n then
          ⟨some ⟨g + emptyBefore l i, some X⟩, 1, s.SlotIndex⟩ else s) := by
  intro l
  induction l with
  | nil => intro g n i s h; simp at h
  | cons a rest ih =>
    intro g n i s h
    cases n with
    | zero => simp [fillSingles, h]
    | succ n =>
      unfold fillSingles
      by_cases he : a.IsEmpty = true
      · simp only [he, if_true]
        cases i with
        | zero =>
          simp only [List.getElem?_cons_zero] at h ⊢
          have := Option.some.inj h
          subst this
          simp [he, emptyBefore_zero]
        | succ i =>
          simp only [List.getElem?_cons_succ] at h ⊢
          rw [ih (g + 1) n i s h, emptyBefore_cons_succ]
          simp only [he, if_true]
          have e : g + 1 + emptyBefore rest i = g + (emptyBefore rest i + 1) := by omega
          rw [e]
          by_cases hc : s.IsEmpty = true ∧ emptyBefore rest i < n
          · rw [if_pos hc, if_pos ⟨hc.1, by omega⟩]
          · rw [if_neg hc, if_neg (fun h2 => hc ⟨h2.1, by omega⟩)]
      · simp only [he, Bool.false_eq_true, if_false]
        cases i with
        | zero =>
          simp only [List.getElem?_cons_zero] at h ⊢
          have := Option.some.inj h
          subst this
          simp [he]
        | succ i =>
          simp only [List.getElem?_cons_succ] at h ⊢
          rw [ih g (n + 1) i s h, emptyBefore_cons_succ]
          simp only [he, Bool.false_eq_true, if_false, Nat.add_zero]

theorem emptyCount_fillSingles (X : UItem) : ∀ (l : List FInventorySlot) (g n : Nat),
    emptyCount (fillSingles X g n l) = emptyCount l - min n (emptyCount l) := by
  intro l
  induction l with
  | nil => intro g n; simp [fillSingles, emptyCount]
  | cons a rest ih =>
    intro g n
    cases n with
    | zero => simp [fillSingles]
    | succ n =>
      unfold fillSingles
      by_cases he : a.IsEmpty = true
      · have hne : (⟨some ⟨g, some X⟩, 1, a.SlotIndex⟩ : FInventorySlot).IsEmpty = false := by
          simp [FInventorySlot.IsEmpty]
        simp only [he, if_true]
        rw [emptyCount_cons, emptyCount_cons, ih]
        simp only [he, hne, if_true, Bool.false_eq_true, if_false]
        omega
      · simp only [he, Bool.false_eq_true, if_false]
        rw [emptyCount_cons, emptyCount_cons, ih]
        simp only [he, Bool.false_eq_true, if_false]
        omega

theorem emptyBefore_lt : ∀ (l : List FInventorySlot) (i j : Nat) (s : FInventorySlot),
    i < j → l[i]? = some s → s.IsEmpty = true → emptyBefore l i < emptyBefore l j := by
  intro l
  induction l with
  | nil => intro i j s _ h; simp at h
  | cons a rest ih =>
    intro i j s hij h he
    cases j with
    | zero => omega
    | succ j =>
      cases i with
      | zero =>
        simp only [List.getElem?_cons_zero] at h
        have := Option.some.inj h
        subst this
        rw [emptyBefore_zero, emptyBefore_cons_succ]
        simp [he]
      | succ i =>
        simp only [List.getElem?_cons_succ] at h
        rw [emptyBefore_cons_succ, emptyBefore_cons_succ]
        have := ih i j s (by omega) h he
        omega

/-- The result of `HandleNonStackableItem` on a well-formed component. -/
theorem handleNonStackable_eq (inv : UInventoryComponent) (X : UItem) (c : Int)
    (hidx : ∀ (i : Nat) (s : FInventorySlot), inv.Slots[i]? = some s → s.SlotIndex = i)
    (hok : ∀ s ∈ inv.Slots, SlotOK s) (hM : 1 ≤ X.MaxStackSize) :
    HandleNonStackableItem inv X c =
      ⟨((c.toNat - min c.toNat (emptyCount inv.Slots) : Nat) : Int),
        { inv with
          Slots := fillSingles X inv.NextGuid c.toNat inv.Slots
          NextGuid := inv.NextGuid + min c.toNat (emptyCount inv.Slots) },
        [singlesIdx c.toNat inv.Slots]⟩ := by
  unfold HandleNonStackableItem
  rw [singlesLoop_eq X hM c.toNat inv [] hidx hok]
  simp

theorem exInv3_reachable : Reachable exInv3 :=
  @Reachable.addItem (Fresh 3) 0 exSingle 1 ⟨true, exInv3, [[0]]⟩ (Reachable.fresh 3)
    (by decide) (by decide) (by rfl)

/-- C9: in a reachable state that is not full, with `E` empty slots, adding `Count ≥ 1` units
of a non-stackable item with `MaxStackSize ≥ 1`: `HandleNonStackableItem` returns
`Count - min Count E` leftovers and `AddItem` returns true with its state; an empty slot is
written exactly when fewer than `Count` empty slots precede it, and then holds a new instance
of the item, numbered by that count, with stack 1; every other slot is unchanged; the new
instances are pairwise distinct; and `min Count E` slots stop being empty. -/
theorem C9_nonstackable_add (inv : UInventoryComponent) (hr : Reachable inv) (X : UItem)
    (Count : Int) (fuel : Nat) (hS : X.bIsStackable = false) (hM : 1 ≤ X.MaxStackSize)
    (hc : 1 ≤ Count) (hfull : inv.IsFull = false) :
    (HandleNonStackableItem inv X Count).ret = Count - min Count (emptyCount inv.Slots) ∧
    AddItem fuel inv (some X) Count =
      some ⟨true, (HandleNonStackableItem inv X Count).inv,
        (HandleNonStackableItem inv X Count).Broadcast⟩ ∧
    (∀ (i : Nat) (s : FInventorySlot), inv.Slots[i]? = some s →
      (HandleNonStackableItem inv X Count).inv.Slots[i]? =
        some (if s.IsEmpty = true ∧ (emptyBefore inv.Slots i : Int) < Count then
            ⟨some ⟨inv.NextGuid + emptyBefore inv.Slots i, some X⟩, 1, i⟩ else s)) ∧
    (∀ (i j : Nat) (si sj a b : FInventorySlot), i ≠ j →
      inv.Slots[i]? = some si → inv.Slots[j]? = some sj →
      si.IsEmpty = true → sj.IsEmpty = true →
      (emptyBefore inv.Slots i : Int) < Count → (emptyBefore inv.Slots j : Int) < Count →
      (HandleNonStackableItem inv X Count).inv.Slots[i]? = some a →
      (HandleNonStackableItem inv X Count).inv.Slots[j]? = some b →
      a.Instance ≠ b.Instance) ∧
    (emptyCount (HandleNonStackableItem inv X Count).inv.Slots : Int) =
      emptyCount inv.Slots - min Count (emptyCount inv.Slots) := by
  have hInv := reachable_inv hr
  have heq := handleNonStackable_eq inv X Count hInv.idx hInv.ok hM
  have hget : ∀ (i : Nat) (s : FInventorySlot), inv.Slots[i]? = some s →
      (HandleNonStackableItem inv X Count).inv.Slots[i]? =
        some (if s.IsEmpty = true ∧ (emptyBefore inv.Slots i : Int) < Count then
            ⟨some ⟨inv.NextGuid + emptyBefore inv.Slots i, some X⟩, 1, i⟩ else s) := by
    intro i s hs
    rw [heq]
    simp only
    rw [fillSingles_get X _ _ _ _ s hs, hInv.idx i s hs]
    by_cases hcond : s.IsEmpty = true ∧ emptyBefore inv.Slots i < Count.toNat
    · rw [if_pos hcond, if_pos ⟨hcond.1, by omega⟩]
    · rw [if_neg hcond, if_neg (fun h2 => hcond ⟨h2.1, by omega⟩)]
  refine ⟨?_, ?_, hget, ?_, ?_⟩
  · rw [heq]
    simp only
    omega
  · rw [addItem_single fuel inv X Count hInv.idx hInv.ok hS hM hfull, heq]
  · intro i j si sj a b hij hsi hsj hei hej hbi hbj ha hb hab
    rw [hget i si hsi, if_pos ⟨hei, hbi⟩] at ha
    rw [hget j sj hsj, if_pos ⟨hej, hbj⟩] at hb
    rw [← Option.some.inj ha, ← Option.some.inj hb] at hab
    simp only [Option.some.injEq, UItemInstance.mk.injEq, and_true] at hab
    rcases Nat.lt_or_gt_of_ne hij with h | h
    · have := emptyBefore_lt inv.Slots i j si h hsi hei
      omega
    · have := emptyBefore_lt inv.Slots j i sj h hsj hej
      omega
  · rw [heq]
    simp only
    rw [emptyCount_fillSingles]
    omega

/-- C9 at `exInv3` (capacity 3, slot 0 occupied, 2 free slots), adding 3 units: two instances
are placed in slots 1 and 2 and one unit is left over. -/
theorem C9_nonstackable_add_witness :
    Reachable exInv3 ∧ exSingle.bIsStackable = false ∧ (1 : Int) ≤ exSingle.MaxStackSize ∧
    (1 : Int) ≤ 3 ∧ exInv3.IsFull = false ∧ emptyCount exInv3.Slots = 2 ∧
    (HandleNonStackableItem exInv3 exSingle 3).ret = 3 - min 3 (emptyCount exInv3.Slots) ∧
    (HandleNonStackableItem exInv3 exSingle 3).ret = 1 ∧
    (HandleNonStackableItem exInv3 exSingle 3).inv.Slots =
      [⟨some ⟨0, some exSingle⟩, 1, 0⟩, ⟨some ⟨1, some exSingle⟩, 1, 1⟩,
        ⟨some ⟨2, some exSingle⟩, 1, 2⟩] :=
  ⟨exInv3_reachable, by decide, by decide, by decide, by decide, by decide,
    (C9_nonstackable_add exInv3 exInv3_reachable exSingle 3 0 (by decide) (by decide)
      (by decide) (by decide)).1, by decide, by decide⟩

/-- C10: in every reachable state each slot either has no occupant and stack 0, or has an
occupant and `0 < Stack ≤ GetMaxStackSize`; equivalently the stack is 0 exactly when there is
no occupant, and the stack never exceeds the max stack size. -/
theorem C10_slots_well_formed (inv : UInventoryComponent) (hr : Reachable inv) :
    ∀ s ∈ inv.Slots, WellFormedSlot s ∧ (s.Stack = 0 ↔ s.Instance = none) ∧
      s.Stack ≤ s.GetMaxStackSize := by
  intro s hs
  rcases (reachable_inv hr).ok s hs with ⟨h1, h2⟩ | ⟨g, it, h1, _, h3, h4⟩
  · refine ⟨Or.inl ⟨h1, h2⟩, ⟨fun _ => h1, fun _ => h2⟩, ?_⟩
    rw [h2]
    simp [FInventorySlot.GetMaxStackSize, h1]
  · refine ⟨Or.inr ⟨by rw [h1]; simp, h3, h4⟩, ⟨fun h => by omega, fun h => ?_⟩, h4⟩
    rw [h1] at h
    cases h

/-- C10 at `exInv`. -/
theorem C10_slots_well_formed_witness :
    Reachable exInv ∧
    ∀ s ∈ exInv.Slots, WellFormedSlot s ∧ (s.Stack = 0 ↔ s.Instance = none) ∧
      s.Stack ≤ s.GetMaxStackSize :=
  ⟨exInv_reachable, C10_slots_well_formed exInv exInv_reachable⟩

/-! ## Termination, lookups and queries: claims C11, C13 to C15, C19 -/

theorem exStuck_reachable : ReachableAny exStuck := by
  have h1 := @ReachableAny.addItem (Fresh 2) 1 (some exItem3) 3
    ⟨true, ⟨2, [⟨some ⟨0, some exItem3⟩, 3, 0⟩, ⟨none, 0, 1⟩], 1⟩, [[0]]⟩
    (ReachableAny.fresh 2) (by rfl)
  have h2 := @ReachableAny.addItem _ 1 (some exItem3) 0
    ⟨false, ⟨2, [⟨some ⟨0, some exItem3⟩, 3, 0⟩, ⟨some ⟨1, some exItem3⟩, 0, 1⟩], 2⟩, []⟩
    h1 (by rfl)
  have h3 := @ReachableAny.removeItem _ (some exItem3) 1 0 h2
  have e : (RemoveItem ⟨2, [⟨some ⟨0, some exItem3⟩, 3, 0⟩, ⟨some ⟨1, some exItem3⟩, 0, 1⟩], 2⟩
      (some exItem3) 1 0).inv = exStuck := by decide
  rw [← e]
  exact h3

/-- With slot 0 full and slot 1 carrying an instance with stack 0, the overflow loop of
`AddItem` makes no progress: it uses up any fuel. -/
theorem stuck_loop : ∀ (fuel : Nat) (ch : List Nat),
    AddItem.loop exItem3 fuel
      ⟨2, [⟨some ⟨0, some exItem3⟩, 3, 0⟩, ⟨some ⟨1, some exItem3⟩, 0, 1⟩], 2⟩ 4 ch = none := by
  intro fuel
  induction fuel with
  | zero => intro ch; rfl
  | succ n ih =>
    intro ch
    unfold AddItem.loop
    exact ih (ch ++ [1])

/-- C11 (fails on the code): in the state `exStuck`, reached by `AddItem(item, 3)`,
`AddItem(item, 0)` and `RemoveItem(item, 1)` on a fresh inventory of capacity 2, the call
`AddItem(item, 5)` for a stackable item with max stack 3 never returns: the overflow loop
runs out of every amount of fuel. -/
theorem C11_addItem_loop_diverges :
    ReachableAny exStuck ∧ exItem3.bIsStackable = true ∧ (1 : Int) ≤ exItem3.MaxStackSize ∧
    ∀ fuel : Nat, AddItem fuel exStuck (some exItem3) 5 = none := by
  refine ⟨exStuck_reachable, by decide, by decide, ?_⟩
  intro fuel
  have h : AddItem fuel exStuck (some exItem3) 5 =
      (AddItem.loop exItem3 fuel
        ⟨2, [⟨some ⟨0, some exItem3⟩, 3, 0⟩, ⟨some ⟨1, some exItem3⟩, 0, 1⟩], 2⟩ 4 [0]).map
        (fun p => ⟨true, p.1, [p.2]⟩) := by rfl
  rw [h, stuck_loop]
  rfl

/-- C13 (fails on the code): on a fresh inventory of capacity 1, whose only slot is empty,
`RemoveInstance(nullptr)` returns true and broadcasts `[0]`; no slot changes. -/
theorem C13_removeInstance_null_succeeds :
    (∀ s ∈ (Fresh 1).Slots, s.Instance = none) ∧
    (RemoveInstance (Fresh 1) none).ret = true ∧
    (RemoveInstance (Fresh 1) none).Broadcast = [[0]] ∧
    (RemoveInstance (Fresh 1) none).inv = Fresh 1 :=
  ⟨by decide, by decide, by decide, by decide⟩

/-- C14 (fails on the code): on a fresh inventory of capacity 4, index `-1` passes the only
guard `Index >= MaxSlots` and both lookups read `Slots[-1]`. -/
theorem C14_negative_index_reads_outside :
    (Fresh 4).Slots.length = 4 ∧
    GetItemInstanceAtIndex (Fresh 4) (-1) = Except.error Fault.outOfRange ∧
    GetSlot (Fresh 4) (-1) = Except.error Fault.outOfRange :=
  ⟨by decide, by rfl, by rfl⟩

/-- C15 (fails on the code): with slot 0 holding another item and slot 1 empty, `HasItem`
reads `Instance->Item` of the empty slot; on an all-empty inventory it does so at once. -/
theorem C15_hasItem_null_dereference :
    HasItem exInv3 (some exItem) = Except.error Fault.nullDeref ∧
    HasItem (Fresh 1) (some exItem) = Except.error Fault.nullDeref :=
  ⟨by rfl, by rfl⟩

/-- C19: in a reachable state, two distinct occupied slots whose occupants refer to the same
item are not both below their max stack size. -/
theorem C19_one_partial_stack (inv : UInventoryComponent) (hr : Reachable inv) (i j : Nat)
    (s u : FInventorySlot) (a b : UItemInstance)
    (hs : inv.Slots[i]? = some s) (hu : inv.Slots[j]? = some u) (hij : i ≠ j)
    (ha : s.Instance = some a) (hb : u.Instance = some b) (hab : a.Item = b.Item) :
    ¬ (s.Stack < s.GetMaxStackSize ∧ u.Stack < u.GetMaxStackSize) := by
  intro hlt
  have hInv := reachable_inv hr
  have hpos : ∀ (k : Nat) (x : FInventorySlot) (c : UItemInstance), inv.Slots[k]? = some x →
      x.Instance = some c → x.Stack ≠ 0 := by
    intro k x c hx hc
    rcases hInv.ok x (List.mem_iff_getElem?.2 ⟨k, hx⟩) with ⟨h1, _⟩ | ⟨_, _, _, _, h3, _⟩
    · rw [h1] at hc; cases hc
    · omega
  have hts : stackTarget a.Item s = true :=
    (stackTarget_iff _ _).2 ⟨hpos i s a hs ha, by omega, a, ha, rfl⟩
  have htu : stackTarget a.Item u = true :=
    (stackTarget_iff _ _).2 ⟨hpos j u b hu hb, by omega, b, hb, hab.symm⟩
  exact hij (unique_of_countP_le_one _ _ (hInv.one a.Item) i j s u hs hu hts htu)

/-- C19 at `exInv`: slots 0 and 1 hold the same item with stacks 5 and 2, max stack 5. -/
theorem C19_one_partial_stack_witness :
    Reachable exInv ∧ (0 : Nat) ≠ 1 ∧
    ¬ ((5 : Int) < (⟨some ⟨0, some exItem⟩, 5, 0⟩ : FInventorySlot).GetMaxStackSize ∧
      (2 : Int) < (⟨some ⟨1, some exItem⟩, 2, 1⟩ : FInventorySlot).GetMaxStackSize) :=
  ⟨exInv_reachable, by decide,
    C19_one_partial_stack exInv exInv_reachable 0 1 ⟨some ⟨0, some exItem⟩, 5, 0⟩
      ⟨some ⟨1, some exItem⟩, 2, 1⟩ ⟨0, some exItem⟩ ⟨1, some exItem⟩ (by rfl) (by rfl)
      (by decide) rfl rfl rfl⟩

/-- In a reachable state and for `Count ≥ 1`, `RemoveItem` returns true exactly when the
units held cover the count. -/
theorem removeItem_true_iff_units (inv : UInventoryComponent) (hr : Reachable inv)
    (Item : Option UItem) (Count RemovedItems : Int) (hc : 1 ≤ Count) :
    (RemoveItem inv Item Count RemovedItems).ret.1 = true ↔ Count ≤ unitsHeld Item inv.Slots := by
  have hInv := reachable_inv hr
  by_cases h : ∃ s ∈ inv.Slots, holdsItem Item s = true
  · obtain ⟨_, _, _, hpos, _, hsum⟩ := found_facts hInv.idx hInv.ok Item
    have hne := sortByStack_ne_nil (filter_ne_nil_of_held h)
    have hleft := removeLoop_left _ ⟨inv.Slots, [], RemovedItems, Count, 0⟩ hne
      (by simp only; omega) (fun f hf => (hpos f hf).2)
    rw [hsum] at hleft
    simp only at hleft
    rw [removeItem_held inv Item Count RemovedItems h]
    simp only
    rw [← hleft]
    split_ifs with h1
    · simp; omega
    · simp; omega
  · have h2 : ∀ s ∈ inv.Slots, holdsItem Item s = false := by
      intro s hs
      by_contra hh
      exact h ⟨s, hs, by simpa using hh⟩
    have hz : unitsHeld Item inv.Slots = 0 := by
      unfold unitsHeld
      rw [List.filter_eq_nil_iff.2 (fun s hs => by simp [h2 s hs])]
      simp
    rw [removeItem_absent inv Item Count RemovedItems h2, hz]
    simp only [Bool.false_eq_true, false_iff]
    omega

/-! ## Instance identities: claim C12 -/

theorem hasGuid_congr (k : Nat) (s u : FInventorySlot) (h : u.Instance = s.Instance) :
    hasGuid k u = hasGuid k s := by
  unfold hasGuid; rw [h]

theorem hasGuid_none (k : Nat) (s : FInventorySlot) (h : s.Instance = none) :
    hasGuid k s = false := by
  unfold hasGuid; rw [h]

theorem hasGuid_new (k g i : Nat) (X : UItem) (c : Int) :
    hasGuid k ⟨some ⟨g, some X⟩, c, i⟩ = decide (g = k) := by
  by_cases h : g = k <;> simp [hasGuid, h]

theorem guidCount_zero_of_below (l : List FInventorySlot) (g k : Nat)
    (hb : ∀ s ∈ l, ∀ a, s.Instance = some a → a.Guid < g) (hk : g ≤ k) :
    l.countP (hasGuid k) = 0 := by
  rw [List.countP_eq_zero]
  intro s hs hh
  unfold hasGuid at hh
  cases hsi : s.Instance with
  | none => simp [hsi] at hh
  | some a =>
    simp [hsi] at hh
    have := hb s hs a hsi
    omega

/-- Slots written by `fillStack` carry identities from the counter onwards. -/
theorem fillStack_mem (X : UItem) : ∀ (l : List FInventorySlot) (g : Nat) (c : Int)
    (s : FInventorySlot), s ∈ fillStack X g c l →
    s ∈ l ∨ ∃ k, g ≤ k ∧ k < g + (fillIdx X c l).length ∧ s.Instance = some ⟨k, some X⟩ := by
  intro l
  induction l with
  | nil => intro g c s hs; simp [fillStack] at hs
  | cons a rest ih =>
    intro g c s hs
    unfold fillStack at hs
    unfold fillIdx
    by_cases hc : c > 0
    · by_cases he : a.IsEmpty = true
      · simp only [hc, he, if_true, List.mem_cons, List.length_cons] at hs ⊢
        rcases hs with h | h
        · right
          exact ⟨g, le_refl _, by omega, by rw [h]⟩
        · rcases ih _ _ s h with h2 | ⟨k, h1, h2, h3⟩
          · exact Or.inl (Or.inr h2)
          · exact Or.inr ⟨k, by omega, by omega, h3⟩
      · simp only [hc, he, Bool.false_eq_true, if_true, if_false, List.mem_cons] at hs ⊢
        rcases hs with h | h
        · exact Or.inl (Or.inl h)
        · rcases ih _ _ s h with h2 | ⟨k, h1, h2, h3⟩
          · exact Or.inl (Or.inr h2)
          · exact Or.inr ⟨k, h1, h2, h3⟩
    · simp only [hc, if_false] at hs
      exact Or.inl hs

theorem fillStack_guidCount (X : UItem) : ∀ (l : List FInventorySlot) (g : Nat) (c : Int)
    (k : Nat), (∀ s ∈ l, s.IsEmpty = true → s.Instance = none) →
    (fillStack X g c l).countP (hasGuid k) ≤ l.countP (hasGuid k) + (if g ≤ k then 1 else 0) := by
  intro l
  induction l with
  | nil => intro g c k _; simp [fillStack]
  | cons a rest ih =>
    intro g c k hemp
    have hrest : ∀ s ∈ rest, s.IsEmpty = true → s.Instance = none :=
      fun s hs => hemp s (by simp [hs])
    unfold fillStack
    by_cases hc : c > 0
    · by_cases he : a.IsEmpty = true
      · simp only [hc, he, if_true]
        rw [List.countP_cons, List.countP_cons, hasGuid_new,
          hasGuid_none k a (hemp a (by simp) he)]
        have := ih (g + 1) (c - min c X.MaxStackSize) k hrest
        simp only [decide_eq_true_eq, Bool.false_eq_true, if_false]
        split_ifs at this ⊢ <;> omega
      · simp only [hc, he, Bool.false_eq_true, if_true, if_false]
        rw [List.countP_cons, List.countP_cons]
        have := ih g c k hrest
        omega
    · simp [hc]

/-- Slots written by `fillSingles` carry identities from the counter onwards. -/
theorem fillSingles_mem (X : UItem) : ∀ (l : List FInventorySlot) (g n : Nat)
    (s : FInventorySlot), s ∈ fillSingles X g n l →
    s ∈ l ∨ ∃ k, g ≤ k ∧ k < g + min n (emptyCount l) ∧ s.Instance = some ⟨k, some X⟩ := by
  intro l
  induction l with
  | nil => intro g n s hs; simp [fillSingles] at hs
  | cons a rest ih =>
    intro g n s hs
    cases n with
    | zero =>
      simp only [fillSingles] at hs
      exact Or.inl hs
    | succ n =>
      unfold fillSingles at hs
      rw [emptyCount_cons]
      by_cases he : a.IsEmpty = true
      · simp only [he, if_true, List.mem_cons] at hs ⊢
        rcases hs with h | h
        · right
          exact ⟨g, le_refl _, by omega, by rw [h]⟩
        · rcases ih _ _ s h with h2 | ⟨k, h1, h2, h3⟩
          · exact Or.inl (Or.inr h2)
          · exact Or.inr ⟨k, by omega, by omega, h3⟩
      · simp only [he, Bool.false_eq_true, if_false, List.mem_cons] at hs ⊢
        rcases hs with h | h
        · exact Or.inl (Or.inl h)
        · rcases ih _ _ s h with h2 | ⟨k, h1, h2, h3⟩
          · exact Or.inl (Or.inr h2)
          · exact Or.inr ⟨k, h1, by omega, h3⟩

theorem fillSingles_guidCount (X : UItem) : ∀ (l : List FInventorySlot) (g n : Nat)
    (k : Nat), (∀ s ∈ l, s.IsEmpty = true → s.Instance = none) →
    (fillSingles X g n l).countP (hasGuid k) ≤
      l.countP (hasGuid k) + (if g ≤ k then 1 else 0) := by
  intro l
  induction l with
  | nil => intro g n k _; simp [fillSingles]
  | cons a rest ih =>
    intro g n k hemp
    have hrest : ∀ s ∈ rest, s.IsEmpty = true → s.Instance = none :=
      fun s hs => hemp s (by simp [hs])
    cases n with
    | zero => simp [fillSingles]
    | succ n =>
      unfold fillSingles
      by_cases he : a.IsEmpty = true
      · simp only [he, if_true]
        rw [List.countP_cons, List.countP_cons, hasGuid_new,
          hasGuid_none k a (hemp a (by simp) he)]
        have := ih (g + 1) n k hrest
        simp only [decide_eq_true_eq, Bool.false_eq_true, if_false]
        split_ifs at this ⊢ <;> omega
      · simp only [he, Bool.false_eq_true, if_false]
        rw [List.countP_cons, List.countP_cons]
        have := ih g (n + 1) k hrest
        omega

theorem ok_empty_instance {l : List FInventorySlot} (hok : ∀ s ∈ l, SlotOK s) :
    ∀ s ∈ l, s.IsEmpty = true → s.Instance = none := by
  intro s hs he
  rw [(hok s hs).empty_shape he]

/-- An in-place update that keeps or clears the occupant keeps the allocation discipline. -/
theorem guid_updateAt (l : List FInventorySlot) (n i : Nat)
    (f : FInventorySlot → FInventorySlot)
    (hf : ∀ s, (f s).Instance = s.Instance ∨ (f s).Instance = none)
    (hb : ∀ s ∈ l, ∀ a, s.Instance = some a → a.Guid < n)
    (hu : ∀ k : Nat, l.countP (hasGuid k) ≤ 1) :
    (∀ s ∈ updateAt l i f, ∀ a, s.Instance = some a → a.Guid < n) ∧
    (∀ k : Nat, (updateAt l i f).countP (hasGuid k) ≤ 1) := by
  unfold updateAt
  cases h : l[i]? with
  | none => exact ⟨hb, hu⟩
  | some t =>
    simp only
    have hlt : i < l.length := by
      by_contra hn
      rw [List.getElem?_eq_none (by omega)] at h
      cases h
    have hget : l[i] = t := by
      rw [List.getElem?_eq_getElem hlt] at h
      exact Option.some.inj h
    have htm : t ∈ l := List.mem_iff_getElem?.2 ⟨i, h⟩
    constructor
    · intro s hs a ha
      rcases List.mem_or_eq_of_mem_set hs with h1 | h1
      · exact hb s h1 a ha
      · rw [h1] at ha
        rcases hf t with h2 | h2
        · rw [h2] at ha; exact hb t htm a ha
        · rw [h2] at ha; cases ha
    · intro k
      have hc := countP_set (hasGuid k) l i hlt (f t)
      rw [hget] at hc
      have := hu k
      rcases hf t with h2 | h2
      · rw [hasGuid_congr k t (f t) h2] at hc
        omega
      · rw [hasGuid_none k (f t) h2] at hc
        simp only [Bool.false_eq_true, if_false] at hc
        omega

theorem freeCount_instance (s : FInventorySlot) (c : Int) :
    (s.FreeCount c).2.Instance = s.Instance ∨ (s.FreeCount c).2.Instance = none := by
  by_cases hc : c ≤ 0
  · left; simp [FInventorySlot.FreeCount, hc]
  · by_cases hle : s.Stack ≤ c
    · right; rw [freeCount_all _ _ (by omega) hle]
    · left; rw [freeCount_some _ _ (by omega) (by omega)]

theorem removeLoop_guid (n : Nat) : ∀ (L : List FInventorySlot) (st : RemoveLoop),
    (∀ s ∈ st.Slots, ∀ a, s.Instance = some a → a.Guid < n) →
    (∀ k : Nat, st.Slots.countP (hasGuid k) ≤ 1) →
    (∀ s ∈ (RemoveItem.loop L st).Slots, ∀ a, s.Instance = some a → a.Guid < n) ∧
    (∀ k : Nat, (RemoveItem.loop L st).Slots.countP (hasGuid k) ≤ 1) := by
  intro L
  induction L with
  | nil => intro st hb hu; exact ⟨by simpa [RemoveItem.loop] using hb, by simpa [RemoveItem.loop] using hu⟩
  | cons f rest ih =>
    intro st hb hu
    unfold RemoveItem.loop
    by_cases hc : st.Count > 0
    · simp only [hc, if_true]
      obtain ⟨h1, h2⟩ := guid_updateAt st.Slots n f.SlotIndex
        (fun s => (s.FreeCount st.Count).2) (fun s => freeCount_instance s _) hb hu
      exact ih _ h1 h2
    · simp only [hc, if_false]
      exact ⟨hb, hu⟩

theorem fillStack_guid (X : UItem) (l : List FInventorySlot) (g : Nat) (c : Int)
    (hemp : ∀ s ∈ l, s.IsEmpty = true → s.Instance = none)
    (hb : ∀ s ∈ l, ∀ a, s.Instance = some a → a.Guid < g)
    (hu : ∀ k : Nat, l.countP (hasGuid k) ≤ 1) :
    (∀ s ∈ fillStack X g c l, ∀ a, s.Instance = some a →
      a.Guid < g + (fillIdx X c l).length) ∧
    (∀ k : Nat, (fillStack X g c l).countP (hasGuid k) ≤ 1) := by
  constructor
  · intro s hs a ha
    rcases fillStack_mem X l g c s hs with h | ⟨k, _, h2, h3⟩
    · have := hb s h a ha
      omega
    · rw [h3] at ha
      rw [← Option.some.inj ha]
      exact h2
  · intro k
    have h1 := fillStack_guidCount X l g c k hemp
    by_cases hk : g ≤ k
    · rw [guidCount_zero_of_below l g k hb hk] at h1
      simp only [hk, if_true] at h1
      omega
    · simp only [hk, if_false] at h1
      have := hu k
      omega

theorem fillSingles_guid (X : UItem) (l : List FInventorySlot) (g n : Nat)
    (hemp : ∀ s ∈ l, s.IsEmpty = true → s.Instance = none)
    (hb : ∀ s ∈ l, ∀ a, s.Instance = some a → a.Guid < g)
    (hu : ∀ k : Nat, l.countP (hasGuid k) ≤ 1) :
    (∀ s ∈ fillSingles X g n l, ∀ a, s.Instance = some a →
      a.Guid < g + min n (emptyCount l)) ∧
    (∀ k : Nat, (fillSingles X g n l).countP (hasGuid k) ≤ 1) := by
  constructor
  · intro s hs a ha
    rcases fillSingles_mem X l g n s hs with h | ⟨k, _, h2, h3⟩
    · have := hb s h a ha
      omega
    · rw [h3] at ha
      rw [← Option.some.inj ha]
      exact h2
  · intro k
    have h1 := fillSingles_guidCount X l g n k hemp
    by_cases hk : g ≤ k
    · rw [guidCount_zero_of_below l g k hb hk] at h1
      simp only [hk, if_true] at h1
      omega
    · simp only [hk, if_false] at h1
      have := hu k
      omega

theorem fresh_guid (MaxSlots : Int) : GuidInv (Fresh MaxSlots) := by
  have hnone : ∀ s ∈ (Fresh MaxSlots).Slots, s.Instance = none := by
    intro s hs
    rw [fresh_slots, List.mem_map] at hs
    obtain ⟨i, _, rfl⟩ := hs
    rfl
  constructor
  · intro s hs a ha
    rw [hnone s hs] at ha
    cases ha
  · intro k
    have : (Fresh MaxSlots).Slots.countP (hasGuid k) = 0 := by
      rw [List.countP_eq_zero]
      intro s hs
      rw [hasGuid_none k s (hnone s hs)]
      simp
    omega

theorem removeItem_guid (inv : UInventoryComponent) (hG : GuidInv inv) (X : Option UItem)
    (c r0 : Int) : GuidInv (RemoveItem inv X c r0).inv := by
  unfold RemoveItem
  by_cases hfound : (inv.FindSlotsWithItem X).1 = false
  · simp only [hfound, if_true]
    exact hG
  · simp only [hfound, if_false]
    obtain ⟨h1, h2⟩ := removeLoop_guid inv.NextGuid (sortByStack (inv.FindSlotsWithItem X).2)
      ⟨inv.Slots, [], r0, c, 0⟩ hG.below hG.uniq
    exact ⟨h1, h2⟩

theorem free_instance (s : FInventorySlot) :
    s.Free.Instance = s.Instance ∨ s.Free.Instance = none := by
  rcases free_cases s with h | h <;> rw [h]
  · exact Or.inl rfl
  · exact Or.inr rfl

theorem removeInstance_guid (inv : UInventoryComponent) (hG : GuidInv inv)
    (Instance : Option UItemInstance) : GuidInv (RemoveInstance inv Instance).inv := by
  unfold RemoveInstance
  cases hf : inv.FindSlotOfInstance Instance with
  | none => exact hG
  | some t =>
    simp only
    obtain ⟨h1, h2⟩ := guid_updateAt inv.Slots inv.NextGuid t.SlotIndex
      (fun s => s.Free) free_instance hG.below hG.uniq
    exact ⟨h1, h2⟩

theorem addItem_guid (fuel : Nat) (inv : UInventoryComponent) (hInv : Inv inv)
    (hG : GuidInv inv) (X : UItem) (c : Int) (out : Call Bool) (hM : 1 ≤ X.MaxStackSize)
    (hc : 1 ≤ c) (h : AddItem fuel inv (some X) c = some out) : GuidInv out.inv := by
  have h2 := addItem_mono fuel inv (some X) c out h (emptyCount inv.Slots)
  have hemp := ok_empty_instance hInv.ok
  by_cases hfull : inv.IsFull = true
  · rw [addItem_full _ _ _ _ hfull] at h2
    cases h2; exact hG
  · have hfull2 : inv.IsFull = false := by simpa using hfull
    by_cases hS : X.bIsStackable = false
    · rw [addItem_single _ _ _ _ hInv.idx hInv.ok hS hM hfull2] at h2
      cases h2
      obtain ⟨h1, h3⟩ := fillSingles_guid X inv.Slots inv.NextGuid c.toNat hemp hG.below hG.uniq
      exact ⟨h1, h3⟩
    · have hS2 : X.bIsStackable = true := by simpa using hS
      cases hf : inv.FindFirstFreeSlotForStack (some X) with
      | some t =>
        rw [addItem_topUp _ _ _ _ t hInv.idx hInv.ok hM hc hfull2 hf (by omega)] at h2
        cases h2
        have htm : t ∈ inv.Slots := List.mem_of_find?_eq_some hf
        have htt : stackTarget (some X) t = true := List.find?_some hf
        obtain ⟨g, hshape, _, hpos, hlt⟩ := stackTarget_shape (hInv.ok t htm) htt
        have hti := idx_mem hInv.idx htm
        have hilt : t.SlotIndex < inv.Slots.length := by
          by_contra hn
          rw [List.getElem?_eq_none (by omega)] at hti
          cases hti
        have hget : inv.Slots[t.SlotIndex] = t := by
          rw [List.getElem?_eq_getElem hilt] at hti
          exact Option.some.inj hti
        have hset : inv.Slots.set t.SlotIndex
            ⟨t.Instance, t.Stack + min c (X.MaxStackSize - t.Stack), t.SlotIndex⟩ =
            updateAt inv.Slots t.SlotIndex
              (fun s => ⟨s.Instance, s.Stack + min c (X.MaxStackSize - t.Stack), s.SlotIndex⟩) := by
          rw [updateAt_eq_set _ _ _ hilt, hget]
        obtain ⟨hb1, hu1⟩ := guid_updateAt inv.Slots inv.NextGuid t.SlotIndex
          (fun s => ⟨s.Instance, s.Stack + min c (X.MaxStackSize - t.Stack), s.SlotIndex⟩)
          (fun s => Or.inl rfl) hG.below hG.uniq
        rw [← hset] at hb1 hu1
        have hinst : t.Instance = some ⟨g, some X⟩ := by rw [hshape]
        have hnew : SlotOK ⟨t.Instance, t.Stack + min c (X.MaxStackSize - t.Stack),
            t.SlotIndex⟩ := by
          rw [hinst]
          exact slotOK_filled _ _ _ _ hM (by omega) (by simp [hS2]; omega)
        have hemp1 := ok_empty_instance (ok_set hInv.ok t.SlotIndex _ hnew)
        obtain ⟨h1, h3⟩ := fillStack_guid X _ inv.NextGuid
          (c - min c (X.MaxStackSize - t.Stack)) hemp1 hb1 hu1
        exact ⟨h1, h3⟩
      | none =>
        cases hfree : inv.FindFirstFreeSlot with
        | none =>
          rw [addItem_noTarget _ _ _ _ hS2 hfull2 hf hfree] at h2
          cases h2; exact hG
        | some t =>
          rw [addItem_empty _ _ _ _ t hInv.idx hInv.ok hS2 hM hc hfull2 hf hfree (by omega)]
            at h2
          cases h2
          obtain ⟨h1, h3⟩ := fillStack_guid X inv.Slots inv.NextGuid c hemp hG.below hG.uniq
          exact ⟨h1, h3⟩

/-- Every reachable state satisfies the allocation discipline of the instances. -/
theorem reachable_guid {inv : UInventoryComponent} (h : Reachable inv) : GuidInv inv := by
  induction h with
  | fresh MaxSlots => exact fresh_guid MaxSlots
  | addItem fuel it Count out hr hc hM hout ih =>
    exact addItem_guid fuel _ (reachable_inv hr) ih it Count out hM hc hout
  | removeItem Item Count RemovedItems _ _ ih => exact removeItem_guid _ ih Item Count RemovedItems
  | removeInstance Instance _ ih => exact removeInstance_guid _ ih Instance

theorem getInstance_eq_some (s : FInventorySlot) (a : UItemInstance) :
    s.GetInstance = some a ↔ s.IsEmpty = false ∧ s.Instance = some a := by
  unfold FInventorySlot.GetInstance
  by_cases he : s.IsEmpty = true
  · simp [he]
  · simp [he]

/-- The result of `RemoveInstance` for the occupant of slot `i` in a well-formed component
whose slots hold pairwise distinct instances. -/
theorem removeInstance_occupant (inv : UInventoryComponent) (hInv : Inv inv)
    (hG : GuidInv inv) (i : Nat) (s : FInventorySlot) (inst : UItemInstance)
    (hs : inv.Slots[i]? = some s) (hocc : s.Instance = some inst) :
    RemoveInstance inv (some inst) =
      ⟨true, { inv with Slots := inv.Slots.set i ⟨none, 0, i⟩ }, [[i]]⟩ ∧
    inv.FindSlotOfInstance (some inst) = some s ∧
    ∀ x ∈ inv.Slots.set i ⟨none, 0, i⟩, ¬ (x.GetInstance = some inst) := by
  have hsm : s ∈ inv.Slots := List.mem_iff_getElem?.2 ⟨i, hs⟩
  have hsi : s.SlotIndex = i := hInv.idx i s hs
  have hpos : 0 < s.Stack := by
    rcases hInv.ok s hsm with ⟨h1, _⟩ | ⟨_, _, _, _, h3, _⟩
    · rw [h1] at hocc; cases hocc
    · exact h3
  have hne : s.IsEmpty = false := by
    simp [FInventorySlot.IsEmpty, hocc]; omega
  have huniq : ∀ (j : Nat) (x : FInventorySlot), inv.Slots[j]? = some x →
      x.Instance = some inst → j = i := by
    intro j x hx hxi
    have h1 : hasGuid inst.Guid x = true := by simp [hasGuid, hxi]
    have h2 : hasGuid inst.Guid s = true := by simp [hasGuid, hocc]
    exact unique_of_countP_le_one _ _ (hG.uniq inst.Guid) j i x s hx hs h1 h2
  have hlt : i < inv.Slots.length := by
    by_contra hn
    rw [List.getElem?_eq_none (by omega)] at hs
    cases hs
  have hget : inv.Slots[i] = s := by
    rw [List.getElem?_eq_getElem hlt] at hs
    exact Option.some.inj hs
  have hfind : inv.FindSlotOfInstance (some inst) = some s := by
    cases hf : inv.FindSlotOfInstance (some inst) with
    | none =>
      simp only [FindSlotOfInstance, List.find?_eq_none] at hf
      have := hf s hsm
      rw [(getInstance_eq_some s inst).2 ⟨hne, hocc⟩] at this
      simp at this
    | some t =>
      have htm : t ∈ inv.Slots := List.mem_of_find?_eq_some hf
      have htp := List.find?_some hf
      simp only [beq_iff_eq] at htp
      have hti := idx_mem hInv.idx htm
      have := huniq t.SlotIndex t hti ((getInstance_eq_some t inst).1 htp).2
      rw [this, hs] at hti
      rw [Option.some.inj hti]
  have hfree : s.Free = ⟨none, 0, i⟩ := by
    unfold FInventorySlot.Free FInventorySlot.GetStackSize
    rw [freeCount_all _ _ hpos (le_refl _), hsi]
  refine ⟨?_, hfind, ?_⟩
  · unfold RemoveInstance
    rw [hfind]
    simp only
    rw [hsi, updateAt_eq_set _ _ _ hlt, hget, hfree]
  · intro x hx hxi
    obtain ⟨j, hj⟩ := List.mem_iff_getElem?.1 hx
    by_cases hij : i = j
    · subst hij
      rw [List.getElem?_set_self hlt] at hj
      rw [← Option.some.inj hj] at hxi
      simp [FInventorySlot.GetInstance, FInventorySlot.IsEmpty] at hxi
    · rw [List.getElem?_set_ne hij] at hj
      exact hij (huniq j x hj ((getInstance_eq_some x inst).1 hxi).2).symm

/-- C12: in a reachable state, for the occupant `inst` of slot `i`: `RemoveInstance(inst)`
returns true, leaves slot `i` without occupant and with stack 0, and leaves every other slot
as it was; a second `RemoveInstance(inst)` on the result returns false, changes nothing and
broadcasts nothing. -/
theorem C12_removeInstance_twice (inv : UInventoryComponent) (hr : Reachable inv) (i : Nat)
    (s : FInventorySlot) (inst : UItemInstance)
    (hs : inv.Slots[i]? = some s) (hocc : s.Instance = some inst) :
    (RemoveInstance inv (some inst)).ret = true ∧
    (RemoveInstance inv (some inst)).inv.Slots[i]? = some ⟨none, 0, i⟩ ∧
    (∀ j : Nat, j ≠ i → (RemoveInstance inv (some inst)).inv.Slots[j]? = inv.Slots[j]?) ∧
    (RemoveInstance (RemoveInstance inv (some inst)).inv (some inst)).ret = false ∧
    (RemoveInstance (RemoveInstance inv (some inst)).inv (some inst)).inv =
      (RemoveInstance inv (some inst)).inv ∧
    (RemoveInstance (RemoveInstance inv (some inst)).inv (some inst)).Broadcast = [] := by
  obtain ⟨h1, _, h3⟩ := removeInstance_occupant inv (reachable_inv hr) (reachable_guid hr)
    i s inst hs hocc
  have hlt : i < inv.Slots.length := by
    by_contra hn
    rw [List.getElem?_eq_none (by omega)] at hs
    cases hs
  have hnone : ({ inv with Slots := inv.Slots.set i ⟨none, 0, i⟩ } :
      UInventoryComponent).FindSlotOfInstance (some inst) = none := by
    simp only [FindSlotOfInstance, List.find?_eq_none]
    intro x hx
    simpa using h3 x hx
  have hsecond : RemoveInstance ({ inv with Slots := inv.Slots.set i ⟨none, 0, i⟩ } :
      UInventoryComponent) (some inst) =
      ⟨false, { inv with Slots := inv.Slots.set i ⟨none, 0, i⟩ }, []⟩ := by
    unfold RemoveInstance
    rw [hnone]
  rw [h1]
  simp only
  rw [hsecond]
  refine ⟨by trivial, ?_, ?_, by trivial, by trivial, by trivial⟩
  · exact List.getElem?_set_self hlt
  · intro j hj
    exact List.getElem?_set_ne (fun e => hj e.symm)

/-- C12 at `exInv`, slot 0 and its occupant. -/
theorem C12_removeInstance_twice_witness :
    Reachable exInv ∧
    exInv.Slots[0]? = some ⟨some ⟨0, some exItem⟩, 5, 0⟩ ∧
    (RemoveInstance exInv (some ⟨0, some exItem⟩)).ret = true ∧
    (RemoveInstance exInv (some ⟨0, some exItem⟩)).inv.Slots =
      [⟨none, 0, 0⟩, ⟨some ⟨1, some exItem⟩, 2, 1⟩] ∧
    (RemoveInstance (RemoveInstance exInv (some ⟨0, some exItem⟩)).inv
      (some ⟨0, some exItem⟩)).ret = false :=
  ⟨exInv_reachable, by rfl,
    (C12_removeInstance_twice exInv exInv_reachable 0 ⟨some ⟨0, some exItem⟩, 5, 0⟩
      ⟨0, some exItem⟩ (by rfl) rfl).1, by decide,
    (C12_removeInstance_twice exInv exInv_reachable 0 ⟨some ⟨0, some exItem⟩, 5, 0⟩
      ⟨0, some exItem⟩ (by rfl) rfl).2.2.2.1⟩

/-! ## Slot operations: claim C18 -/

theorem changedIdx_self (l : List FInventorySlot) : changedIdx l l = [] := by
  induction l with
  | nil => rfl
  | cons a rest ih => simp [changedIdx, ih]

theorem changedIdx_sublist : ∀ (pre post : List FInventorySlot),
    (changedIdx pre post).Sublist (pre.map (fun s => s.SlotIndex)) := by
  intro pre
  induction pre with
  | nil => intro post; simp [changedIdx]
  | cons a rest ih =>
    intro post
    cases post with
    | nil => simp [changedIdx]
    | cons b post =>
      unfold changedIdx
      by_cases h : a = b
      · simp only [h, if_true, List.map_cons]
        exact (ih post).cons _
      · simp only [h, if_false, List.map_cons]
        exact (ih post).cons₂ _

theorem mem_changedIdx : ∀ (pre post : List FInventorySlot) (i : Nat),
    i ∈ changedIdx pre post ↔
      ∃ (k : Nat) (s u : FInventorySlot), pre[k]? = some s ∧ post[k]? = some u ∧ s ≠ u ∧ s.SlotIndex = i := by
  intro pre
  induction pre with
  | nil => intro post i; simp [changedIdx]
  | cons a rest ih =>
    intro post i
    cases post with
    | nil => simp [changedIdx]
    | cons b post =>
      unfold changedIdx
      constructor
      · intro h
        by_cases hab : a = b
        · simp only [hab, if_true] at h
          obtain ⟨k, s, u, h1, h2, h3, h4⟩ := (ih post i).1 h
          exact ⟨k + 1, s, u, by simpa using h1, by simpa using h2, h3, h4⟩
        · simp only [hab, if_false, List.mem_cons] at h
          rcases h with h | h
          · exact ⟨0, a, b, by simp, by simp, hab, h.symm⟩
          · obtain ⟨k, s, u, h1, h2, h3, h4⟩ := (ih post i).1 h
            exact ⟨k + 1, s, u, by simpa using h1, by simpa using h2, h3, h4⟩
      · rintro ⟨k, s, u, h1, h2, h3, h4⟩
        cases k with
        | zero =>
          simp only [List.getElem?_cons_zero, Option.some.injEq] at h1 h2
          subst h1; subst h2
          simp [h3, h4]
        | succ k =>
          simp only [List.getElem?_cons_succ] at h1 h2
          have := (ih post i).2 ⟨k, s, u, h1, h2, h3, h4⟩
          by_cases hab : a = b
          · simpa [hab] using this
          · simp [hab, this]

theorem slot_ne_iff_differs (s u : FInventorySlot) (h : s.SlotIndex = u.SlotIndex) :
    s ≠ u ↔ slotDiffers s u := by
  unfold slotDiffers
  constructor
  · intro hne
    by_contra hcon
    apply hne
    rcases s with ⟨a, b, c⟩
    rcases u with ⟨a2, b2, c2⟩
    simp only [not_or, not_not] at hcon
    simp only at h
    simp only [FInventorySlot.mk.injEq]
    exact ⟨hcon.1, hcon.2, h⟩
  · intro hd he
    subst he
    rcases hd with h1 | h1 <;> exact h1 rfl

/-- The positions at which two index-carrying arrays of equal length differ are exactly what
`changedIdx` lists. -/
theorem listsChanged_changedIdx (pre post : List FInventorySlot)
    (hpre : ∀ (i : Nat) (s : FInventorySlot), pre[i]? = some s → s.SlotIndex = i)
    (hpost : ∀ (i : Nat) (s : FInventorySlot), post[i]? = some s → s.SlotIndex = i)
    (hlen : post.length = pre.length) :
    ListsChanged pre post (changedIdx pre post) := by
  have hmem : ∀ i : Nat, i ∈ changedIdx pre post ↔
      ∃ s u, pre[i]? = some s ∧ post[i]? = some u ∧ slotDiffers s u := by
    intro i
    rw [mem_changedIdx]
    constructor
    · rintro ⟨k, s, u, h1, h2, h3, h4⟩
      have hk : s.SlotIndex = k := hpre k s h1
      have hk2 : u.SlotIndex = k := hpost k u h2
      have hki : k = i := by omega
      subst hki
      exact ⟨s, u, h1, h2, (slot_ne_iff_differs s u (by omega)).1 h3⟩
    · rintro ⟨s, u, h1, h2, h3⟩
      have hk : s.SlotIndex = i := hpre i s h1
      have hk2 : u.SlotIndex = i := hpost i u h2
      exact ⟨i, s, u, h1, h2, (slot_ne_iff_differs s u (by omega)).2 h3, hk⟩
  refine ⟨?_, hmem, ?_⟩
  · apply (changedIdx_sublist pre post).nodup
    rw [idx_map_range hpre]
    exact List.nodup_range _
  · intro i hi
    by_cases hlt : i < pre.length
    · have h1 : pre[i]? = some pre[i] := List.getElem?_eq_getElem hlt
      have hlt2 : i < post.length := by omega
      have h2 : post[i]? = some post[i] := List.getElem?_eq_getElem hlt2
      by_cases he : pre[i] = post[i]
      · rw [h1, h2, he]
      · exfalso
        apply hi
        rw [hmem]
        refine ⟨_, _, h1, h2, ?_⟩
        exact (slot_ne_iff_differs _ _ (by rw [hpre i _ h1, hpost i _ h2])).1 he
    · rw [List.getElem?_eq_none (by omega), List.getElem?_eq_none (by omega)]

/-- The indices `fillStack` reports are the positions it changed. -/
theorem fillIdx_eq_changed (X : UItem) :
    ∀ (l : List FInventorySlot) (g : Nat) (c : Int), (∀ s ∈ l, SlotOK s) →
    fillIdx X c l = changedIdx l (fillStack X g c l) := by
  intro l
  induction l with
  | nil => intro g c _; simp [fillIdx, fillStack, changedIdx]
  | cons a rest ih =>
    intro g c hok
    have hrest : ∀ s ∈ rest, SlotOK s := fun s hs => hok s (by simp [hs])
    by_cases hc : c > 0
    · unfold fillIdx fillStack changedIdx
      by_cases he : a.IsEmpty = true
      · have hshape := (hok a (by simp)).empty_shape he
        have hne : ¬ (a = ⟨some ⟨g, some X⟩, min c X.MaxStackSize, a.SlotIndex⟩) := by
          intro h
          rw [hshape] at h
          simp at h
        simp only [hc, he, if_true, hne, if_false]
        rw [ih (g + 1) _ hrest]
      · simp only [hc, he, Bool.false_eq_true, if_true, if_false]
        rw [ih g c hrest]
    · rw [fillIdx_nonpos _ _ _ hc, fillStack_nonpos _ _ _ _ hc, changedIdx_self]

/-- The indices `fillSingles` reports are the positions it changed. -/
theorem singlesIdx_eq_changed (X : UItem) :
    ∀ (l : List FInventorySlot) (g n : Nat), (∀ s ∈ l, SlotOK s) →
    singlesIdx n l = changedIdx l (fillSingles X g n l) := by
  intro l
  induction l with
  | nil => intro g n _; simp [singlesIdx, fillSingles, changedIdx]
  | cons a rest ih =>
    intro g n hok
    have hrest : ∀ s ∈ rest, SlotOK s := fun s hs => hok s (by simp [hs])
    cases n with
    | zero => rw [singlesIdx_zero, fillSingles_zero, changedIdx_self]
    | succ n =>
      unfold singlesIdx fillSingles changedIdx
      by_cases he : a.IsEmpty = true
      · have hshape := (hok a (by simp)).empty_shape he
        have hne : ¬ (a = ⟨some ⟨g, some X⟩, 1, a.SlotIndex⟩) := by
          intro h
          rw [hshape] at h
          simp at h
        simp only [he, if_true, hne, if_false]
        rw [ih (g + 1) n hrest]
      · simp only [he, Bool.false_eq_true, if_false, if_true]
        rw [ih g (n + 1) hrest]

/-- Filling leaves every non-empty slot as it is. -/
theorem fillStack_keep (X : UItem) : ∀ (l : List FInventorySlot) (g : Nat) (c : Int) (i : Nat)
    (s : FInventorySlot), l[i]? = some s → s.IsEmpty = false →
    (fillStack X g c l)[i]? = some s := by
  intro l
  induction l with
  | nil => intro g c i s h; simp at h
  | cons a rest ih =>
    intro g c i s h hs
    by_cases hc : c > 0
    · unfold fillStack
      cases i with
      | zero =>
        simp only [List.getElem?_cons_zero, Option.some.injEq] at h
        subst h
        simp [hc, hs]
      | succ i =>
        simp only [List.getElem?_cons_succ] at h
        by_cases he : a.IsEmpty = true
        · simp only [hc, he, if_true, List.getElem?_cons_succ]
          exact ih _ _ i s h hs
        · simp only [hc, he, Bool.false_eq_true, if_true, if_false, List.getElem?_cons_succ]
          exact ih _ _ i s h hs
    · rw [fillStack_nonpos _ _ _ _ hc]
      exact h

theorem fillStack_length (X : UItem) (l : List FInventorySlot) (g : Nat) (c : Int) :
    (fillStack X g c l).length = l.length := by
  have := congrArg List.length (fillStack_idx X l g c)
  simpa using this

theorem fillSingles_length (X : UItem) (l : List FInventorySlot) (g n : Nat) :
    (fillSingles X g n l).length = l.length := by
  have := congrArg List.length (fillSingles_idx X l g n)
  simpa using this

theorem listsChanged_ne {pre post : List FInventorySlot} {B : List Nat}
    (h : ListsChanged pre post B) (hB : B ≠ []) : post ≠ pre := by
  intro he
  obtain ⟨i, hi⟩ := List.exists_mem_of_ne_nil B hB
  obtain ⟨s, u, h1, h2, h3⟩ := (h.2.1 i).1 hi
  rw [he, h1] at h2
  cases h2
  rcases h3 with h3 | h3 <;> exact h3 rfl

/-- One slot is rewritten first, and the remaining changes leave that slot alone. -/
theorem listsChanged_cons {l l1 post : List FInventorySlot} {j : Nat} {t t2 : FInventorySlot}
    {V : List Nat} (ht : l[j]? = some t) (hl1 : l1 = l.set j t2) (hd : slotDiffers t t2)
    (hpost : post[j]? = some t2) (h : ListsChanged l1 post V) :
    ListsChanged l post (j :: V) := by
  have hlt : j < l.length := by
    by_contra hn
    rw [List.getElem?_eq_none (by omega)] at ht
    cases ht
  have hj1 : l1[j]? = some t2 := by
    rw [hl1]; simp [List.getElem?_set, hlt]
  have hne : ∀ i : Nat, i ≠ j → l1[i]? = l[i]? := by
    intro i hi
    rw [hl1]
    simp [List.getElem?_set, Ne.symm hi]
  have hjV : j ∉ V := by
    intro hj
    obtain ⟨s, u, h1, h2, h3⟩ := (h.2.1 j).1 hj
    rw [hj1] at h1
    rw [hpost] at h2
    cases h1; cases h2
    rcases h3 with h3 | h3 <;> exact h3 rfl
  refine ⟨List.nodup_cons.2 ⟨hjV, h.1⟩, ?_, ?_⟩
  · intro i
    constructor
    · intro hi
      rcases List.mem_cons.1 hi with hi | hi
      · subst hi
        exact ⟨t, t2, ht, hpost, hd⟩
      · have hij : i ≠ j := fun he => hjV (he ▸ hi)
        obtain ⟨s, u, h1, h2, h3⟩ := (h.2.1 i).1 hi
        rw [hne i hij] at h1
        exact ⟨s, u, h1, h2, h3⟩
    · rintro ⟨s, u, h1, h2, h3⟩
      by_cases hij : i = j
      · simp [hij]
      · apply List.mem_cons_of_mem
        rw [h.2.1 i]
        exact ⟨s, u, by rw [hne i hij]; exact h1, h2, h3⟩
  · intro i hi
    simp only [List.mem_cons, not_or] at hi
    rw [h.2.2 i hi.2, hne i hi.1]

theorem listsChanged_refl (l : List FInventorySlot) : ListsChanged l l [] := by
  refine ⟨List.nodup_nil, ?_, fun _ _ => rfl⟩
  intro i
  constructor
  · intro h; cases h
  · rintro ⟨s, u, h1, h2, h3⟩
    rw [h1] at h2
    cases h2
    rcases h3 with h3 | h3 <;> exact absurd rfl h3

theorem find_get {l : List FInventorySlot}
    (hidx : ∀ (i : Nat) (s : FInventorySlot), l[i]? = some s → s.SlotIndex = i)
    {p : FInventorySlot → Bool} {t : FInventorySlot} (h : l.find? p = some t) :
    l[t.SlotIndex]? = some t ∧ p t = true := by
  have hm : t ∈ l := List.mem_of_find?_eq_some h
  obtain ⟨k, hk⟩ := List.mem_iff_getElem?.1 hm
  have := hidx k t hk
  rw [this]
  exact ⟨hk, List.find?_some h⟩

/-- What one `AddItem` call with a positive count does to the slots and what it reports:
either it fails and nothing happens, or it succeeds with one notification that lists exactly
the changed slots. -/
theorem addItem_changed (fuel : Nat) (inv : UInventoryComponent) (hInv : Inv inv) (X : UItem)
    (c : Int) (hM : 1 ≤ X.MaxStackSize) (hc : 1 ≤ c) (out : Call Bool)
    (h : AddItem fuel inv (some X) c = some out) :
    (out.ret = false ∧ out.Broadcast = [] ∧ out.inv = inv ∧
        (X.bIsStackable = false → inv.IsFull = true)) ∨
    (out.ret = true ∧ ∃ B, out.Broadcast = [B] ∧ ListsChanged inv.Slots out.inv.Slots B ∧
        (X.bIsStackable = true → B ≠ [])) := by
  by_cases hfull : inv.IsFull = true
  · rw [addItem_full fuel inv X c hfull] at h
    cases h
    exact Or.inl ⟨rfl, rfl, rfl, fun _ => hfull⟩
  have hfull2 : inv.IsFull = false := by simpa using hfull
  by_cases hS : X.bIsStackable = true
  · cases hf : inv.FindFirstFreeSlotForStack (some X) with
    | some t =>
      right
      have h2 := addItem_mono fuel inv (some X) c out h (emptyCount inv.Slots)
      rw [addItem_topUp (fuel + emptyCount inv.Slots) inv X c t hInv.idx hInv.ok hM hc hfull2 hf
        (by omega)] at h2
      cases h2
      obtain ⟨hget, htar⟩ := find_get hInv.idx hf
      have htm : t ∈ inv.Slots := List.mem_of_find?_eq_some hf
      obtain ⟨g, hshape, _, hpos, hlt⟩ := stackTarget_shape (hInv.ok t htm) htar
      have hinst : t.Instance = some ⟨g, some X⟩ := by rw [hshape]
      have hadd : 0 < min c (X.MaxStackSize - t.Stack) := by omega
      have hok2 : SlotOK ⟨t.Instance, t.Stack + min c (X.MaxStackSize - t.Stack), t.SlotIndex⟩ := by
        rw [hinst]
        apply slotOK_filled _ _ _ _ hM (by omega)
        simp only [hS, Bool.true_eq_false, if_false]
        omega
      have hok1 := ok_set hInv.ok t.SlotIndex _ hok2
      have hidx1 := idx_set hInv.idx t.SlotIndex
        ⟨t.Instance, t.Stack + min c (X.MaxStackSize - t.Stack), t.SlotIndex⟩ rfl
      refine ⟨rfl, _, rfl, ?_, fun _ => by simp⟩
      simp only
      rw [fillIdx_eq_changed X _ inv.NextGuid _ hok1]
      have hlt2 : t.SlotIndex < inv.Slots.length := by
        by_contra hn
        rw [List.getElem?_eq_none (by omega)] at hget
        cases hget
      have hne2 : FInventorySlot.IsEmpty
          ⟨t.Instance, t.Stack + min c (X.MaxStackSize - t.Stack), t.SlotIndex⟩ = false := by
        have h0 : t.Stack + min c (X.MaxStackSize - t.Stack) ≠ 0 := by omega
        simp [FInventorySlot.IsEmpty, hinst, h0]
      have hk := fillStack_keep X
        (inv.Slots.set t.SlotIndex
          ⟨t.Instance, t.Stack + min c (X.MaxStackSize - t.Stack), t.SlotIndex⟩)
        inv.NextGuid (c - min c (X.MaxStackSize - t.Stack)) t.SlotIndex
        ⟨t.Instance, t.Stack + min c (X.MaxStackSize - t.Stack), t.SlotIndex⟩
        (by simp [List.getElem?_set, hlt2]) hne2
      have hd : slotDiffers t
          ⟨t.Instance, t.Stack + min c (X.MaxStackSize - t.Stack), t.SlotIndex⟩ := by
        right
        intro he
        have he2 : t.Stack = t.Stack + min c (X.MaxStackSize - t.Stack) := he
        omega
      apply listsChanged_cons hget rfl hd hk
      apply listsChanged_changedIdx _ _ hidx1
      · exact idx_congr hidx1 (fillStack_idx X _ _ _)
      · rw [fillStack_length]
    | none =>
      cases hfree : inv.FindFirstFreeSlot with
      | none =>
        rw [addItem_noTarget fuel inv X c hS hfull2 hf hfree] at h
        cases h
        exact Or.inl ⟨rfl, rfl, rfl, fun hn => by rw [hS] at hn; cases hn⟩
      | some t =>
        right
        have h2 := addItem_mono fuel inv (some X) c out h (emptyCount inv.Slots)
        rw [addItem_empty (fuel + emptyCount inv.Slots) inv X c t hInv.idx hInv.ok hS hM hc
          hfull2 hf hfree (by omega)] at h2
        cases h2
        refine ⟨rfl, _, rfl, ?_, fun _ => ?_⟩
        · simp only
          rw [fillIdx_eq_changed X _ inv.NextGuid _ hInv.ok]
          apply listsChanged_changedIdx _ _ hInv.idx
          · exact idx_congr hInv.idx (fillStack_idx X _ _ _)
          · rw [fillStack_length]
        · obtain ⟨hget, hemp⟩ := find_get hInv.idx hfree
          obtain ⟨as, bs, hl, has, _⟩ := (find_split hInv.idx hfree).2
          rw [hl, fillIdx_skip X c as (t :: bs) has]
          unfold fillIdx
          have hc0 : c > 0 := by omega
          have hemp2 : t.IsEmpty = true := hemp
          simp [hc0, hemp2]
  · have hS2 : X.bIsStackable = false := by simpa using hS
    right
    rw [addItem_single fuel inv X c hInv.idx hInv.ok hS2 hM hfull2] at h
    cases h
    refine ⟨rfl, _, rfl, ?_, fun hn => absurd hn hS⟩
    simp only
    rw [singlesIdx_eq_changed X _ inv.NextGuid _ hInv.ok]
    apply listsChanged_changedIdx _ _ hInv.idx
    · exact idx_congr hInv.idx (fillSingles_idx X _ _ _)
    · rw [fillSingles_length]

/-- The removal loop reports the walked slots in walk order; a reported slot has lost units,
an unreported copy is still in place. -/
theorem removeLoop_changed : ∀ (L : List FInventorySlot) (st : RemoveLoop),
    (∀ x ∈ L, st.Slots[x.SlotIndex]? = some x) →
    (L.map (fun s => s.SlotIndex)).Nodup → (∀ f ∈ L, 0 < f.Stack) →
    ∃ V : List Nat, (RemoveItem.loop L st).ChangedSlots = st.ChangedSlots ++ V ∧
      V.Sublist (L.map (fun s => s.SlotIndex)) ∧
      (L ≠ [] → st.Count > 0 → V ≠ []) ∧
      (∀ f ∈ L, f.SlotIndex ∈ V →
        ∃ s, (RemoveItem.loop L st).Slots[f.SlotIndex]? = some s ∧ s.Stack < f.Stack) ∧
      (∀ f ∈ L, f.SlotIndex ∉ V → (RemoveItem.loop L st).Slots[f.SlotIndex]? = some f) := by
  intro L
  induction L with
  | nil =>
    intro st _ _ _
    refine ⟨[], by simp [RemoveItem.loop], List.Sublist.refl _, fun h => absurd rfl h, ?_, ?_⟩
    · intro f hf; cases hf
    · intro f hf; cases hf
  | cons h rest ih =>
    intro st hsnap hnd hpos
    have hrest : ∀ g ∈ rest, 0 < g.Stack := fun g hg => hpos g (by simp [hg])
    by_cases hc : st.Count > 0
    · obtain ⟨hs1, hn1, hnot, hself⟩ :=
        snap_step h rest st.Slots (fun s => (s.FreeCount st.Count).2) hsnap hnd
      obtain ⟨V, hV1, hV2, _, hV4, hV5⟩ := ih
        ⟨updateAt st.Slots h.SlotIndex (fun s => (s.FreeCount st.Count).2),
          st.ChangedSlots ++ [h.SlotIndex],
          st.RemovedItems + (st.Count - (st.Count - h.Stack)),
          st.Count - h.Stack, st.Count - h.Stack⟩ hs1 hn1 hrest
      have hne : ∀ f ∈ rest, f.SlotIndex ≠ h.SlotIndex := by
        intro f hf he
        apply hnot
        rw [← he]
        exact List.mem_map_of_mem _ hf
      unfold RemoveItem.loop
      simp only [hc, if_true]
      refine ⟨h.SlotIndex :: V, ?_, ?_, fun _ _ => by simp, ?_, ?_⟩
      · rw [hV1]; simp
      · simp only [List.map_cons]
        exact hV2.cons₂ _
      · intro f hf hfV
        rcases List.mem_cons.1 hf with hfh | hfr
        · rw [hfh, removeLoop_frame _ _ _ hnot]
          simp only
          rw [hself]
          have hh : 0 < h.Stack := hpos h (by simp)
          by_cases hle : h.Stack ≤ st.Count
          · rw [freeCount_all _ _ hc hle]
            exact ⟨_, rfl, by simp only; omega⟩
          · rw [freeCount_some _ _ hc (by omega)]
            exact ⟨_, rfl, by simp only; omega⟩
        · have : f.SlotIndex ∈ V := by
            rcases List.mem_cons.1 hfV with h1 | h1
            · exact absurd h1 (hne f hfr)
            · exact h1
          exact hV4 f hfr this
      · intro f hf hfV
        simp only [List.mem_cons, not_or] at hfV
        rcases List.mem_cons.1 hf with hfh | hfr
        · exact absurd (congrArg FInventorySlot.SlotIndex hfh) hfV.1
        · exact hV5 f hfr hfV.2
    · rw [removeLoop_stop _ _ hc]
      refine ⟨[], by simp, List.nil_sublist _, fun _ h => absurd h hc, ?_, ?_⟩
      · intro f _ hf; cases hf
      · intro f hf _; exact hsnap f hf

/-- What one `RemoveItem` call does to the slots and what it reports: nothing at all when no
slot holds the item, otherwise one notification that lists exactly the changed slots. -/
theorem removeItem_changed (inv : UInventoryComponent) (hInv : Inv inv) (X : Option UItem)
    (c r : Int) (hc : 1 ≤ c) :
    ((∀ s ∈ inv.Slots, holdsItem X s = false) ∧ RemoveItem inv X c r = ⟨(false, r), inv, []⟩) ∨
    ((∃ s ∈ inv.Slots, holdsItem X s = true) ∧
      ∃ B, (RemoveItem inv X c r).Broadcast = [B] ∧ B ≠ [] ∧
        ListsChanged inv.Slots (RemoveItem inv X c r).inv.Slots B) := by
  by_cases hheld : ∃ s ∈ inv.Slots, holdsItem X s = true
  · right
    refine ⟨hheld, ?_⟩
    obtain ⟨hmem, hsnap, hnd, hpos, _, _⟩ := found_facts hInv.idx hInv.ok X
    obtain ⟨V, hV1, hV2, hV3, hV4, hV5⟩ :=
      removeLoop_changed (sortByStack (inv.Slots.filter (holdsItem X))) ⟨inv.Slots, [], r, c, 0⟩
        hsnap hnd (fun f hf => (hpos f hf).2)
    have hLne : sortByStack (inv.Slots.filter (holdsItem X)) ≠ [] := by
      obtain ⟨s, hs, hh⟩ := hheld
      intro he
      have := (hmem s).2 ⟨hs, hh⟩
      rw [he] at this
      cases this
    rw [removeItem_held inv X c r hheld]
    simp only
    rw [hV1]
    simp only [List.nil_append]
    have hframe : ∀ i : Nat, i ∉ V →
        (RemoveItem.loop (sortByStack (inv.Slots.filter (holdsItem X)))
          ⟨inv.Slots, [], r, c, 0⟩).Slots[i]? = inv.Slots[i]? := by
      intro i hi
      by_cases hiL : i ∈ (sortByStack (inv.Slots.filter (holdsItem X))).map (fun s => s.SlotIndex)
      · obtain ⟨f, hf, hfi⟩ := List.mem_map.1 hiL
        have h1 := hV5 f hf (by rw [hfi]; exact hi)
        have h2 := hsnap f hf
        rw [hfi] at h1 h2
        rw [h1, h2]
      · exact removeLoop_frame _ _ _ hiL
    refine ⟨V, rfl, hV3 hLne (by simp only; omega), hV2.nodup hnd, ?_, hframe⟩
    intro i
    constructor
    · intro hi
      obtain ⟨f, hf, hfi⟩ := List.mem_map.1 (hV2.subset hi)
      obtain ⟨s, hs, hlt⟩ := hV4 f hf (by rw [hfi]; exact hi)
      have h2 := hsnap f hf
      rw [hfi] at hs h2
      exact ⟨f, s, h2, hs, Or.inr (by omega)⟩
    · rintro ⟨s, u, h1, h2, h3⟩
      by_contra hi
      rw [hframe i hi, h1] at h2
      cases h2
      rcases h3 with h3 | h3 <;> exact h3 rfl
  · left
    have hall : ∀ s ∈ inv.Slots, holdsItem X s = false := by
      intro s hs
      by_contra hn
      exact hheld ⟨s, hs, by simpa using hn⟩
    exact ⟨hall, removeItem_absent inv X c r hall⟩

/-- What one `RemoveInstance` call with a non-null instance does: nothing at all when it
fails, otherwise one notification that names the single slot it emptied. -/
theorem removeInstance_changed (inv : UInventoryComponent) (hInv : Inv inv)
    (inst : UItemInstance) :
    RemoveInstance inv (some inst) = ⟨false, inv, []⟩ ∨
    (∃ i : Nat, (RemoveInstance inv (some inst)).ret = true ∧
      (RemoveInstance inv (some inst)).Broadcast = [[i]] ∧
      ListsChanged inv.Slots (RemoveInstance inv (some inst)).inv.Slots [i]) := by
  cases hf : inv.FindSlotOfInstance (some inst) with
  | none =>
    left
    simp [RemoveInstance, hf]
  | some t =>
    right
    obtain ⟨hget, hp⟩ := find_get hInv.idx hf
    have hgi : t.GetInstance = some inst := by simpa using hp
    have hne : t.IsEmpty = false := by
      by_contra hn
      have he : t.IsEmpty = true := by simpa using hn
      simp [FInventorySlot.GetInstance, he] at hgi
    have hti : t.Instance = some inst := by
      simpa [FInventorySlot.GetInstance, hne] using hgi
    have htm : t ∈ inv.Slots := List.mem_of_find?_eq_some hf
    have hpos : 0 < t.Stack := by
      rcases hInv.ok t htm with ⟨h1, _⟩ | ⟨_, _, _, _, h3, _⟩
      · rw [h1] at hti; cases hti
      · exact h3
    have hlt : t.SlotIndex < inv.Slots.length := by
      by_contra hn
      rw [List.getElem?_eq_none (by omega)] at hget
      cases hget
    have hgt : inv.Slots[t.SlotIndex] = t := by
      have := List.getElem?_eq_getElem hlt
      rw [hget] at this
      exact (Option.some.inj this).symm
    have hfree : t.Free = ⟨none, 0, t.SlotIndex⟩ := by
      unfold FInventorySlot.Free FInventorySlot.GetStackSize
      exact freeCount_all t t.Stack hpos (le_refl _)
    refine ⟨t.SlotIndex, by simp [RemoveInstance, hf], by simp [RemoveInstance, hf], ?_⟩
    simp only [RemoveInstance, hf]
    rw [updateAt_eq_set _ _ _ hlt, hgt, hfree]
    refine @listsChanged_cons inv.Slots (inv.Slots.set t.SlotIndex ⟨none, 0, t.SlotIndex⟩)
      (inv.Slots.set t.SlotIndex ⟨none, 0, t.SlotIndex⟩) t.SlotIndex t ⟨none, 0, t.SlotIndex⟩ []
      hget rfl ?_ ?_ (listsChanged_refl _)
    · left
      rw [hti]
      simp
    · simp [List.getElem?_set, hlt]

/-- With fuel covering the number of slots, `AddItem` with a positive count returns. -/
theorem addItem_returns (inv : UInventoryComponent) (hInv : Inv inv) (X : UItem) (c : Int)
    (hM : 1 ≤ X.MaxStackSize) (hc : 1 ≤ c) (fuel : Nat) (hfuel : inv.Slots.length ≤ fuel) :
    ∃ out : Call Bool, AddItem fuel inv (some X) c = some out := by
  have hE := emptyCount_le_length inv.Slots
  by_cases hfull : inv.IsFull = true
  · exact ⟨_, addItem_full fuel inv X c hfull⟩
  have hfull2 : inv.IsFull = false := by simpa using hfull
  by_cases hS : X.bIsStackable = true
  · cases hf : inv.FindFirstFreeSlotForStack (some X) with
    | some t =>
      exact ⟨_, addItem_topUp fuel inv X c t hInv.idx hInv.ok hM hc hfull2 hf (by omega)⟩
    | none =>
      cases hfree : inv.FindFirstFreeSlot with
      | none => exact ⟨_, addItem_noTarget fuel inv X c hS hfull2 hf hfree⟩
      | some t =>
        exact ⟨_, addItem_empty fuel inv X c t hInv.idx hInv.ok hS hM hc hfull2 hf hfree
          (by omega)⟩
  · have hS2 : X.bIsStackable = false := by simpa using hS
    exact ⟨_, addItem_single fuel inv X c hInv.idx hInv.ok hS2 hM hfull2⟩

/-- C16: in a reachable state, for a non-null item `X` with max stack at least 1, a count
`c ≥ 1` and a non-null instance `inst`: `AddItem` returns once the fuel covers the number of
slots, and every list broadcast by an `AddItem`, `RemoveItem` or `RemoveInstance` call is
without duplicates, lists exactly the indices of the slots whose occupant or stack count
differs between the state before and the state after the call, and every slot whose index
is not listed is unchanged. -/
theorem C16_broadcast_exact (inv : UInventoryComponent) (hr : Reachable inv) (X : UItem)
    (c : Int) (inst : UItemInstance) (hM : 1 ≤ X.MaxStackSize) (hc : 1 ≤ c) :
    (∃ out : Call Bool, AddItem inv.Slots.length inv (some X) c = some out) ∧
    (∀ (fuel : Nat) (out : Call Bool), AddItem fuel inv (some X) c = some out →
      ∀ B ∈ out.Broadcast, ListsChanged inv.Slots out.inv.Slots B) ∧
    (∀ (r : Int), ∀ B ∈ (RemoveItem inv (some X) c r).Broadcast,
      ListsChanged inv.Slots (RemoveItem inv (some X) c r).inv.Slots B) ∧
    (∀ B ∈ (RemoveInstance inv (some inst)).Broadcast,
      ListsChanged inv.Slots (RemoveInstance inv (some inst)).inv.Slots B) := by
  have hInv := reachable_inv hr
  refine ⟨addItem_returns inv hInv X c hM hc _ (le_refl _), ?_, ?_, ?_⟩
  · intro fuel out h B hB
    rcases addItem_changed fuel inv hInv X c hM hc out h with
      ⟨_, h2, _, _⟩ | ⟨_, B2, h2, h3, _⟩
    · rw [h2] at hB; cases hB
    · rw [h2] at hB
      rw [List.mem_singleton.1 hB]
      exact h3
  · intro r B hB
    rcases removeItem_changed inv hInv (some X) c r hc with ⟨_, h2⟩ | ⟨_, B2, h2, _, h3⟩
    · rw [h2] at hB; cases hB
    · rw [h2] at hB
      rw [List.mem_singleton.1 hB]
      exact h3
  · intro B hB
    rcases removeInstance_changed inv hInv inst with h2 | ⟨i, _, h2, h3⟩
    · rw [h2] at hB; cases hB
    · rw [h2] at hB
      rw [List.mem_singleton.1 hB]
      exact h3

/-- C16 on the state with stacks 5 and 2 of one item (max stack 5): adding 3 units
broadcasts `[1]` and exactly slot 1 differs afterwards; removing 3 units broadcasts
`[1, 0]` and exactly slots 1 and 0 differ afterwards. -/
theorem C16_broadcast_exact_witness :
    Reachable exInv ∧ (1 : Int) ≤ exItem.MaxStackSize ∧ (1 : Int) ≤ 3 ∧
    (AddItem 2 exInv (some exItem) 3).map (fun o => (o.ret, o.inv, o.Broadcast)) =
      some (true, ⟨2, [⟨some ⟨0, some exItem⟩, 5, 0⟩, ⟨some ⟨1, some exItem⟩, 5, 1⟩], 2⟩,
        [[1]]) ∧
    ListsChanged exInv.Slots [⟨some ⟨0, some exItem⟩, 5, 0⟩, ⟨some ⟨1, some exItem⟩, 5, 1⟩]
      [1] ∧
    (RemoveItem exInv (some exItem) 3 0).Broadcast = [[1, 0]] ∧
    ListsChanged exInv.Slots (RemoveItem exInv (some exItem) 3 0).inv.Slots [1, 0] :=
  ⟨exInv_reachable, by decide, by decide, by decide,
    (C16_broadcast_exact exInv exInv_reachable exItem 3 ⟨0, some exItem⟩ (by decide)
      (by decide)).2.1 2
      ⟨true, ⟨2, [⟨some ⟨0, some exItem⟩, 5, 0⟩, ⟨some ⟨1, some exItem⟩, 5, 1⟩], 2⟩, [[1]]⟩
      (by rfl) [1] (List.mem_singleton.2 rfl),
    by decide,
    (C16_broadcast_exact exInv exInv_reachable exItem 3 ⟨0, some exItem⟩ (by decide)
      (by decide)).2.2.1 0 [1, 0] (by decide)⟩

/-- C17 (fails as stated): in the reachable state with stacks 5 and 2 of one item,
`RemoveItem(item, 9)` returns false, yet the notification sink is invoked once, with
`[1, 0]`; and `AddItem` of one non-stackable item, which finds no empty slot and changes
nothing, returns true and invokes the sink with an empty list. -/
theorem C17_sink_counterexample :
    Reachable exInv ∧
    (RemoveItem exInv (some exItem) 9 0).ret.1 = false ∧
    (RemoveItem exInv (some exItem) 9 0).Broadcast = [[1, 0]] ∧
    (RemoveItem exInv (some exItem) 9 0).inv.Slots = [⟨none, 0, 0⟩, ⟨none, 0, 1⟩] ∧
    (AddItem 2 exInv (some exSingle) 1).map (fun o => (o.ret, o.inv, o.Broadcast)) =
      some (true, exInv, [[]]) :=
  ⟨exInv_reachable, by decide, by decide, by decide, by decide⟩

/-- C17 (amended): in a reachable state, for a non-null item `X` with max stack at least 1,
a count `c ≥ 1` and a non-null instance `inst`: `AddItem` returns once the fuel covers the
number of slots; every call invokes the notification sink at most once; the sink is not
invoked when `AddItem` returns false, when `RemoveItem` finds no slot holding the item, or
when `RemoveInstance` returns false, and in these cases nothing changes; whenever a slot
holds the item, `RemoveItem` invokes the sink exactly once and has changed a slot, whatever
it returns; and a stackable `AddItem` or a `RemoveInstance` that invokes the sink has
changed a slot. -/
theorem C17_sink_amended (inv : UInventoryComponent) (hr : Reachable inv) (X : UItem)
    (c : Int) (inst : UItemInstance) (hM : 1 ≤ X.MaxStackSize) (hc : 1 ≤ c) :
    (∃ out : Call Bool, AddItem inv.Slots.length inv (some X) c = some out) ∧
    (∀ (fuel : Nat) (out : Call Bool), AddItem fuel inv (some X) c = some out →
      out.Broadcast.length ≤ 1 ∧
      (out.ret = false → out.Broadcast = [] ∧ out.inv = inv) ∧
      (X.bIsStackable = true → out.Broadcast ≠ [] → out.inv.Slots ≠ inv.Slots)) ∧
    (∀ r : Int,
      (RemoveItem inv (some X) c r).Broadcast.length ≤ 1 ∧
      ((∀ s ∈ inv.Slots, holdsItem (some X) s = false) →
        (RemoveItem inv (some X) c r).Broadcast = [] ∧
        (RemoveItem inv (some X) c r).inv = inv) ∧
      ((∃ s ∈ inv.Slots, holdsItem (some X) s = true) →
        (RemoveItem inv (some X) c r).Broadcast.length = 1 ∧
        (RemoveItem inv (some X) c r).inv.Slots ≠ inv.Slots)) ∧
    ((RemoveInstance inv (some inst)).Broadcast.length ≤ 1 ∧
      ((RemoveInstance inv (some inst)).ret = false →
        (RemoveInstance inv (some inst)).Broadcast = [] ∧
        (RemoveInstance inv (some inst)).inv = inv) ∧
      ((RemoveInstance inv (some inst)).Broadcast ≠ [] →
        (RemoveInstance inv (some inst)).inv.Slots ≠ inv.Slots)) := by
  have hInv := reachable_inv hr
  refine ⟨addItem_returns inv hInv X c hM hc _ (le_refl _), ?_, ?_, ?_⟩
  · intro fuel out h
    rcases addItem_changed fuel inv hInv X c hM hc out h with
      ⟨_, h2, h3, _⟩ | ⟨h1, B, h2, h3, h4⟩
    · rw [h2]
      exact ⟨by simp, fun _ => ⟨rfl, h3⟩, fun _ hn => absurd rfl hn⟩
    · rw [h2]
      refine ⟨by simp, fun hf => ?_, fun hS _ => listsChanged_ne h3 (h4 hS)⟩
      rw [h1] at hf
      cases hf
  · intro r
    rcases removeItem_changed inv hInv (some X) c r hc with
      ⟨h1, h2⟩ | ⟨⟨s, hs, hh⟩, B, h2, h3, h4⟩
    · rw [h2]
      refine ⟨by simp, fun _ => ⟨rfl, rfl⟩, ?_⟩
      rintro ⟨s, hs, hh⟩
      rw [h1 s hs] at hh
      cases hh
    · rw [h2]
      refine ⟨by simp, fun hall => ?_, fun _ => ⟨by simp, listsChanged_ne h4 h3⟩⟩
      rw [hall s hs] at hh
      cases hh
  · rcases removeInstance_changed inv hInv inst with h2 | ⟨i, h1, h2, h3⟩
    · rw [h2]
      exact ⟨by simp, fun _ => ⟨rfl, rfl⟩, fun hn => absurd rfl hn⟩
    · rw [h2]
      refine ⟨by simp, fun hf => ?_, fun _ => listsChanged_ne h3 (by simp)⟩
      rw [h1] at hf
      cases hf

/-- C17 (amended) on the state with stacks 5 and 2 of one item: `RemoveItem(item, 9)`
invokes the sink exactly once and has changed a slot, although it returns false. -/
theorem C17_sink_amended_witness :
    Reachable exInv ∧ (1 : Int) ≤ exItem.MaxStackSize ∧ (1 : Int) ≤ 9 ∧
    (∃ s ∈ exInv.Slots, holdsItem (some exItem) s = true) ∧
    (RemoveItem exInv (some exItem) 9 0).ret.1 = false ∧
    (RemoveItem exInv (some exItem) 9 0).Broadcast.length = 1 ∧
    (RemoveItem exInv (some exItem) 9 0).inv.Slots ≠ exInv.Slots :=
  ⟨exInv_reachable, by decide, by decide, by decide, by decide,
    ((C17_sink_amended exInv exInv_reachable exItem 9 ⟨0, some exItem⟩ (by decide)
      (by decide)).2.2.1 0).2.2 (by decide)⟩

/-! ## Check-then-remove: claim C20 -/

theorem wrapInt32_of_fits (x : Int) (h1 : -2147483648 ≤ x) (h2 : x ≤ 2147483647) :
    wrapInt32 x = x := by
  unfold wrapInt32
  omega

theorem visit_eq (Item : Option UItem) (count : Int) (s : FInventorySlot) :
    HasItemWithAmount.visit Item count s =
      if holdsItem Item s = true then wrapInt32 (count + s.Stack) else count := by
  unfold HasItemWithAmount.visit holdsItem FInventorySlot.GetInstance FInventorySlot.GetStackSize
  by_cases he : s.IsEmpty = true
  · simp [he]
  · cases hsi : s.Instance with
    | none => simp [he]
    | some a => by_cases ha : a.Item = Item <;> simp [he, ha]

theorem unitsHeld_nonneg (Item : Option UItem) (l : List FInventorySlot)
    (hok : ∀ s ∈ l, SlotOK s) : 0 ≤ unitsHeld Item l := by
  unfold unitsHeld
  apply stackSum_nonneg
  intro f hf
  obtain ⟨h1, h2⟩ := List.mem_filter.1 hf
  exact holdsItem_pos (hok f h1) h2

/-- While the running total fits an `int32`, the accumulator of `HasItemWithAmount` is the
number of units held. -/
theorem visit_foldl (Item : Option UItem) : ∀ (l : List FInventorySlot) (acc : Int),
    (∀ s ∈ l, SlotOK s) → 0 ≤ acc → acc + unitsHeld Item l ≤ 2147483647 →
    l.foldl (HasItemWithAmount.visit Item) acc = acc + unitsHeld Item l := by
  intro l
  induction l with
  | nil => intro acc _ _ _; simp [unitsHeld]
  | cons a rest ih =>
    intro acc hok hacc hfit
    have hrest : ∀ s ∈ rest, SlotOK s := fun s hs => hok s (by simp [hs])
    have hnn := unitsHeld_nonneg Item rest hrest
    rw [unitsHeld_cons] at hfit ⊢
    rw [List.foldl_cons, visit_eq]
    by_cases hh : holdsItem Item a = true
    · have hpos := holdsItem_pos (hok a (by simp)) hh
      simp only [hh, if_true] at hfit ⊢
      rw [wrapInt32_of_fits _ (by omega) (by omega), ih _ hrest (by omega) (by omega)]
      omega
    · simp only [hh, Bool.false_eq_true, if_false] at hfit ⊢
      rw [ih _ hrest hacc (by omega)]
      omega

theorem hasItemWithAmount_eq (inv : UInventoryComponent) (hok : ∀ s ∈ inv.Slots, SlotOK s)
    (Item : Option UItem) (Amount : Int) (hfit : unitsHeld Item inv.Slots ≤ 2147483647) :
    HasItemWithAmount inv Item Amount = decide (Amount ≤ unitsHeld Item inv.Slots) := by
  unfold HasItemWithAmount
  simp only [ge_iff_le]
  rw [visit_foldl Item inv.Slots 0 hok (le_refl _) (by omega)]
  simp

theorem exBig_reachable : Reachable exBig := by
  have h1 := @Reachable.addItem (Fresh 3) 3 exBigItem 800000000
    ⟨true, ⟨3, [⟨some ⟨0, some exBigItem⟩, 800000000, 0⟩, ⟨none, 0, 1⟩, ⟨none, 0, 2⟩], 1⟩, [[0]]⟩
    (Reachable.fresh 3) (by decide) (by decide) (by rfl)
  have h2 := @Reachable.addItem _ 3 exBigItem 800000000
    ⟨true, ⟨3, [⟨some ⟨0, some exBigItem⟩, 800000000, 0⟩,
      ⟨some ⟨1, some exBigItem⟩, 800000000, 1⟩, ⟨none, 0, 2⟩], 2⟩, [[1]]⟩
    h1 (by decide) (by decide) (by rfl)
  exact @Reachable.addItem _ 3 exBigItem 800000000 ⟨true, exBig, [[2]]⟩
    h2 (by decide) (by decide) (by rfl)

/-- C20 (fails as stated): in the reachable state `exBig`, three full stacks of 800000000
units of one item, `HasItemWithAmount(item, 1)` answers false, because its `int32` count has
wrapped to -1894967296, while `RemoveItem(item, 1)` on the same state returns true. -/
theorem C20_int32_counterexample :
    Reachable exBig ∧ (1 : Int) ≤ exBigItem.MaxStackSize ∧
    unitsHeld (some exBigItem) exBig.Slots = 2400000000 ∧
    exBig.Slots.foldl (HasItemWithAmount.visit (some exBigItem)) 0 = -1894967296 ∧
    HasItemWithAmount exBig (some exBigItem) 1 = false ∧
    (RemoveItem exBig (some exBigItem) 1 0).ret.1 = true :=
  ⟨exBig_reachable, by decide, by decide, by decide, by decide, by decide⟩

/-- C20 (amended): in a reachable state in which the units of the item held total at most
2147483647, and for `n ≥ 1`, `HasItemWithAmount(item, n)` is true exactly when
`RemoveItem(item, n)` on the same state returns true. -/
theorem C20_check_then_remove (inv : UInventoryComponent) (hr : Reachable inv)
    (Item : Option UItem) (n RemovedItems : Int) (hn : 1 ≤ n)
    (hfit : unitsHeld Item inv.Slots ≤ 2147483647) :
    HasItemWithAmount inv Item n = true ↔ (RemoveItem inv Item n RemovedItems).ret.1 = true := by
  rw [hasItemWithAmount_eq inv (reachable_inv hr).ok Item n hfit,
    removeItem_true_iff_units inv hr Item n RemovedItems hn]
  simp

/-- C20 (amended) at `exInv`: 7 units held, so both agree on 7 (true) and on 8 (false). -/
theorem C20_check_then_remove_witness :
    Reachable exInv ∧ (1 : Int) ≤ 7 ∧ unitsHeld (some exItem) exInv.Slots ≤ 2147483647 ∧
    (HasItemWithAmount exInv (some exItem) 7 = true ↔
      (RemoveItem exInv (some exItem) 7 0).ret.1 = true) ∧
    HasItemWithAmount exInv (some exItem) 7 = true ∧
    HasItemWithAmount exInv (some exItem) 8 = false ∧
    (RemoveItem exInv (some exItem) 8 0).ret.1 = false :=
  ⟨exInv_reachable, by decide, by decide,
    C20_check_then_remove exInv exInv_reachable (some exItem) 7 0 (by decide) (by decide),
    by decide, by decide, by decide⟩

end Inventory
